import Mathlib

/-!
# Verification of the documentation decision engine

Shallow embedding of `scripts/ai_doc_generator.py`: the decision extractor
(`intelligent_documentation_strategy`), the content classifier, the strategy
executor (`execute_intelligent_documentation` and its helpers) and the
per-run control flow of `main`.  External collaborators (git transport, the
advisory provider, the wall clock) are modelled as explicit parameters, as
the specification prescribes.  Python strings are modelled as `String` /
`List Char`, Python dicts produced by `json.loads` as the `Json` inductive,
Python exceptions as `Except PyErr`.
-/

set_option maxHeartbeats 1000000
set_option maxRecDepth 100000

namespace AIDoc

/-- The backtick character, U+0060. -/
def btChar : Char := Char.ofNat 96

/-- Whitespace characters recognised by Python's `json` module
(`json.decoder.WHITESPACE_STR`): space, tab, newline, carriage return. -/
def isJsonWs (c : Char) : Bool := c = ' ' || c = '\t' || c = '\n' || c = '\r'

/-- ASCII whitespace as treated by Python's `str.strip()` and by the regex
class `\s`: space, tab, newline, carriage return, vertical tab, form feed. -/
def isPyWs (c : Char) : Bool :=
  c = ' ' || c = '\t' || c = '\n' || c = '\r' || c = '\x0b' || c = '\x0c'

/-- Python `str.strip()` on a character list. -/
def pyStripL (l : List Char) : List Char :=
  ((l.dropWhile isPyWs).reverse.dropWhile isPyWs).reverse

/-- Python `str.strip()`. -/
def pyStrip (s : String) : String := (pyStripL s.toList).asString

/-- `needle` is a prefix of `l` (character-wise). -/
def matchAt : List Char → List Char → Bool
  | [], _ => true
  | _ :: _, [] => false
  | a :: ns, b :: ls => a = b && matchAt ns ls

/-- Python's substring test `needle in haystack` on character lists. -/
def containsSeq (haystack needle : List Char) : Bool :=
  match haystack with
  | [] => needle.isEmpty
  | _ :: t => matchAt needle haystack || containsSeq t needle

/-- Python's substring test `needle in haystack` on strings. -/
def strContains (haystack needle : String) : Bool :=
  containsSeq haystack.toList needle.toList

/-- Python `str.lower()` (the source only lowercases ASCII text). -/
def lowerStr (s : String) : String := (s.toList.map Char.toLower).asString

/-- Python `str.replace(pat, rep)` (all non-overlapping occurrences, left to
right), with an explicit fuel argument so that the definition is structural
and kernel-reducible.  Called with `fuel = l.length`, which is enough since
each step consumes at least one character of `l`. -/
def replaceSeqF : Nat → List Char → List Char → List Char → List Char
  | 0, l, _, _ => l
  | _, [], _, _ => []
  | fuel + 1, c :: t, pat, rep =>
    match pat with
    | [] => c :: t
    | _ :: ps =>
      if matchAt pat (c :: t) then rep ++ replaceSeqF fuel (t.drop ps.length) pat rep
      else c :: replaceSeqF fuel t pat rep

/-- Python `str.replace(pat, rep)` for a non-empty pattern. -/
def replaceSeq (l pat rep : List Char) : List Char := replaceSeqF l.length l pat rep

/-! ## JSON values and `json.loads`

The decision extractor parses the advisory response with Python's
`json.loads`.  `Json` models the parsed value (numbers are kept as their
source lexeme: none of the engine's decisions depends on numeric value
beyond truthiness, which is computed from the lexeme). -/

/-- A parsed JSON value as produced by `json.loads`.  Object members are kept
in source order; Python dict semantics (last duplicate key wins) are realised
by `Json.lookup` preferring the last binding. -/
inductive Json where
  | null : Json
  | bool (b : Bool) : Json
  | num (lexeme : String) : Json
  | str (s : String) : Json
  | arr (elems : List Json) : Json
  | obj (members : List (String × Json)) : Json

/-- Drop leading JSON whitespace (the decoder's `_w(s, idx).end()`). -/
def skipJsonWs (l : List Char) : List Char := l.dropWhile isJsonWs

/-- Value of a hexadecimal digit. -/
def hexVal (c : Char) : Option Nat :=
  if '0' ≤ c ∧ c ≤ '9' then some (c.toNat - '0'.toNat)
  else if 'a' ≤ c ∧ c ≤ 'f' then some (c.toNat - 'a'.toNat + 10)
  else if 'A' ≤ c ∧ c ≤ 'F' then some (c.toNat - 'A'.toNat + 10)
  else none

/-- Four hex digits of a `\uXXXX` escape. -/
def parseHex4 : List Char → Option (Nat × List Char)
  | a :: b :: c :: d :: r =>
    match hexVal a, hexVal b, hexVal c, hexVal d with
    | some x, some y, some z, some w => some (((x * 16 + y) * 16 + z) * 16 + w, r)
    | _, _, _, _ => none
  | _ => none

/-- Decoded character of a single-character escape (`\" \\ \/ \b \f \n \r \t`). -/
def escChar (c : Char) : Option Char :=
  if c = '"' then some '"'
  else if c = '\\' then some '\\'
  else if c = '/' then some '/'
  else if c = 'b' then some '\x08'
  else if c = 'f' then some '\x0c'
  else if c = 'n' then some '\n'
  else if c = 'r' then some '\r'
  else if c = 't' then some '\t'
  else none

/-- Body of a JSON string literal, after the opening quote, in strict mode:
raw control characters (code points below 0x20) are rejected, escapes are
decoded, and a `\uXXXX` high surrogate followed by a low surrogate is
combined.  Python keeps a lone surrogate in the str; Lean's `Char` has no
surrogate code points, so a lone surrogate decodes to U+FFFD here (no claim
depends on that corner).  Returns the decoded characters and the rest of the
input after the closing quote. -/
def parseStringBody : Nat → List Char → Option (List Char × List Char)
  | 0, _ => none
  | fuel + 1, l =>
    match l with
    | [] => none
    | '"' :: r => some ([], r)
    | '\\' :: e :: r =>
      if e = 'u' then
        match parseHex4 r with
        | none => none
        | some (n, r') =>
          if 0xD800 ≤ n ∧ n < 0xDC00 then
            match r' with
            | '\\' :: 'u' :: r'' =>
              match parseHex4 r'' with
              | some (m, r3) =>
                if 0xDC00 ≤ m ∧ m < 0xE000 then
                  (parseStringBody fuel r3).map (fun p =>
                    (Char.ofNat (0x10000 + (n - 0xD800) * 0x400 + (m - 0xDC00)) :: p.1, p.2))
                else
                  (parseStringBody fuel r').map (fun p => ('\uFFFD' :: p.1, p.2))
              | none => (parseStringBody fuel r').map (fun p => ('\uFFFD' :: p.1, p.2))
            | _ => (parseStringBody fuel r').map (fun p => ('\uFFFD' :: p.1, p.2))
          else if 0xDC00 ≤ n ∧ n < 0xE000 then
            (parseStringBody fuel r').map (fun p => ('\uFFFD' :: p.1, p.2))
          else
            (parseStringBody fuel r').map (fun p => (Char.ofNat n :: p.1, p.2))
      else
        match escChar e with
        | some d => (parseStringBody fuel r).map (fun p => (d :: p.1, p.2))
        | none => none
    | c :: r =>
      if c.toNat < 0x20 then none
      else (parseStringBody fuel r).map (fun p => (c :: p.1, p.2))

/-- Maximal run of decimal digits. -/
def takeDigits (l : List Char) : List Char × List Char :=
  (l.takeWhile Char.isDigit, l.dropWhile Char.isDigit)

/-- Integer part of the number grammar: `0 | [1-9][0-9]*` (no leading zeros). -/
def parseIntPart : List Char → Option (List Char × List Char)
  | '0' :: r => some (['0'], r)
  | c :: r =>
    if c.isDigit then
      let (ds, r') := takeDigits r
      some (c :: ds, r')
    else none
  | [] => none

/-- Optional fraction part `\.[0-9]+`; consumed only when complete
(regex group semantics: a bare `.` not followed by a digit is left in place). -/
def parseFracPart (l : List Char) : List Char × List Char :=
  match l with
  | '.' :: c :: r =>
    if c.isDigit then
      let (ds, r') := takeDigits r
      ('.' :: c :: ds, r')
    else ([], l)
  | _ => ([], l)

/-- Optional exponent part `[eE][+-]?[0-9]+`; consumed only when complete. -/
def parseExpPart (l : List Char) : List Char × List Char :=
  match l with
  | e :: '+' :: c :: r =>
    if (e = 'e' ∨ e = 'E') ∧ c.isDigit then
      let (ds, r') := takeDigits r
      (e :: '+' :: c :: ds, r')
    else ([], l)
  | e :: '-' :: c :: r =>
    if (e = 'e' ∨ e = 'E') ∧ c.isDigit then
      let (ds, r') := takeDigits r
      (e :: '-' :: c :: ds, r')
    else ([], l)
  | e :: c :: r =>
    if (e = 'e' ∨ e = 'E') ∧ c.isDigit then
      let (ds, r') := takeDigits r
      (e :: c :: ds, r')
    else ([], l)
  | _ => ([], l)

/-- Number token per `json.scanner.NUMBER_RE`:
`(-?(?:0|[1-9]\d*))(\.\d+)?([eE][-+]?\d+)?`.  Returns the lexeme. -/
def parseNumber (l : List Char) : Option (String × List Char) :=
  match l with
  | '-' :: r =>
    match parseIntPart r with
    | none => none
    | some (ip, r1) =>
      let (fp, r2) := parseFracPart r1
      let (ep, r3) := parseExpPart r2
      some (('-' :: (ip ++ fp ++ ep)).asString, r3)
  | _ =>
    match parseIntPart l with
    | none => none
    | some (ip, r1) =>
      let (fp, r2) := parseFracPart r1
      let (ep, r3) := parseExpPart r2
      some ((ip ++ fp ++ ep).asString, r3)

/-- Strip a literal character sequence off the front of the input, or fail. -/
def stripLit : List Char → List Char → Option (List Char)
  | [], l => some l
  | _ :: _, [] => none
  | c :: cs, x :: xs => if x = c then stripLit cs xs else none

/-- A non-composite JSON value: one of the constants `true`, `false`, `null`,
`NaN`, `Infinity`, `-Infinity` (tried in the order of CPython's scanner), or
a number. -/
def parseAtom (l : List Char) : Option (Json × List Char) :=
  match stripLit ['t', 'r', 'u', 'e'] l with
  | some r => some (Json.bool true, r)
  | none =>
  match stripLit ['f', 'a', 'l', 's', 'e'] l with
  | some r => some (Json.bool false, r)
  | none =>
  match stripLit ['n', 'u', 'l', 'l'] l with
  | some r => some (Json.null, r)
  | none =>
  match stripLit ['N', 'a', 'N'] l with
  | some r => some (Json.num "NaN", r)
  | none =>
  match stripLit ['I', 'n', 'f', 'i', 'n', 'i', 't', 'y'] l with
  | some r => some (Json.num "Infinity", r)
  | none =>
  match stripLit ['-', 'I', 'n', 'f', 'i', 'n', 'i', 't', 'y'] l with
  | some r => some (Json.num "-Infinity", r)
  | none => (parseNumber l).map (fun p => (Json.num p.1, p.2))

/-- Skip whitespace and require a `:` (the key-value separator). -/
def expectColon (l : List Char) : Option (List Char) :=
  match skipJsonWs l with
  | ':' :: r => some r
  | _ => none

/-- Skip whitespace and require a `"` (the start of an object key). -/
def expectQuote (l : List Char) : Option (List Char) :=
  match skipJsonWs l with
  | '"' :: r => some r
  | _ => none

mutual

/-- One JSON value, starting at a non-whitespace position (CPython's
`_scan_once`).  Accepts the standard grammar plus the CPython default
constants `NaN`, `Infinity`, `-Infinity`.  Trailing input is left in place. -/
def parseValue : Nat → List Char → Option (Json × List Char)
  | 0, _ => none
  | fuel + 1, l =>
    match l with
    | '{' :: r => parseObjBody fuel (skipJsonWs r)
    | '[' :: r => parseArrBody fuel (skipJsonWs r)
    | '"' :: r => (parseStringBody fuel r).map (fun p => (Json.str p.1.asString, p.2))
    | _ => parseAtom l

/-- Array body after `[` and whitespace: `]` or a first element. -/
def parseArrBody : Nat → List Char → Option (Json × List Char)
  | 0, _ => none
  | fuel + 1, l =>
    match l with
    | ']' :: r => some (Json.arr [], r)
    | _ =>
      (parseValue fuel l).bind (fun p => parseArrRest fuel [p.1] (skipJsonWs p.2))

/-- After an array element and whitespace: `,` and the next element, or `]`. -/
def parseArrRest : Nat → List Json → List Char → Option (Json × List Char)
  | 0, _, _ => none
  | fuel + 1, acc, l =>
    match l with
    | ']' :: r => some (Json.arr acc.reverse, r)
    | ',' :: r =>
      (parseValue fuel (skipJsonWs r)).bind
        (fun p => parseArrRest fuel (p.1 :: acc) (skipJsonWs p.2))
    | _ => none

/-- Object body after `{` and whitespace: `}` or a first `"key": value`. -/
def parseObjBody : Nat → List Char → Option (Json × List Char)
  | 0, _ => none
  | fuel + 1, l =>
    match l with
    | '}' :: r => some (Json.obj [], r)
    | '"' :: r =>
      (parseStringBody fuel r).bind (fun pk =>
        (expectColon pk.2).bind (fun r2 =>
          (parseValue fuel (skipJsonWs r2)).bind (fun pv =>
            parseObjRest fuel [(pk.1.asString, pv.1)] (skipJsonWs pv.2))))
    | _ => none

/-- After an object member and whitespace: `,` and the next member, or `}`. -/
def parseObjRest : Nat → List (String × Json) → List Char → Option (Json × List Char)
  | 0, _, _ => none
  | fuel + 1, acc, l =>
    match l with
    | '}' :: r => some (Json.obj acc.reverse, r)
    | ',' :: r =>
      (expectQuote r).bind (fun r1 =>
        (parseStringBody fuel r1).bind (fun pk =>
          (expectColon pk.2).bind (fun r2 =>
            (parseValue fuel (skipJsonWs r2)).bind (fun pv =>
              parseObjRest fuel ((pk.1.asString, pv.1) :: acc) (skipJsonWs pv.2)))))
    | _ => none

end

/-- `json.loads`: skip leading whitespace, parse one value, skip trailing
whitespace, and require the input to be exhausted (`Extra data` otherwise).
Any failure is a `json.JSONDecodeError`, modelled as `none`.  The fuel
`2 * length + 2` dominates the recursion depth: every unit of fuel spent
corresponds to at least one of the input's characters or brackets. -/
def json_loads (s : String) : Option Json :=
  let l := s.toList
  match parseValue (2 * l.length + 2) (skipJsonWs l) with
  | some (v, rest) => if skipJsonWs rest = [] then some v else none
  | none => none

/-! ## Fenced-block stripping and the decision extractor

Models the response-cleaning logic of
`GitHubWikiAPI.intelligent_documentation_strategy` (source lines 334-372):
strip, a labelled-fence regex search, a replace-based fallback, a generic
fence branch, `json.loads`, and the fixed fallback strategy on parse
failure. -/

/-- The characters of the fence opener label, `"```json"`. -/
def openJson : List Char := [btChar, btChar, btChar, 'j', 's', 'o', 'n']

/-- The characters of a bare fence, `"```"`. -/
def tripleBt : List Char := [btChar, btChar, btChar]

/-- The closer sought by the regex tail `\n```` ``` ``: newline then fence. -/
def fenceClose : List Char := '\n' :: tripleBt

/-- Index of the first occurrence of `"\n```"` in `l`, if any. -/
def findFence : List Char → Option Nat
  | [] => none
  | c :: t => if matchAt fenceClose (c :: t) then some 0 else (findFence t).map (· + 1)

/-- Length of the maximal `\s` run at the head (the regex `\s*`). -/
def wsRunLen (l : List Char) : Nat := (l.takeWhile isPyWs).length

/-- `[n, n-1, ..., 1]`: the backtracking order of a greedy `\s*`. -/
def descRange : Nat → List Nat
  | 0 => []
  | n + 1 => (n + 1) :: descRange n

/-- Candidate lengths for `\s*\n` at the head of `t`: prefixes of the
whitespace run that end in a newline, longest first (greedy `\s*` with
backtracking, then the mandatory `\n`). -/
def candidateJs (t : List Char) : List Nat :=
  (descRange (wsRunLen t)).filter (fun j => t.get? (j - 1) = some '\n')

/-- Matching `\s*\n(.*?)\n```` ``` `` against the text `t` that follows a
`"```json"` opener: take the longest `\s*\n` prefix that allows a later
`"\n```"`, then the lazy group runs to the first such closer.  Returns the
group. -/
def matchFenceBody (t : List Char) : Option (List Char) :=
  (candidateJs t).findSome? (fun j => (findFence (t.drop j)).map (fun m => (t.drop j).take m))

/-- `re.search(r'```json\s*\n(.*?)\n```', s, re.DOTALL)`: leftmost starting
position whose full pattern matches wins; returns group 1. -/
def reSearchJsonFence : List Char → Option (List Char)
  | [] => none
  | c :: t =>
    if matchAt openJson (c :: t) then
      match matchFenceBody ((c :: t).drop 7) with
      | some g => some g
      | none => reSearchJsonFence t
    else reSearchJsonFence t

/-- `re.sub(r'^```[^\n]*\n', '', s)`: if `s` opens with a fence line that is
terminated by a newline, drop that whole line (at most one substitution:
the pattern is anchored at the start). -/
def subFirstFenceLine (l : List Char) : List Char :=
  if matchAt tripleBt l then
    let afterOpen := l.drop 3
    let lineRest := afterOpen.dropWhile (fun c => c ≠ '\n')
    match lineRest with
    | '\n' :: r => r
    | _ => l
  else l

/-- `s` ends with the character sequence `tail`. -/
def endsWithSeq (l tail : List Char) : Bool := matchAt tail.reverse l.reverse

/-- `re.sub(r'\n```$', '', s)`: without `re.MULTILINE`, `$` matches at the
very end or just before a final newline, so a trailing `"\n```"` — possibly
followed by one final newline — is removed. -/
def subTrailingFence (l : List Char) : List Char :=
  if endsWithSeq l fenceClose then l.take (l.length - 4)
  else if endsWithSeq l (fenceClose ++ ['\n']) then l.take (l.length - 5) ++ ['\n']
  else l

/-- The response-cleaning step of `intelligent_documentation_strategy`
(source lines 340-355): strip, then either extract a ```` ```json ````
fenced block (regex first, replace-based fallback second), or strip a
generic fence, or leave the text as is. -/
def cleanResponse (s : String) : String :=
  let cleaned := pyStripL s.toList
  if matchAt openJson cleaned then
    match reSearchJsonFence cleaned with
    | some g => (pyStripL g).asString
    | none => (pyStripL (replaceSeq (replaceSeq cleaned openJson []) tripleBt [])).asString
  else if matchAt tripleBt cleaned then
    (pyStripL (subTrailingFence (subFirstFenceLine cleaned))).asString
  else cleaned.asString

/-- The fixed fallback strategy returned when the advisory response cannot be
parsed (source lines 363-372). -/
def fallbackStrategy : Json :=
  Json.obj
    [("needs_documentation", Json.bool true),
     ("reasoning", Json.str "Fallback analysis - assuming documentation needed"),
     ("documentation_strategy",
      Json.obj
        [("action", Json.str "create_new_page"),
         ("target_pages", Json.arr [Json.str "Data-Changes-Fallback"]),
         ("content_type", Json.str "mixed"),
         ("priority", Json.str "medium")])]

/-- The decision-extraction part of `intelligent_documentation_strategy`
applied to a (non-`None`) advisory response string: clean the response,
parse it as JSON, and fall back to `fallbackStrategy` when parsing fails
(`except json.JSONDecodeError`). -/
def extractStrategy (raw : String) : Json :=
  match json_loads (cleanResponse raw) with
  | some v => v
  | none => fallbackStrategy

/-- Python exceptions that can escape the modelled code paths. -/
inductive PyErr where
  | attributeError : PyErr
  | keyError : PyErr
  | indexError : PyErr
  | typeError : PyErr
deriving DecidableEq

/-- `intelligent_documentation_strategy` as a function of the advisory
call's result (`ai_generator._call_ai_service` returns `None` on provider
errors).  On `None` the very first statement of the `try` block,
`strategy_result.strip()`, raises `AttributeError`, which the
`except json.JSONDecodeError` clause does not catch, so the error escapes
to the caller. -/
def intelligent_documentation_strategy (strategy_result : Option String) : Except PyErr Json :=
  match strategy_result with
  | none => Except.error PyErr.attributeError
  | some s => Except.ok (extractStrategy s)

/-! ## Content classifier

`_contains_schema_content`, `_contains_api_content`,
`_contains_data_flow_content` (source lines 236-262): case-insensitive
substring search over fixed keyword lists. -/

/-- Keyword list of `_contains_schema_content`. -/
def schema_keywords : List String :=
  ["CREATE TABLE", "ALTER TABLE", "ADD COLUMN", "DROP COLUMN",
   "PRIMARY KEY", "FOREIGN KEY", "INDEX", "CONSTRAINT",
   "database schema", "table structure", "column", "field"]

/-- Keyword list of `_contains_api_content`. -/
def api_keywords : List String :=
  ["API", "endpoint", "JSON", "response", "request",
   "REST", "GraphQL", "/api/", "GET", "POST", "PUT", "DELETE"]

/-- Keyword list of `_contains_data_flow_content`. -/
def flow_keywords : List String :=
  ["data flow", "data pipeline", "transformation", "mapping",
   "service", "controller", "repository", "entity"]

/-- `_contains_schema_content`: any schema keyword occurs (case-insensitive
substring) in the content. -/
def contains_schema_content (content : String) : Bool :=
  schema_keywords.any (fun k => strContains (lowerStr content) (lowerStr k))

/-- `_contains_api_content`. -/
def contains_api_content (content : String) : Bool :=
  api_keywords.any (fun k => strContains (lowerStr content) (lowerStr k))

/-- `_contains_data_flow_content`. -/
def contains_data_flow_content (content : String) : Bool :=
  flow_keywords.any (fun k => strContains (lowerStr content) (lowerStr k))

/-- The three topic categories of the content classifier. -/
inductive Category where
  | schema : Category
  | interfaceApi : Category
  | dataFlow : Category
deriving DecidableEq

/-- The classifier as a set-valued function (the three boolean flags of
`analyze_wiki_structure`, bundled). -/
def classify (content : String) : List Category :=
  (if contains_schema_content content then [Category.schema] else []) ++
  (if contains_api_content content then [Category.interfaceApi] else []) ++
  (if contains_data_flow_content content then [Category.dataFlow] else [])

/-! ## Python value semantics on parsed JSON

Dict/list indexing, `.get`, iteration, truthiness and `str()` formatting as
used on the strategy object returned by `json.loads`. -/

/-- Association lookup with Python dict semantics: for duplicate keys the
last binding wins (later `json.loads` pairs overwrite earlier ones). -/
def lookupLast (kvs : List (String × Json)) (k : String) : Option Json :=
  match kvs with
  | [] => none
  | (k', v) :: rest =>
    match lookupLast rest k with
    | some r => some r
    | none => if k' = k then some v else none

/-- `d.get(k, dflt)`: `AttributeError` when `d` is not a dict. -/
def pyGetD (d : Json) (k : String) (dflt : Json) : Except PyErr Json :=
  match d with
  | Json.obj kvs => Except.ok ((lookupLast kvs k).getD dflt)
  | _ => Except.error PyErr.attributeError

/-- `d[k]` for a string key: `KeyError` when missing, `TypeError` when `d`
is not a dict. -/
def pyIndexKey (d : Json) (k : String) : Except PyErr Json :=
  match d with
  | Json.obj kvs =>
    match lookupLast kvs k with
    | some v => Except.ok v
    | none => Except.error PyErr.keyError
  | _ => Except.error PyErr.typeError

/-- `x[0]`: first element of a list, first character of a str, `IndexError`
when empty, `KeyError` for a dict, `TypeError` otherwise. -/
def pyIndex0 (d : Json) : Except PyErr Json :=
  match d with
  | Json.arr (x :: _) => Except.ok x
  | Json.arr [] => Except.error PyErr.indexError
  | Json.str s =>
    match s.toList with
    | c :: _ => Except.ok (Json.str (String.singleton c))
    | [] => Except.error PyErr.indexError
  | Json.obj _ => Except.error PyErr.keyError
  | _ => Except.error PyErr.typeError

/-- `for x in d`: elements of a list, characters of a str, keys of a dict,
`TypeError` otherwise. -/
def pyIter (d : Json) : Except PyErr (List Json) :=
  match d with
  | Json.arr l => Except.ok l
  | Json.str s => Except.ok (s.toList.map (fun c => Json.str (String.singleton c)))
  | Json.obj kvs => Except.ok (kvs.map (fun kv => Json.str kv.1))
  | _ => Except.error PyErr.typeError

/-- Truthiness of a parsed JSON number from its lexeme: zero mantissa means
falsy (`0`, `0.00`, `0e5`), everything else — including `NaN` and
`Infinity`, whose lexemes hold no digits — is truthy. -/
def numTruthy (lex : String) : Bool :=
  let mant := lex.toList.takeWhile (fun c => c ≠ 'e' ∧ c ≠ 'E')
  let ds := mant.filter Char.isDigit
  if ds.isEmpty then true else ds.any (fun c => c ≠ '0')

/-- Python truthiness of a parsed JSON value. -/
def pyTruthy (j : Json) : Bool :=
  match j with
  | Json.null => false
  | Json.bool b => b
  | Json.num lex => numTruthy lex
  | Json.str s => s ≠ ""
  | Json.arr l => !l.isEmpty
  | Json.obj m => !m.isEmpty

mutual

/-- Python `repr` of a parsed JSON value (container formatting as in
CPython: single-quoted strings, `True`/`False`/`None`; string-escape
subtleties inside `repr` are not exercised by any claim). -/
def pyRepr : Json → String
  | Json.null => "None"
  | Json.bool true => "True"
  | Json.bool false => "False"
  | Json.num lex => lex
  | Json.str s => "'" ++ s ++ "'"
  | Json.arr l => "[" ++ pyReprList l ++ "]"
  | Json.obj m => "\x7b" ++ pyReprMembers m ++ "\x7d"

/-- Comma-separated `repr` of list elements. -/
def pyReprList : List Json → String
  | [] => ""
  | [x] => pyRepr x
  | x :: y :: xs => pyRepr x ++ ", " ++ pyReprList (y :: xs)

/-- Comma-separated `repr` of dict members. -/
def pyReprMembers : List (String × Json) → String
  | [] => ""
  | [(k, v)] => "'" ++ k ++ "': " ++ pyRepr v
  | (k, v) :: m :: ms => "'" ++ k ++ "': " ++ pyRepr v ++ ", " ++ pyReprMembers (m :: ms)

end

/-- Python `str()` as used by f-string interpolation: a str formats as
itself, any other value as its `repr`. -/
def pyStr (j : Json) : String :=
  match j with
  | Json.str s => s
  | other => pyRepr other

/-! ## External collaborators: change record, clock, page store, oracle

The wiki page store (a cloned git repository whose pushes may fail) is
modelled as the authoritative mapping from file names to contents plus a
set of file names whose write (commit/push) fails; commit/push failures are
abstracted by `putFails`.  Advisory responses within a single run are
determined by the call site (each site sends one fixed prompt built from
the run's inputs), so the oracle carries one response per prompt kind and a
function of both text arguments for the merge prompt. -/

/-- The change record produced by `get_git_changes`. -/
structure Changes where
  commit_message : String
  files_changed : List String
  diff_content : String

/-- The wall clock, as read by `datetime.now().strftime`. -/
structure Clock where
  dateStr : String
  datetimeStr : String

/-- The wiki page store. -/
structure Store where
  pages : String → Option String
  putFails : String → Bool

/-- The advisory prompt kinds sent by the engine's four call sites. -/
inductive AIKind where
  | relevance : AIKind
  | docGen : AIKind
  | strategyQ : AIKind
  | mergeQ : AIKind
deriving DecidableEq

/-- Advisory responses for one run (`None` models a provider error, in which
case `_call_ai_service` returns `None` after logging). -/
structure Oracle where
  relevanceR : Option String
  docGenR : Option String
  strategyR : Option String
  mergeR : String → String → Option String

/-- Observable actions of a run. -/
inductive Event where
  | aiCall (k : AIKind) : Event
  | putAttempt (filename : String) : Event
  | execCall : Event
deriving DecidableEq

/-- Number of advisory calls of a given kind in a trace. -/
def countKind (evs : List Event) (k : AIKind) : Nat :=
  (evs.filter (fun e => e = Event.aiCall k)).length

/-- Number of page-store write attempts in a trace. -/
def countPuts (evs : List Event) : Nat :=
  (evs.filter (fun e => match e with | Event.putAttempt _ => true | _ => false)).length

/-- File name read by `get_page`: `page_title.replace(' ', '-') + ".md"`. -/
def wikiGetFilename (title : String) : String :=
  (replaceSeq title.toList [' '] ['-']).asString ++ ".md"

/-- File name written by `create_or_update_page`:
`page_title.replace(' ', '-').replace('/', '-') + ".md"`. -/
def wikiPutFilename (title : String) : String :=
  (replaceSeq (replaceSeq title.toList [' '] ['-']) ['/'] ['-']).asString ++ ".md"

/-- `get_page`: read a wiki page, `None` when the file does not exist. -/
def get_page (store : Store) (title : String) : Option String :=
  store.pages (wikiGetFilename title)

/-- `get_page` applied to an arbitrary Python value: a non-str title raises
inside `page_title.replace`, which `get_page`'s own `except` clause turns
into `None`. -/
def getPageJ (store : Store) (title : Json) : Option String :=
  match title with
  | Json.str t => get_page store t
  | _ => none

/-- `create_or_update_page`: write a page file, commit and push.  A `None`
content raises `TypeError` at `f.write`, caught by the function's own
`except` clause (`False`, store unchanged); commit/push failures are
modelled by `putFails` (`False`, store unchanged); a non-str title raises at
`page_title.replace`, likewise caught (`False`).  Returns the new store, the
success flag and the trace. -/
def create_or_update_page (store : Store) (page_title : Json) (content : Option String) :
    Store × Bool × List Event :=
  match page_title with
  | Json.str t =>
    let filename := wikiPutFilename t
    match content with
    | none => (store, false, [Event.putAttempt filename])
    | some c =>
      if store.putFails filename then (store, false, [Event.putAttempt filename])
      else
        ({ pages := fun k => if k = filename then some c else store.pages k,
           putFails := store.putFails }, true, [Event.putAttempt filename])
  | _ => (store, false, [])

/-- The header prepended by `_create_new_intelligent_page` (source lines
429-437); evaluates `strategy.get('reasoning', ...)` and
`strategy['documentation_strategy'].get('content_type', 'mixed')`, which can
raise on a malformed strategy value. -/
def intelligentPageHeader (page_name : String) (strategy : Json) (clock : Clock) :
    Except PyErr String := do
  let reasoning ← pyGetD strategy "reasoning" (Json.str "Data changes detected")
  let ds ← pyIndexKey strategy "documentation_strategy"
  let ct ← pyGetD ds "content_type" (Json.str "mixed")
  pure ("# " ++ page_name ++ "\n\n**Created:** " ++ clock.dateStr ++
    "  \n**Trigger:** " ++ pyStr reasoning ++
    "  \n**Content Type:** " ++ pyStr ct ++ "\n\n---\n\n")

/-- `_create_new_intelligent_page`: prepend the header and write the page.
Returns the new store, the trace, and the outcome (`Except` models an
uncaught exception escaping to `execute_intelligent_documentation`). -/
def create_new_intelligent_page (store : Store) (page_name : Json) (content : String)
    (_changes : Changes) (strategy : Json) (clock : Clock) :
    Store × List Event × Except PyErr Bool :=
  match intelligentPageHeader (pyStr page_name) strategy clock with
  | Except.error e => (store, [], Except.error e)
  | Except.ok header =>
    let r := create_or_update_page store page_name (some (header ++ content))
    (r.1, r.2.2, Except.ok r.2.1)

/-- `_update_existing_intelligent_page`: read the page; when it does not
exist — or `if not existing_content` also catches an empty page — degrade to
`_create_new_intelligent_page`; otherwise call the advisory merge and write
its result (a `None` merge response makes the write fail inside
`create_or_update_page`). -/
def update_existing_intelligent_page (store : Store) (page_name : Json) (new_content : String)
    (changes : Changes) (strategy : Json) (o : Oracle) (clock : Clock) :
    Store × List Event × Except PyErr Bool :=
  match getPageJ store page_name with
  | none => create_new_intelligent_page store page_name new_content changes strategy clock
  | some existing =>
    if existing = "" then
      create_new_intelligent_page store page_name new_content changes strategy clock
    else
      let merged := o.mergeR existing new_content
      let r := create_or_update_page store page_name merged
      (r.1, Event.aiCall AIKind.mergeQ :: r.2.2, Except.ok r.2.1)

/-- The base content used by `_append_to_intelligent_page`:
`self.get_page(page_name) or f"# {page_name}\n\n"` — Python `or` substitutes
the default header for both a missing page and an empty (falsy) one. -/
def appendBaseContent (store : Store) (page_name : Json) : String :=
  match getPageJ store page_name with
  | some e => if e = "" then "# " ++ pyStr page_name ++ "\n\n" else e
  | none => "# " ++ pyStr page_name ++ "\n\n"

/-- The dated section appended by `_append_to_intelligent_page` (source
lines 481-488); evaluates `strategy.get('changes_summary', 'Data Changes')`,
which can raise on a malformed strategy value. -/
def appendSectionFor (strategy : Json) (clock : Clock) (content : String) :
    Except PyErr String := do
  let cs ← pyGetD strategy "changes_summary" (Json.str "Data Changes")
  pure ("\n---\n\n## Update " ++ clock.datetimeStr ++ " - " ++ pyStr cs ++
    "\n\n" ++ content ++ "\n\n")

/-- `_append_to_intelligent_page`: concatenate the base content and the
dated section, then write. -/
def append_to_intelligent_page (store : Store) (page_name : Json) (content : String)
    (_changes : Changes) (strategy : Json) (clock : Clock) :
    Store × List Event × Except PyErr Bool :=
  match appendSectionFor strategy clock content with
  | Except.error e => (store, [], Except.error e)
  | Except.ok sec =>
    let r := create_or_update_page store page_name (some (appendBaseContent store page_name ++ sec))
    (r.1, r.2.2, Except.ok r.2.1)

/-- The `update_multiple_pages` loop (source lines 408-413): apply
`_update_existing_intelligent_page` to every target in order, never
short-circuiting; the aggregate flag starts `True` and is cleared by any
failure.  An uncaught exception aborts the loop, keeping prior writes. -/
def executeMulti (store : Store) (pages : List Json) (doc : String) (changes : Changes)
    (strategy : Json) (o : Oracle) (clock : Clock) :
    Store × List Event × Except PyErr Bool :=
  match pages with
  | [] => (store, [], Except.ok true)
  | p :: rest =>
    let r1 := update_existing_intelligent_page store p doc changes strategy o clock
    match r1.2.2 with
    | Except.error e => (r1.1, r1.2.1, Except.error e)
    | Except.ok b1 =>
      let r2 := executeMulti r1.1 rest doc changes strategy o clock
      match r2.2.2 with
      | Except.error e => (r2.1, r1.2.1 ++ r2.2.1, Except.error e)
      | Except.ok b2 => (r2.1, r1.2.1 ++ r2.2.1, Except.ok (b1 && b2))

/-- `execute_intelligent_documentation` (source lines 393-421): dispatch on
`strategy['documentation_strategy']['action']`; the enclosing
`try ... except Exception` turns any escaped exception into `False`,
keeping whatever writes already happened. -/
def execute_intelligent_documentation (store : Store) (strategy : Json)
    (documentation_content : String) (changes : Changes) (o : Oracle) (clock : Clock) :
    Store × Bool × List Event :=
  let body : Store × List Event × Except PyErr Bool :=
    match pyIndexKey strategy "documentation_strategy" with
    | Except.error e => (store, [], Except.error e)
    | Except.ok ds =>
      match pyIndexKey ds "action" with
      | Except.error e => (store, [], Except.error e)
      | Except.ok actionJ =>
        match pyIndexKey ds "target_pages" with
        | Except.error e => (store, [], Except.error e)
        | Except.ok tp =>
          match actionJ with
          | Json.str a =>
            if a = "create_new_page" then
              match pyIndex0 tp with
              | Except.error e => (store, [], Except.error e)
              | Except.ok p =>
                create_new_intelligent_page store p documentation_content changes strategy clock
            else if a = "update_existing_page" then
              match pyIndex0 tp with
              | Except.error e => (store, [], Except.error e)
              | Except.ok p =>
                update_existing_intelligent_page store p documentation_content changes strategy
                  o clock
            else if a = "append_to_page" then
              match pyIndex0 tp with
              | Except.error e => (store, [], Except.error e)
              | Except.ok p =>
                append_to_intelligent_page store p documentation_content changes strategy clock
            else if a = "update_multiple_pages" then
              match pyIter tp with
              | Except.error e => (store, [], Except.error e)
              | Except.ok ps => executeMulti store ps documentation_content changes strategy o clock
            else (store, [], Except.ok false)
          | _ => (store, [], Except.ok false)
  match body with
  | (s, ev, Except.ok b) => (s, b, ev)
  | (s, ev, Except.error _) => (s, false, ev)

/-! ## The two-stage analysis and the per-run control flow of `main` -/

/-- `analyze_with_ai` (source lines 550-644): bail out on an empty diff;
send the relevance prompt; a failed (`None`), empty, or `NOT_RELEVANT`
response ends the analysis with `None`; otherwise send the documentation
prompt and return its response.  Returns the documentation text and the
advisory-call trace. -/
def analyze_with_ai (changes : Changes) (o : Oracle) : Option String × List Event :=
  if changes.diff_content = "" then (none, [])
  else
    match o.relevanceR with
    | none => (none, [Event.aiCall AIKind.relevance])
    | some r =>
      if r = "" ∨ strContains r "NOT_RELEVANT" then (none, [Event.aiCall AIKind.relevance])
      else (o.docGenR, [Event.aiCall AIKind.relevance, Event.aiCall AIKind.docGen])

/-- `if not documentation or documentation.strip() == "NO_DOCUMENTATION_NEEDED"`
(source lines 742 and 786). -/
def noBodyResult (r : Option String) : Bool :=
  match r with
  | none => true
  | some s => s = "" || pyStrip s = "NO_DOCUMENTATION_NEEDED"

/-- Run configuration: the `--dry-run` flag, whether `GITHUB_TOKEN` is set,
and whether the wiki clone succeeds. -/
structure RunConfig where
  dryRun : Bool
  hasGithubToken : Bool
  cloneOk : Bool

/-- How a run ends: `sys.exit(code)`, or an uncaught exception. -/
inductive Outcome where
  | exited (code : Nat) : Outcome
  | crashed : Outcome
deriving DecidableEq

/-- The success-path epilogue of `main` (source lines 795-797):
`strategy.get('page_recommendations', {}).get('primary_page',
strategy[...]['target_pages'][0])` — the default argument is evaluated
eagerly, so an empty target list raises here — followed by
`primary_page.replace(' ', '-')`, which raises on a non-str value. -/
def successPathFinal (strategy : Json) (tp : Json) : Except PyErr Unit := do
  let pr ← pyGetD strategy "page_recommendations" (Json.obj [])
  let tp0 ← pyIndex0 tp
  let p ← pyGetD pr "primary_page" tp0
  match p with
  | Json.str _ => pure ()
  | _ => Except.error PyErr.attributeError

/-- The run of `main` after argument parsing and `get_git_changes`
(source lines 734-802), as a function of the change record, the flags, the
page store, the oracle and the clock.  Returns the outcome, the final store
and the trace.  The wiki-analysis step (`analyze_wiki_structure`) reads
pages and classifies them but performs no advisory call and no write; the
strategy prompt embeds its summary, and the oracle's `strategyR` is that
prompt's response for this run. -/
def main_run (changes : Changes) (cfg : RunConfig) (store : Store) (o : Oracle)
    (clock : Clock) : Outcome × Store × List Event :=
  if changes.diff_content = "" then (Outcome.exited 0, store, [])
  else
    let a1 := analyze_with_ai changes o
    if noBodyResult a1.1 then (Outcome.exited 0, store, a1.2)
    else if cfg.dryRun then (Outcome.exited 0, store, a1.2)
    else if !cfg.hasGithubToken then (Outcome.exited 0, store, a1.2)
    else if !cfg.cloneOk then (Outcome.exited 1, store, a1.2)
    else
      let ev2 := a1.2 ++ [Event.aiCall AIKind.strategyQ]
      match o.strategyR with
      | none => (Outcome.crashed, store, ev2)
      | some sres =>
        let strategy := extractStrategy sres
        match pyGetD strategy "reasoning" (Json.str "No reasoning provided") with
        | Except.error _ => (Outcome.crashed, store, ev2)
        | Except.ok _ =>
          match pyGetD strategy "needs_documentation" (Json.bool false) with
          | Except.error _ => (Outcome.crashed, store, ev2)
          | Except.ok nd =>
            if !pyTruthy nd then (Outcome.exited 0, store, ev2)
            else
              let a2 := analyze_with_ai changes o
              let ev3 := ev2 ++ a2.2
              if noBodyResult a2.1 then (Outcome.exited 0, store, ev3)
              else
                match pyIndexKey strategy "documentation_strategy" with
                | Except.error _ => (Outcome.crashed, store, ev3)
                | Except.ok ds =>
                  match pyIndexKey ds "action", pyIndexKey ds "target_pages" with
                  | Except.ok _, Except.ok tp =>
                    let doc := a2.1.getD ""
                    let r := execute_intelligent_documentation store strategy doc changes o clock
                    let ev4 := ev3 ++ [Event.execCall] ++ r.2.2
                    if r.2.1 then
                      match successPathFinal strategy tp with
                      | Except.ok _ => (Outcome.exited 0, r.1, ev4)
                      | Except.error _ => (Outcome.crashed, r.1, ev4)
                    else (Outcome.exited 1, r.1, ev4)
                  | _, _ => (Outcome.crashed, store, ev3)

/-! ## Predicates for the fenced-block round-trip analysis (claim C8)

The key fact behind C8 is that a valid JSON text can never contain the
two-character sequence newline-backtick: a raw newline is rejected inside
string literals (strict mode) and is otherwise inter-token whitespace,
after which a backtick can never start a token.  Hence the lazy group of
the regex `` ```json\s*\n(.*?)\n``` `` always runs to the closing fence. -/

/-- `"```json\n" ++ b ++ "\n```"`: the body wrapped in a labelled fenced
code block. -/
def wrapJson (b : String) : String := "```json\n" ++ b ++ "\n```"

/-- The list starts with a backtick. -/
def startsBT (l : List Char) : Bool :=
  match l with
  | c :: _ => c = btChar
  | [] => false

/-- The list ends with a newline. -/
def endsNl (l : List Char) : Bool :=
  match l with
  | [] => false
  | [c] => c = '\n'
  | _ :: c :: t => endsNl (c :: t)

/-- The list contains a newline immediately followed by a backtick. -/
def hasNB (l : List Char) : Bool :=
  match l with
  | [] => false
  | c :: t => (c = '\n' && startsBT t) || hasNB t

/-- A segment boundary at which number lexing cannot continue: the
following character (if any) can neither extend a digit run nor open a
fraction or exponent part. -/
def SafeCut (r : List Char) : Prop :=
  ∀ ch, r.head? = some ch →
    ch.isDigit = false ∧ ch ≠ '.' ∧ ch ≠ 'e' ∧ ch ≠ 'E' ∧ ch ≠ '+' ∧ ch ≠ '-'

/-- The consumed segment of a string-literal body: non-empty, free of raw
newlines, ending at the closing quote. -/
def StrSeg (l r : List Char) : Prop :=
  ∃ c, l = c ++ r ∧ c ≠ [] ∧ (∀ ch ∈ c, ch ≠ '\n') ∧ c.getLast? = some '"'

/-- A character that can occur in a number lexeme. -/
def numChar (ch : Char) : Bool :=
  ch.isDigit || ch = '-' || ch = '+' || ch = '.' || ch = 'e' || ch = 'E'

/-- The consumed-segment invariant of the JSON parser: the segment is
non-empty, starts with a token character (not whitespace, not a backtick),
ends with a token character (not whitespace), and contains no
newline-backtick pair. -/
def Seg (l r : List Char) : Prop :=
  ∃ c, l = c ++ r ∧ c ≠ [] ∧
    (∀ ch, c.head? = some ch → isPyWs ch = false ∧ ch ≠ btChar) ∧
    (∀ ch, c.getLast? = some ch → isPyWs ch = false) ∧
    hasNB c = false

/-- The strategy object of the specification's multi-page scenario (§8):
action `update_multiple_pages` over the target pages `["A", "B"]`. -/
def multiStrategyAB : Json :=
  Json.obj
    [("documentation_strategy",
      Json.obj
        [("action", Json.str "update_multiple_pages"),
         ("target_pages", Json.arr [Json.str "A", Json.str "B"])])]

/-! ## Shared helper lemmas -/

/-- `countKind` distributes over concatenation. -/
theorem countKind_append (a b : List Event) (k : AIKind) :
    countKind (a ++ b) k = countKind a k + countKind b k := by
  simp [countKind, List.filter_append]

/-- `countPuts` distributes over concatenation. -/
theorem countPuts_append (a b : List Event) :
    countPuts (a ++ b) = countPuts a + countPuts b := by
  simp [countPuts, List.filter_append]

/-- The write primitive emits no advisory-call event. -/
theorem create_or_update_page_no_aiCall (store : Store) (t : Json) (c : Option String)
    (k : AIKind) : countKind (create_or_update_page store t c).2.2 k = 0 := by
  unfold create_or_update_page
  cases t <;> simp [countKind]
  case str s =>
    cases c <;> simp [countKind]
    case some c' => split <;> simp [countKind]

/-- Page creation emits no advisory-call event. -/
theorem create_new_no_aiCall (store : Store) (p : Json) (content : String)
    (changes : Changes) (strategy : Json) (clock : Clock) (k : AIKind) :
    countKind (create_new_intelligent_page store p content changes strategy clock).2.1 k = 0 := by
  unfold create_new_intelligent_page
  cases intelligentPageHeader (pyStr p) strategy clock with
  | error e => simp [countKind]
  | ok h => simpa using create_or_update_page_no_aiCall store p _ k

/-- Page update emits advisory-call events only for the merge prompt. -/
theorem update_existing_only_merge_aiCall (store : Store) (p : Json) (doc : String)
    (changes : Changes) (strategy : Json) (o : Oracle) (clock : Clock) (k : AIKind)
    (hk : k ≠ AIKind.mergeQ) :
    countKind (update_existing_intelligent_page store p doc changes strategy o clock).2.1 k
      = 0 := by
  unfold update_existing_intelligent_page
  cases getPageJ store p with
  | none => simpa using create_new_no_aiCall store p doc changes strategy clock k
  | some e =>
    by_cases he : e = ""
    · simpa [he] using create_new_no_aiCall store p doc changes strategy clock k
    · simp only [he, if_false]
      have h2 := create_or_update_page_no_aiCall store p (o.mergeR e doc) k
      have hne : Event.aiCall AIKind.mergeQ ≠ Event.aiCall k := by
        intro h
        injection h with h'
        exact hk h'.symm
      simp only [countKind, List.filter_cons] at h2 ⊢
      simp [hne]
      simpa [countKind] using h2

/-- Appending emits no advisory-call event. -/
theorem append_no_aiCall (store : Store) (p : Json) (content : String)
    (changes : Changes) (strategy : Json) (clock : Clock) (k : AIKind) :
    countKind (append_to_intelligent_page store p content changes strategy clock).2.1 k = 0 := by
  unfold append_to_intelligent_page
  cases appendSectionFor strategy clock content with
  | error e => simp [countKind]
  | ok sec => simpa using create_or_update_page_no_aiCall store p _ k

/-- The multi-page loop emits advisory-call events only for merge prompts. -/
theorem executeMulti_only_merge_aiCall (pages : List Json) (store : Store) (doc : String)
    (changes : Changes) (strategy : Json) (o : Oracle) (clock : Clock) (k : AIKind)
    (hk : k ≠ AIKind.mergeQ) :
    countKind (executeMulti store pages doc changes strategy o clock).2.1 k = 0 := by
  induction pages generalizing store with
  | nil => simp [executeMulti, countKind]
  | cons p rest ih =>
    unfold executeMulti
    have h1 := update_existing_only_merge_aiCall store p doc changes strategy o clock k hk
    cases hr1 : (update_existing_intelligent_page store p doc changes strategy o clock).2.2 with
    | error e => simpa [hr1] using h1
    | ok b1 =>
      have h2 := ih (update_existing_intelligent_page store p doc changes strategy o clock).1
      cases hr2 : (executeMulti (update_existing_intelligent_page store p doc changes strategy
          o clock).1 rest doc changes strategy o clock).2.2 with
      | error e => simp [hr1, hr2, countKind_append, h1, h2]
      | ok b2 => simp [hr1, hr2, countKind_append, h1, h2]

/-- The strategy executor emits advisory-call events only for merge
prompts: the relevance, documentation and strategy prompts are never sent
from inside `execute_intelligent_documentation`. -/
theorem execute_only_merge_aiCall (store : Store) (strategy : Json) (doc : String)
    (changes : Changes) (o : Oracle) (clock : Clock) (k : AIKind)
    (hk : k ≠ AIKind.mergeQ) :
    countKind (execute_intelligent_documentation store strategy doc changes o clock).2.2 k
      = 0 := by
  unfold execute_intelligent_documentation
  cases hds : pyIndexKey strategy "documentation_strategy" with
  | error e => simp [hds, countKind]
  | ok ds =>
  cases hact : pyIndexKey ds "action" with
  | error e => simp [hds, hact, countKind]
  | ok actionJ =>
  cases htp : pyIndexKey ds "target_pages" with
  | error e => simp [hds, hact, htp, countKind]
  | ok tp =>
  cases actionJ with
  | str a =>
    by_cases h1 : a = "create_new_page"
    · cases hp : pyIndex0 tp with
      | error e => simp [hds, hact, htp, h1, hp, countKind]
      | ok p =>
        have h0 := create_new_no_aiCall store p doc changes strategy clock k
        rcases hcr : create_new_intelligent_page store p doc changes strategy clock
          with ⟨s1, ev, res⟩
        rw [hcr] at h0
        cases res <;> simp [hds, hact, htp, h1, hp, hcr] <;> simpa using h0
    · by_cases h2 : a = "update_existing_page"
      · cases hp : pyIndex0 tp with
        | error e => simp [hds, hact, htp, h1, h2, hp, countKind]
        | ok p =>
          have h0 := update_existing_only_merge_aiCall store p doc changes strategy o clock k hk
          rcases hcr : update_existing_intelligent_page store p doc changes strategy o clock
            with ⟨s1, ev, res⟩
          rw [hcr] at h0
          cases res <;> simp [hds, hact, htp, h1, h2, hp, hcr] <;> simpa using h0
      · by_cases h3 : a = "append_to_page"
        · cases hp : pyIndex0 tp with
          | error e => simp [hds, hact, htp, h1, h2, h3, hp, countKind]
          | ok p =>
            have h0 := append_no_aiCall store p doc changes strategy clock k
            rcases hcr : append_to_intelligent_page store p doc changes strategy clock
              with ⟨s1, ev, res⟩
            rw [hcr] at h0
            cases res <;> simp [hds, hact, htp, h1, h2, h3, hp, hcr] <;> simpa using h0
        · by_cases h4 : a = "update_multiple_pages"
          · cases hp : pyIter tp with
            | error e => simp [hds, hact, htp, h1, h2, h3, h4, hp, countKind]
            | ok ps =>
              have h0 := executeMulti_only_merge_aiCall ps store doc changes strategy o clock k hk
              rcases hcr : executeMulti store ps doc changes strategy o clock with ⟨s1, ev, res⟩
              rw [hcr] at h0
              cases res <;> simp [hds, hact, htp, h1, h2, h3, h4, hp, hcr] <;> simpa using h0
          · simp [hds, hact, htp, h1, h2, h3, h4, countKind]
  | null => simp [hds, hact, htp, countKind]
  | bool b => simp [hds, hact, htp, countKind]
  | num lex => simp [hds, hact, htp, countKind]
  | arr l => simp [hds, hact, htp, countKind]
  | obj m => simp [hds, hact, htp, countKind]

/-- The two-stage analysis sends the relevance prompt at most once, the
documentation prompt at most once, and never the strategy or merge prompt. -/
theorem analyze_with_ai_counts (changes : Changes) (o : Oracle) :
    countKind (analyze_with_ai changes o).2 AIKind.relevance ≤ 1 ∧
    countKind (analyze_with_ai changes o).2 AIKind.docGen ≤ 1 ∧
    countKind (analyze_with_ai changes o).2 AIKind.strategyQ = 0 ∧
    countKind (analyze_with_ai changes o).2 AIKind.mergeQ = 0 := by
  unfold analyze_with_ai
  by_cases hd : changes.diff_content = ""
  · simp [hd, countKind]
  · cases hr : o.relevanceR with
    | none => simp [hd, hr, countKind]
    | some r =>
      by_cases hne : r = "" ∨ strContains r "NOT_RELEVANT" = true
      · simp [hd, hr, hne, countKind]
      · simp [hd, hr, hne, countKind]

/-- The two-stage analysis performs no write and never reaches the
executor. -/
theorem analyze_with_ai_no_puts (changes : Changes) (o : Oracle) :
    countPuts (analyze_with_ai changes o).2 = 0 ∧
    Event.execCall ∉ (analyze_with_ai changes o).2 := by
  unfold analyze_with_ai
  by_cases hd : changes.diff_content = ""
  · simp [hd, countPuts]
  · cases hr : o.relevanceR with
    | none => simp [hd, hr, countPuts]
    | some r =>
      by_cases hne : r = "" ∨ strContains r "NOT_RELEVANT" = true
      · simp [hd, hr, hne, countPuts]
      · simp [hd, hr, hne, countPuts]

/-! ## Claim C1 -/

/-- C1: for every advisory response that is a string, the decision
extractor never raises past its own boundary: when the cleaned text fails
to parse as JSON, `intelligent_documentation_strategy` returns (rather than
propagates an error) the fixed fallback strategy, whose fields are
`needs_documentation = true`, `action = "create_new_page"`, a single
synthetic target page name, `content_type = "mixed"` and
`priority = "medium"`. -/
theorem C1_parse_failure_returns_fallback (s : String)
    (h : json_loads (cleanResponse s) = none) :
    intelligent_documentation_strategy (some s) = Except.ok fallbackStrategy ∧
    pyGetD fallbackStrategy "needs_documentation" Json.null = Except.ok (Json.bool true) ∧
    (pyIndexKey fallbackStrategy "documentation_strategy").bind
        (fun ds => pyIndexKey ds "action") = Except.ok (Json.str "create_new_page") ∧
    (pyIndexKey fallbackStrategy "documentation_strategy").bind
        (fun ds => pyIndexKey ds "target_pages")
      = Except.ok (Json.arr [Json.str "Data-Changes-Fallback"]) ∧
    (pyIndexKey fallbackStrategy "documentation_strategy").bind
        (fun ds => pyIndexKey ds "content_type") = Except.ok (Json.str "mixed") ∧
    (pyIndexKey fallbackStrategy "documentation_strategy").bind
        (fun ds => pyIndexKey ds "priority") = Except.ok (Json.str "medium") := by
  refine ⟨?_, rfl, rfl, rfl, rfl, rfl⟩
  simp [intelligent_documentation_strategy, extractStrategy, h]

/-- C1 witness: the extractor on the plain-prose response
`"The change needs docs."`. -/
theorem C1_parse_failure_returns_fallback_witness :
    json_loads (cleanResponse "The change needs docs.") = none ∧
    (intelligent_documentation_strategy (some "The change needs docs.")
        = Except.ok fallbackStrategy ∧
      pyGetD fallbackStrategy "needs_documentation" Json.null = Except.ok (Json.bool true) ∧
      (pyIndexKey fallbackStrategy "documentation_strategy").bind
          (fun ds => pyIndexKey ds "action") = Except.ok (Json.str "create_new_page") ∧
      (pyIndexKey fallbackStrategy "documentation_strategy").bind
          (fun ds => pyIndexKey ds "target_pages")
        = Except.ok (Json.arr [Json.str "Data-Changes-Fallback"]) ∧
      (pyIndexKey fallbackStrategy "documentation_strategy").bind
          (fun ds => pyIndexKey ds "content_type") = Except.ok (Json.str "mixed") ∧
      (pyIndexKey fallbackStrategy "documentation_strategy").bind
          (fun ds => pyIndexKey ds "priority") = Except.ok (Json.str "medium")) :=
  ⟨rfl, C1_parse_failure_returns_fallback "The change needs docs." rfl⟩

/-! ## Claim C2 -/

/-- C2 counterexample: when the advisory call fails, `_call_ai_service`
returns `None`, and the Planner does not return a fallback strategy: the
first statement of its `try` block, `strategy_result.strip()`, raises an
`AttributeError` that the `except json.JSONDecodeError` clause does not
catch, so the error propagates to the caller. -/
theorem C2_failed_call_raises :
    intelligent_documentation_strategy none = Except.error PyErr.attributeError := rfl

/-- C2 amended: only an *empty* advisory response is treated like an
unparseable response (the fallback strategy is returned); a *failed*
advisory call (a `None` result) instead raises an `AttributeError` at
`strategy_result.strip()` that propagates past the Planner. -/
theorem C2_empty_falls_back_none_raises :
    intelligent_documentation_strategy (some "") = Except.ok fallbackStrategy ∧
    intelligent_documentation_strategy none = Except.error PyErr.attributeError :=
  ⟨rfl, rfl⟩

/-! ## Claim C6 -/

/-- C6 counterexample: a well-formed advisory response whose strategy has
`needs_documentation = true` and an *empty* `target_pages` list is returned
by the extractor verbatim — no validation enforces the invariant that
`targetPages` is non-empty whenever `needsDocumentation` is true. -/
theorem C6_parsed_strategy_can_violate_invariant :
    pyGetD (extractStrategy "\x7b\"needs_documentation\": true, \"documentation_strategy\": \x7b\"action\": \"create_new_page\", \"target_pages\": []\x7d\x7d")
        "needs_documentation" (Json.bool false) = Except.ok (Json.bool true) ∧
    (pyIndexKey (extractStrategy "\x7b\"needs_documentation\": true, \"documentation_strategy\": \x7b\"action\": \"create_new_page\", \"target_pages\": []\x7d\x7d")
        "documentation_strategy").bind (fun ds => pyIndexKey ds "target_pages")
      = Except.ok (Json.arr []) :=
  ⟨rfl, rfl⟩

/-- C6 amended: the *fallback* strategy satisfies the invariant — its
`needs_documentation` is true and its `target_pages` holds exactly one
page — but a strategy parsed from an advisory response is returned without
validation and may pair `needs_documentation = true` with an empty
`target_pages`. -/
theorem C6_fallback_satisfies_invariant :
    pyGetD fallbackStrategy "needs_documentation" (Json.bool false)
      = Except.ok (Json.bool true) ∧
    ∃ ps, (pyIndexKey fallbackStrategy "documentation_strategy").bind
        (fun ds => pyIndexKey ds "target_pages") = Except.ok (Json.arr ps) ∧
      ps.length = 1 :=
  ⟨rfl, [Json.str "Data-Changes-Fallback"], rfl, rfl⟩

/-! ## Claim C9 -/

/-- C9: any content containing any keyword of the schema family (such as
`"CREATE TABLE"`) as a case-insensitive substring is classified into the
Schema category, and content matching no keyword of any of the three
families is classified into no category at all. -/
theorem C9_classifier_keywords (content : String) :
    (∀ k ∈ schema_keywords,
      strContains (lowerStr content) (lowerStr k) = true →
        Category.schema ∈ classify content) ∧
    ((∀ k ∈ schema_keywords ++ api_keywords ++ flow_keywords,
        strContains (lowerStr content) (lowerStr k) = false) →
      classify content = []) := by
  constructor
  · intro k hk h
    have hs : contains_schema_content content = true := by
      unfold contains_schema_content
      rw [List.any_eq_true]
      exact ⟨k, hk, h⟩
    simp [classify, hs]
  · intro h
    have hs : contains_schema_content content = false := by
      unfold contains_schema_content
      rw [List.any_eq_false]
      intro k hk
      simpa using h k (by simp [hk])
    have ha : contains_api_content content = false := by
      unfold contains_api_content
      rw [List.any_eq_false]
      intro k hk
      simpa using h k (by simp [hk])
    have hf : contains_data_flow_content content = false := by
      unfold contains_data_flow_content
      rw [List.any_eq_false]
      intro k hk
      simpa using h k (by simp [hk])
    simp [classify, hs, ha, hf]

/-- C9 witness: `"We now CREATE TABLE users"` contains the schema keyword
`"CREATE TABLE"` and is classified as Schema, and `"hello there"` matches
nothing and is classified into no category. -/
theorem C9_classifier_keywords_witness :
    ("CREATE TABLE" ∈ schema_keywords ∧
      strContains (lowerStr "We now CREATE TABLE users") (lowerStr "CREATE TABLE") = true ∧
      Category.schema ∈ classify "We now CREATE TABLE users") ∧
    ((∀ k ∈ schema_keywords ++ api_keywords ++ flow_keywords,
        strContains (lowerStr "hello there") (lowerStr k) = false) ∧
      classify "hello there" = []) :=
  ⟨⟨by decide, by decide,
    (C9_classifier_keywords "We now CREATE TABLE users").1 "CREATE TABLE"
      (by decide) (by decide)⟩,
   ⟨by decide, (C9_classifier_keywords "hello there").2 (by decide)⟩⟩

/-! ## Claim C5 -/

/-- C5: updating a page absent from the store never invokes the merge
prompt and degrades to the creation path: the whole result — final store,
trace and outcome, hence in particular the stored content — equals what
`_create_new_intelligent_page` produces for the same page id, documentation
body, change record and strategy. -/
theorem C5_update_absent_degrades_to_create (store : Store) (page : Json) (doc : String)
    (changes : Changes) (strategy : Json) (o : Oracle) (clock : Clock)
    (h : getPageJ store page = none) :
    update_existing_intelligent_page store page doc changes strategy o clock
      = create_new_intelligent_page store page doc changes strategy clock ∧
    countKind (update_existing_intelligent_page store page doc changes strategy o clock).2.1
      AIKind.mergeQ = 0 := by
  have he : update_existing_intelligent_page store page doc changes strategy o clock
      = create_new_intelligent_page store page doc changes strategy clock := by
    unfold update_existing_intelligent_page
    rw [h]
  exact ⟨he, by rw [he]; exact create_new_no_aiCall store page doc changes strategy clock _⟩

/-- C5 witness: updating the missing page `"New Page"` on an empty store. -/
theorem C5_update_absent_degrades_to_create_witness :
    getPageJ ⟨fun _ => none, fun _ => false⟩ (Json.str "New Page") = none ∧
    (update_existing_intelligent_page ⟨fun _ => none, fun _ => false⟩ (Json.str "New Page")
        "body" ⟨"msg", [], "diff"⟩ fallbackStrategy
        ⟨none, none, none, fun _ _ => none⟩ ⟨"2025-01-01", "2025-01-01 10:00:00"⟩
      = create_new_intelligent_page ⟨fun _ => none, fun _ => false⟩ (Json.str "New Page")
        "body" ⟨"msg", [], "diff"⟩ fallbackStrategy ⟨"2025-01-01", "2025-01-01 10:00:00"⟩ ∧
    countKind (update_existing_intelligent_page ⟨fun _ => none, fun _ => false⟩
        (Json.str "New Page") "body" ⟨"msg", [], "diff"⟩ fallbackStrategy
        ⟨none, none, none, fun _ _ => none⟩ ⟨"2025-01-01", "2025-01-01 10:00:00"⟩).2.1
      AIKind.mergeQ = 0) :=
  ⟨rfl, C5_update_absent_degrades_to_create _ _ _ _ _ _ _ rfl⟩

/-! ## Claim C10 -/

/-- C10: a stored page whose content is the empty string is treated exactly
like an absent page: `_update_existing_intelligent_page` degrades to the
creation path without invoking the merge prompt, and
`_append_to_intelligent_page` substitutes the default minimal page header
for the (empty) existing content. -/
theorem C10_empty_content_as_absent (store : Store) (page : Json) (doc : String)
    (changes : Changes) (strategy : Json) (o : Oracle) (clock : Clock)
    (h : getPageJ store page = some "") :
    update_existing_intelligent_page store page doc changes strategy o clock
      = create_new_intelligent_page store page doc changes strategy clock ∧
    countKind (update_existing_intelligent_page store page doc changes strategy o clock).2.1
      AIKind.mergeQ = 0 ∧
    appendBaseContent store page = "# " ++ pyStr page ++ "\n\n" := by
  have he : update_existing_intelligent_page store page doc changes strategy o clock
      = create_new_intelligent_page store page doc changes strategy clock := by
    unfold update_existing_intelligent_page
    rw [h]
    simp
  refine ⟨he, ?_, ?_⟩
  · rw [he]
    exact create_new_no_aiCall store page doc changes strategy clock _
  · unfold appendBaseContent
    rw [h]
    simp

/-- C10 witness: the page `"Notes"` stored with empty content. -/
theorem C10_empty_content_as_absent_witness :
    getPageJ ⟨fun k => if k = "Notes.md" then some "" else none, fun _ => false⟩
      (Json.str "Notes") = some "" ∧
    (update_existing_intelligent_page
        ⟨fun k => if k = "Notes.md" then some "" else none, fun _ => false⟩ (Json.str "Notes")
        "body" ⟨"msg", [], "diff"⟩ fallbackStrategy
        ⟨none, none, none, fun _ _ => none⟩ ⟨"2025-01-01", "2025-01-01 10:00:00"⟩
      = create_new_intelligent_page
        ⟨fun k => if k = "Notes.md" then some "" else none, fun _ => false⟩ (Json.str "Notes")
        "body" ⟨"msg", [], "diff"⟩ fallbackStrategy ⟨"2025-01-01", "2025-01-01 10:00:00"⟩ ∧
    countKind (update_existing_intelligent_page
        ⟨fun k => if k = "Notes.md" then some "" else none, fun _ => false⟩ (Json.str "Notes")
        "body" ⟨"msg", [], "diff"⟩ fallbackStrategy
        ⟨none, none, none, fun _ _ => none⟩ ⟨"2025-01-01", "2025-01-01 10:00:00"⟩).2.1
      AIKind.mergeQ = 0 ∧
    appendBaseContent
        ⟨fun k => if k = "Notes.md" then some "" else none, fun _ => false⟩ (Json.str "Notes")
      = "# " ++ pyStr (Json.str "Notes") ++ "\n\n") :=
  ⟨rfl, C10_empty_content_as_absent _ _ _ _ _ _ _ rfl⟩

/-! ## Claim C4 -/

/-- C4: executing `update_multiple_pages` over `["A", "B"]` where the store
write for `"B"` fails and the one for `"A"` succeeds attempts every target
in order without short-circuiting (the trace shows merge and write attempts
for both pages, `"A"` first), leaves `"A"` updated with its merge result
and `"B"` unchanged, and reports the aggregate failure (the conjunction of
the per-page outcomes). -/
theorem C4_multi_page_no_short_circuit (store : Store) (doc aContent bContent mA mB : String)
    (changes : Changes) (o : Oracle) (clock : Clock)
    (hA : store.pages "A.md" = some aContent) (hAne : aContent ≠ "")
    (hB : store.pages "B.md" = some bContent) (hBne : bContent ≠ "")
    (hMA : o.mergeR aContent doc = some mA)
    (hMB : o.mergeR bContent doc = some mB)
    (hPA : store.putFails "A.md" = false)
    (hPB : store.putFails "B.md" = true) :
    (execute_intelligent_documentation store multiStrategyAB doc changes o clock).2.1
        = false ∧
    (execute_intelligent_documentation store multiStrategyAB doc changes o clock).1.pages
        "A.md" = some mA ∧
    (execute_intelligent_documentation store multiStrategyAB doc changes o clock).1.pages
        "B.md" = some bContent ∧
    (execute_intelligent_documentation store multiStrategyAB doc changes o clock).2.2
      = [Event.aiCall AIKind.mergeQ, Event.putAttempt "A.md",
         Event.aiCall AIKind.mergeQ, Event.putAttempt "B.md"] := by
  have eA : wikiGetFilename "A" = "A.md" := rfl
  have pA : wikiPutFilename "A" = "A.md" := rfl
  have eB : wikiGetFilename "B" = "B.md" := rfl
  have pB : wikiPutFilename "B" = "B.md" := rfl
  have nBA : ("B.md" : String) ≠ "A.md" := by decide
  have nAA : ("A.md" : String) = "A.md" := rfl
  simp [execute_intelligent_documentation, multiStrategyAB, pyIndexKey, lookupLast, pyIter,
    executeMulti, update_existing_intelligent_page, getPageJ, get_page, eA, eB, pA, pB,
    hA, hB, hAne, hBne, create_or_update_page, hPA, hPB, hMA, hMB, nBA]

/-- C4 witness: a concrete store holding pages `A.md` and `B.md` whose
write to `B.md` fails, with a merge oracle concatenating its arguments. -/
theorem C4_multi_page_no_short_circuit_witness :
    (⟨fun k => if k = "A.md" then some "old A" else if k = "B.md" then some "old B" else none,
      fun k => k = "B.md"⟩ : Store).pages "A.md" = some "old A" ∧
    ("old A" : String) ≠ "" ∧
    (execute_intelligent_documentation
        ⟨fun k => if k = "A.md" then some "old A" else if k = "B.md" then some "old B" else none,
         fun k => k = "B.md"⟩
        multiStrategyAB "body" ⟨"msg", [], "diff"⟩
        ⟨none, none, none, fun e n => some (e ++ " | " ++ n)⟩
        ⟨"2025-01-01", "2025-01-01 10:00:00"⟩).2.1 = false ∧
    (execute_intelligent_documentation
        ⟨fun k => if k = "A.md" then some "old A" else if k = "B.md" then some "old B" else none,
         fun k => k = "B.md"⟩
        multiStrategyAB "body" ⟨"msg", [], "diff"⟩
        ⟨none, none, none, fun e n => some (e ++ " | " ++ n)⟩
        ⟨"2025-01-01", "2025-01-01 10:00:00"⟩).1.pages "A.md" = some ("old A" ++ " | " ++ "body") ∧
    (execute_intelligent_documentation
        ⟨fun k => if k = "A.md" then some "old A" else if k = "B.md" then some "old B" else none,
         fun k => k = "B.md"⟩
        multiStrategyAB "body" ⟨"msg", [], "diff"⟩
        ⟨none, none, none, fun e n => some (e ++ " | " ++ n)⟩
        ⟨"2025-01-01", "2025-01-01 10:00:00"⟩).1.pages "B.md" = some "old B" ∧
    (execute_intelligent_documentation
        ⟨fun k => if k = "A.md" then some "old A" else if k = "B.md" then some "old B" else none,
         fun k => k = "B.md"⟩
        multiStrategyAB "body" ⟨"msg", [], "diff"⟩
        ⟨none, none, none, fun e n => some (e ++ " | " ++ n)⟩
        ⟨"2025-01-01", "2025-01-01 10:00:00"⟩).2.2
      = [Event.aiCall AIKind.mergeQ, Event.putAttempt "A.md",
         Event.aiCall AIKind.mergeQ, Event.putAttempt "B.md"] := by
  refine ⟨rfl, by decide, ?_⟩
  have h := C4_multi_page_no_short_circuit
    ⟨fun k => if k = "A.md" then some "old A" else if k = "B.md" then some "old B" else none,
     fun k => k = "B.md"⟩
    "body" "old A" "old B" ("old A" ++ " | " ++ "body") ("old B" ++ " | " ++ "body")
    ⟨"msg", [], "diff"⟩
    ⟨none, none, none, fun e n => some (e ++ " | " ++ n)⟩
    ⟨"2025-01-01", "2025-01-01 10:00:00"⟩
    rfl (by decide) rfl (by decide) rfl rfl (by decide) (by decide)
  exact ⟨h.1, h.2.1, h.2.2.1, h.2.2.2⟩

/-! ## Claim C7 -/

/-- C7: when the documentation body generator produces the literal sentinel
`"NO_DOCUMENTATION_NEEDED"` (up to surrounding whitespace), an empty
response, or no response at all, the run stops and exits without error
(`sys.exit(0)`): the strategy executor is never invoked, no page-store
write is attempted, and the store is unchanged. -/
theorem C7_sentinel_stops_run (changes : Changes) (cfg : RunConfig) (store : Store)
    (o : Oracle) (clock : Clock)
    (h : o.docGenR = none ∨ o.docGenR = some "" ∨
      ∃ s, o.docGenR = some s ∧ pyStrip s = "NO_DOCUMENTATION_NEEDED") :
    (main_run changes cfg store o clock).1 = Outcome.exited 0 ∧
    (main_run changes cfg store o clock).2.1 = store ∧
    countPuts (main_run changes cfg store o clock).2.2 = 0 ∧
    Event.execCall ∉ (main_run changes cfg store o clock).2.2 := by
  have hnb : noBodyResult (analyze_with_ai changes o).1 = true := by
    unfold analyze_with_ai
    by_cases hd : changes.diff_content = ""
    · simp [hd, noBodyResult]
    · cases hr : o.relevanceR with
      | none => simp [hd, hr, noBodyResult]
      | some r =>
        by_cases hne : r = "" ∨ strContains r "NOT_RELEVANT" = true
        · simp [hd, hr, hne, noBodyResult]
        · rcases h with h1 | h1 | ⟨s, hs, hstrip⟩
          · simp [hd, hr, hne, h1, noBodyResult]
          · simp [hd, hr, hne, h1, noBodyResult]
          · simp [hd, hr, hne, hs, noBodyResult, hstrip]
  have hp := analyze_with_ai_no_puts changes o
  by_cases hd : changes.diff_content = ""
  · refine ⟨?_, ?_, ?_, ?_⟩ <;> simp [main_run, hd, countPuts]
  · refine ⟨?_, ?_, ?_, ?_⟩ <;> simp [main_run, hd, hnb, hp.1, hp.2]

/-- C7 witness: a run whose documentation generator answers with the
literal sentinel. -/
theorem C7_sentinel_stops_run_witness :
    ((⟨some "RELEVANT", some "NO_DOCUMENTATION_NEEDED", some "\x7b\x7d",
        fun _ _ => none⟩ : Oracle).docGenR = none ∨
      (⟨some "RELEVANT", some "NO_DOCUMENTATION_NEEDED", some "\x7b\x7d",
        fun _ _ => none⟩ : Oracle).docGenR = some "" ∨
      ∃ s, (⟨some "RELEVANT", some "NO_DOCUMENTATION_NEEDED", some "\x7b\x7d",
        fun _ _ => none⟩ : Oracle).docGenR = some s ∧
        pyStrip s = "NO_DOCUMENTATION_NEEDED") ∧
    ((main_run ⟨"msg", [], "diff"⟩ ⟨false, true, true⟩ ⟨fun _ => none, fun _ => false⟩
        ⟨some "RELEVANT", some "NO_DOCUMENTATION_NEEDED", some "\x7b\x7d", fun _ _ => none⟩
        ⟨"2025-01-01", "2025-01-01 10:00:00"⟩).1 = Outcome.exited 0 ∧
      (main_run ⟨"msg", [], "diff"⟩ ⟨false, true, true⟩ ⟨fun _ => none, fun _ => false⟩
        ⟨some "RELEVANT", some "NO_DOCUMENTATION_NEEDED", some "\x7b\x7d", fun _ _ => none⟩
        ⟨"2025-01-01", "2025-01-01 10:00:00"⟩).2.1 = ⟨fun _ => none, fun _ => false⟩ ∧
      countPuts (main_run ⟨"msg", [], "diff"⟩ ⟨false, true, true⟩
        ⟨fun _ => none, fun _ => false⟩
        ⟨some "RELEVANT", some "NO_DOCUMENTATION_NEEDED", some "\x7b\x7d", fun _ _ => none⟩
        ⟨"2025-01-01", "2025-01-01 10:00:00"⟩).2.2 = 0 ∧
      Event.execCall ∉ (main_run ⟨"msg", [], "diff"⟩ ⟨false, true, true⟩
        ⟨fun _ => none, fun _ => false⟩
        ⟨some "RELEVANT", some "NO_DOCUMENTATION_NEEDED", some "\x7b\x7d", fun _ _ => none⟩
        ⟨"2025-01-01", "2025-01-01 10:00:00"⟩).2.2) :=
  ⟨Or.inr (Or.inr ⟨"NO_DOCUMENTATION_NEEDED", rfl, rfl⟩),
   C7_sentinel_stops_run ⟨"msg", [], "diff"⟩ ⟨false, true, true⟩
     ⟨fun _ => none, fun _ => false⟩
     ⟨some "RELEVANT", some "NO_DOCUMENTATION_NEEDED", some "\x7b\x7d", fun _ _ => none⟩
     ⟨"2025-01-01", "2025-01-01 10:00:00"⟩
     (Or.inr (Or.inr ⟨"NO_DOCUMENTATION_NEEDED", rfl, rfl⟩))⟩

/-! ## Claim C3 -/

/-- Every run's trace has one of five shapes: empty; one two-stage
analysis; analysis plus the strategy call; analysis, strategy call and a
second analysis; or all of those followed by the executor. -/
theorem main_run_trace_shapes (changes : Changes) (cfg : RunConfig) (store : Store)
    (o : Oracle) (clock : Clock) :
    (main_run changes cfg store o clock).2.2 = [] ∨
    (main_run changes cfg store o clock).2.2 = (analyze_with_ai changes o).2 ∨
    (main_run changes cfg store o clock).2.2
      = (analyze_with_ai changes o).2 ++ [Event.aiCall AIKind.strategyQ] ∨
    (main_run changes cfg store o clock).2.2
      = ((analyze_with_ai changes o).2 ++ [Event.aiCall AIKind.strategyQ])
        ++ (analyze_with_ai changes o).2 ∨
    ∃ st doc, (main_run changes cfg store o clock).2.2
      = (((analyze_with_ai changes o).2 ++ [Event.aiCall AIKind.strategyQ])
          ++ (analyze_with_ai changes o).2) ++ [Event.execCall]
        ++ (execute_intelligent_documentation store st doc changes o clock).2.2 := by
  unfold main_run
  by_cases hd : changes.diff_content = ""
  · simp [hd]
  · simp only [if_neg hd]
    by_cases hnb : noBodyResult (analyze_with_ai changes o).1 = true
    · simp [hnb]
    · simp only [Bool.not_eq_true] at hnb
      simp only [hnb]
      by_cases hdry : cfg.dryRun
      · simp [hdry]
      · simp only [hdry, Bool.false_eq_true, if_false]
        by_cases htok : cfg.hasGithubToken
        · simp only [htok, Bool.not_true, Bool.false_eq_true, if_false]
          by_cases hcl : cfg.cloneOk
          · simp only [hcl, Bool.not_true, Bool.false_eq_true, if_false]
            cases hsr : o.strategyR with
            | none => simp [hsr]
            | some sres =>
              cases hg1 : pyGetD (extractStrategy sres) "reasoning"
                  (Json.str "No reasoning provided") with
              | error e => simp [hsr, hg1]
              | ok g1 =>
                cases hg2 : pyGetD (extractStrategy sres) "needs_documentation"
                    (Json.bool false) with
                | error e => simp [hsr, hg1, hg2]
                | ok nd =>
                  by_cases hnd : pyTruthy nd
                  · cases hds : pyIndexKey (extractStrategy sres)
                        "documentation_strategy" with
                    | error e => simp [hsr, hg1, hg2, hnd, hds]
                    | ok ds =>
                      cases hac : pyIndexKey ds "action" with
                      | error e => simp [hsr, hg1, hg2, hnd, hds, hac]
                      | ok ac =>
                        cases htpp : pyIndexKey ds "target_pages" with
                        | error e => simp [hsr, hg1, hg2, hnd, hds, hac, htpp]
                        | ok tp =>
                          refine Or.inr (Or.inr (Or.inr (Or.inr
                            ⟨extractStrategy sres, (analyze_with_ai changes o).1.getD "",
                              ?_⟩)))
                          by_cases hex : (execute_intelligent_documentation store
                              (extractStrategy sres) ((analyze_with_ai changes o).1.getD "")
                              changes o clock).2.1 = true
                          · cases hfin : successPathFinal (extractStrategy sres) tp with
                            | ok u =>
                              simp [hsr, hg1, hg2, hnd, hds, hac, htpp, hex, hfin]
                            | error e =>
                              simp [hsr, hg1, hg2, hnd, hds, hac, htpp, hex, hfin]
                          · simp only [Bool.not_eq_true] at hex
                            simp [hsr, hg1, hg2, hnd, hds, hac, htpp, hex]
                  · simp only [Bool.not_eq_true] at hnd
                    simp [hsr, hg1, hg2, hnd]
          · simp only [Bool.not_eq_true] at hcl
            simp [hcl]
        · simp only [Bool.not_eq_true] at htok
          simp [htok]

/-- C3 counterexample: in a full run the relevance prompt is sent twice —
`main` runs the two-stage analysis both at step "Sending to AI for
analysis..." (line 740) and again at step 3 (line 784) — contradicting
"the relevance and body-generation prompts are each sent at most once per
run". -/
theorem C3_relevance_prompt_sent_twice :
    countKind (main_run ⟨"msg", [], "diff"⟩ ⟨false, true, true⟩
        ⟨fun _ => none, fun _ => false⟩
        ⟨some "RELEVANT", some "# Docs body",
          some "\x7b\"needs_documentation\": true, \"reasoning\": \"new table\", \"documentation_strategy\": \x7b\"action\": \"create_new_page\", \"target_pages\": [\"X\"], \"content_type\": \"schema\", \"priority\": \"high\"\x7d\x7d",
          fun _ _ => none⟩
        ⟨"2025-01-01", "2025-01-01 10:00:00"⟩).2.2 AIKind.relevance = 2 := rfl

/-- C3 amended: within one run the strategy prompt is sent at most once,
but the relevance and body-generation prompts are each sent up to *twice*
(the two-stage analysis runs once before the wiki flow and once more after
the strategy decision); merge prompts arise only inside the executor. -/
theorem C3_amended_advisory_call_bounds (changes : Changes) (cfg : RunConfig) (store : Store)
    (o : Oracle) (clock : Clock) :
    countKind (main_run changes cfg store o clock).2.2 AIKind.strategyQ ≤ 1 ∧
    countKind (main_run changes cfg store o clock).2.2 AIKind.relevance ≤ 2 ∧
    countKind (main_run changes cfg store o clock).2.2 AIKind.docGen ≤ 2 := by
  have ha := analyze_with_ai_counts changes o
  have hshape := main_run_trace_shapes changes cfg store o clock
  have c1 : countKind [Event.aiCall AIKind.strategyQ] AIKind.strategyQ = 1 := rfl
  have c2 : countKind [Event.aiCall AIKind.strategyQ] AIKind.relevance = 0 := rfl
  have c3 : countKind [Event.aiCall AIKind.strategyQ] AIKind.docGen = 0 := rfl
  have c4 : ∀ k, countKind [Event.execCall] k = 0 := fun k => by simp [countKind]
  rcases hshape with h | h | h | h | ⟨st, doc, h⟩ <;> rw [h]
  · simp [countKind]
  · exact ⟨by have := ha.2.2.1; omega, by have := ha.1; omega, by have := ha.2.1; omega⟩
  · refine ⟨?_, ?_, ?_⟩
    · rw [countKind_append, c1]; have := ha.2.2.1; omega
    · rw [countKind_append, c2]; have := ha.1; omega
    · rw [countKind_append, c3]; have := ha.2.1; omega
  · refine ⟨?_, ?_, ?_⟩
    · rw [countKind_append, countKind_append, c1]; have := ha.2.2.1; omega
    · rw [countKind_append, countKind_append, c2]; have := ha.1; omega
    · rw [countKind_append, countKind_append, c3]; have := ha.2.1; omega
  · have hex1 := execute_only_merge_aiCall store st doc changes o clock AIKind.strategyQ
      (by decide)
    have hex2 := execute_only_merge_aiCall store st doc changes o clock AIKind.relevance
      (by decide)
    have hex3 := execute_only_merge_aiCall store st doc changes o clock AIKind.docGen
      (by decide)
    refine ⟨?_, ?_, ?_⟩
    · rw [countKind_append, countKind_append, countKind_append, countKind_append, c1, c4,
        hex1]
      have := ha.2.2.1; omega
    · rw [countKind_append, countKind_append, countKind_append, countKind_append, c2, c4,
        hex2]
      have := ha.1; omega
    · rw [countKind_append, countKind_append, countKind_append, countKind_append, c3, c4,
        hex3]
      have := ha.2.1; omega

/-! ## C8 development, layer 1: list and character lemmas -/

/-- JSON whitespace is Python whitespace. -/
theorem isPyWs_of_isJsonWs (c : Char) (h : isJsonWs c = true) : isPyWs c = true := by
  simp only [isJsonWs, Bool.or_eq_true, decide_eq_true_eq] at h
  simp only [isPyWs, Bool.or_eq_true, decide_eq_true_eq]
  tauto

/-- `startsBT` is false when the head is not a backtick. -/
theorem startsBT_eq_false (l : List Char) (h : ∀ ch, l.head? = some ch → ch ≠ btChar) :
    startsBT l = false := by
  cases l with
  | nil => rfl
  | cons c t => simp [startsBT, h c rfl]

/-- `endsNl` is false when the last element is not a newline. -/
theorem endsNl_eq_false (l : List Char) (h : ∀ ch, l.getLast? = some ch → ch ≠ '\n') :
    endsNl l = false := by
  induction l with
  | nil => rfl
  | cons c t ih =>
    cases t with
    | nil => simp [endsNl, h c rfl]
    | cons d t' =>
      show endsNl (d :: t') = false
      exact ih (fun ch hch => h ch (by rw [List.getLast?_cons_cons]; exact hch))

/-- `hasNB` over a concatenation. -/
theorem hasNB_append (a b : List Char) :
    hasNB (a ++ b) = (hasNB a || (endsNl a && startsBT b) || hasNB b) := by
  induction a with
  | nil => simp [hasNB, endsNl]
  | cons c t ih =>
    cases t with
    | nil =>
      show ((c = '\n' && startsBT b) || hasNB b) = _
      have h1 : hasNB [c] = false := by simp [hasNB, startsBT]
      have h2 : endsNl [c] = decide (c = '\n') := rfl
      rw [h1, h2]
      simp
    | cons d t' =>
      have l1 : hasNB ((c :: d :: t') ++ b)
          = ((c = '\n' && startsBT (d :: t')) || hasNB ((d :: t') ++ b)) := rfl
      have l2 : hasNB (c :: d :: t')
          = ((c = '\n' && startsBT (d :: t')) || hasNB (d :: t')) := rfl
      have l3 : endsNl (c :: d :: t') = endsNl (d :: t') := rfl
      rw [l1, ih, l2, l3]
      simp [Bool.or_assoc]

/-- Whitespace-only text contains no newline-backtick pair. -/
theorem hasNB_all_ws (w : List Char) (h : ∀ ch ∈ w, isPyWs ch = true) : hasNB w = false := by
  induction w with
  | nil => rfl
  | cons c t ih =>
    show ((c = '\n' && startsBT t) || hasNB t) = false
    have ht : hasNB t = false := ih (fun ch hch => h ch (List.mem_cons_of_mem _ hch))
    have hst : startsBT t = false := by
      cases t with
      | nil => rfl
      | cons d t' =>
        show decide (d = btChar) = false
        have hd : isPyWs d = true := h d (by simp)
        have hne : d ≠ btChar := by
          intro he
          rw [he] at hd
          exact absurd hd (by decide)
        simp [hne]
    simp [ht, hst]

/-- Dropping a predicate-true block from the front. -/
theorem dropWhile_append_all (p : Char → Bool) (w x : List Char)
    (h : ∀ ch ∈ w, p ch = true) : (w ++ x).dropWhile p = x.dropWhile p := by
  induction w with
  | nil => rfl
  | cons c t ih =>
    have hc : p c = true := h c (List.mem_cons_self c t)
    simp only [List.cons_append, List.dropWhile_cons, hc, if_true]
    exact ih (fun ch hch => h ch (List.mem_cons_of_mem _ hch))

/-- `dropWhile` stops at a failing head. -/
theorem dropWhile_cons_neg (p : Char → Bool) (c : Char) (t : List Char) (h : p c = false) :
    (c :: t).dropWhile p = c :: t := by
  simp [List.dropWhile_cons, h]

/-- `takeWhile` over a predicate-true block followed by a failing head. -/
theorem takeWhile_all_append (p : Char → Bool) (w x : List Char)
    (hw : ∀ ch ∈ w, p ch = true) (hx : ∀ ch, x.head? = some ch → p ch = false) :
    (w ++ x).takeWhile p = w := by
  induction w with
  | nil =>
    cases x with
    | nil => rfl
    | cons c t => simp [List.takeWhile_cons, hx c rfl]
  | cons c t ih =>
    have hc : p c = true := hw c (List.mem_cons_self c t)
    simp only [List.cons_append, List.takeWhile_cons, hc, if_true, List.cons.injEq, true_and]
    exact ih (fun ch hch => hw ch (List.mem_cons_of_mem _ hch))

/-- `dropWhile` over a predicate-true block followed by a failing head. -/
theorem dropWhile_all_append (p : Char → Bool) (w x : List Char)
    (hw : ∀ ch ∈ w, p ch = true) (hx : ∀ ch, x.head? = some ch → p ch = false) :
    (w ++ x).dropWhile p = x := by
  rw [dropWhile_append_all p w x hw]
  cases x with
  | nil => rfl
  | cons c t => exact dropWhile_cons_neg p c t (hx c rfl)

/-- Python strip of whitespace-padded text with non-whitespace core ends. -/
theorem pyStripL_sandwich (w1 : List Char) (c0 : Char) (ct w2 : List Char)
    (hw1 : ∀ ch ∈ w1, isPyWs ch = true) (hw2 : ∀ ch ∈ w2, isPyWs ch = true)
    (hh : isPyWs c0 = false)
    (hl : ∀ ch, (c0 :: ct).getLast? = some ch → isPyWs ch = false) :
    pyStripL (w1 ++ (c0 :: ct) ++ w2) = c0 :: ct := by
  unfold pyStripL
  rw [List.append_assoc]
  rw [dropWhile_append_all _ w1 _ hw1]
  have h1 : ((c0 :: ct) ++ w2).dropWhile isPyWs = (c0 :: ct) ++ w2 := by
    rw [List.cons_append]
    exact dropWhile_cons_neg _ _ _ hh
  rw [h1, List.reverse_append]
  rw [dropWhile_append_all _ w2.reverse _
    (fun ch hch => hw2 ch (List.mem_reverse.mp hch))]
  cases hrev : (c0 :: ct).reverse with
  | nil => exact absurd (congrArg List.length hrev) (by simp)
  | cons d dt =>
    have hd : (c0 :: ct).getLast? = some d := by
      rw [← List.head?_reverse, hrev]
      rfl
    rw [dropWhile_cons_neg _ _ _ (hl d hd), ← hrev, List.reverse_reverse]

/-- A needle is a prefix of itself followed by anything. -/
theorem matchAt_append_self (x y : List Char) : matchAt x (x ++ y) = true := by
  induction x with
  | nil => rfl
  | cons c t ih => simp [matchAt, ih]

/-- `matchAt` characterises prefixes. -/
theorem matchAt_iff (pat l : List Char) : matchAt pat l = true ↔ ∃ t, l = pat ++ t := by
  induction pat generalizing l with
  | nil =>
    simp only [matchAt, List.nil_append, true_iff]
    exact ⟨l, rfl⟩
  | cons c p ih =>
    cases l with
    | nil =>
      simp only [matchAt]
      constructor
      · intro hf; cases hf
      · rintro ⟨t, ht⟩; cases ht
    | cons d t =>
      rw [show matchAt (c :: p) (d :: t) = (c = d && matchAt p t) from rfl]
      simp only [Bool.and_eq_true, decide_eq_true_eq, ih]
      constructor
      · rintro ⟨rfl, u, rfl⟩
        exact ⟨u, rfl⟩
      · rintro ⟨u, he⟩
        injection he with h1 h2
        exact ⟨h1.symm, u, h2⟩

/-- In text with no newline-backtick pair, the first `"\n```"` of
`text ++ "\n```"` is exactly the appended closer. -/
theorem findFence_boundary (g : List Char) (h : hasNB g = false) :
    findFence (g ++ fenceClose) = some g.length := by
  induction g with
  | nil =>
    have hm : matchAt fenceClose ('\n' :: tripleBt) = true := by
      have := matchAt_append_self fenceClose []
      rwa [List.append_nil] at this
    show findFence ('\n' :: tripleBt) = some 0
    simp [findFence, hm]
  | cons c t ih =>
    have hh : ((c = '\n' && startsBT t) || hasNB t) = false := h
    rcases Bool.or_eq_false_iff.mp hh with ⟨hh1, hh2⟩
    have hm : matchAt fenceClose (c :: (t ++ fenceClose)) = false := by
      by_cases hc : c = '\n'
      · subst hc
        have hst : startsBT t = false := by
          cases hb : startsBT t
          · rfl
          · rw [hb] at hh1
            simp at hh1
        have hmt : matchAt tripleBt (t ++ fenceClose) = false := by
          cases t with
          | nil => decide
          | cons d t' =>
            have hd : d ≠ btChar := by
              intro he
              rw [he] at hst
              simp [startsBT] at hst
            show (decide (btChar = d) && matchAt (btChar :: btChar :: []) (t' ++ fenceClose))
              = false
            have hdd : decide (btChar = d) = false :=
              decide_eq_false (fun he => hd he.symm)
            simp [hdd]
        show (decide ('\n' = '\n') && matchAt tripleBt (t ++ fenceClose)) = false
        simp [hmt]
      · show (decide ('\n' = c) && matchAt tripleBt (t ++ fenceClose)) = false
        have : decide ('\n' = c) = false := decide_eq_false (fun he => hc he.symm)
        simp [this]
    show findFence (c :: (t ++ fenceClose)) = some (t.length + 1)
    rw [show findFence (c :: (t ++ fenceClose))
        = if matchAt fenceClose (c :: (t ++ fenceClose)) then some 0
          else (findFence (t ++ fenceClose)).map (· + 1) from rfl]
    rw [hm]
    simp [ih hh2]

/-- Membership in the descending range `[n, ..., 1]`. -/
theorem mem_descRange (n m : Nat) : m ∈ descRange n ↔ 1 ≤ m ∧ m ≤ n := by
  induction n with
  | zero =>
    simp [descRange]
    omega
  | succ k ih =>
    simp [descRange, ih]
    omega

/-! ## C8 development, layer 2: consumed segments of the JSON parser -/

/-- Newline-free text has no newline-backtick pair. -/
theorem hasNB_no_nl (c : List Char) (h : ∀ ch ∈ c, ch ≠ '\n') : hasNB c = false := by
  induction c with
  | nil => rfl
  | cons a t ih =>
    show ((a = '\n' && startsBT t) || hasNB t) = false
    have ha : a ≠ '\n' := h a (List.mem_cons_self a t)
    have ht := ih (fun ch hch => h ch (List.mem_cons_of_mem _ hch))
    simp [ha, ht]

/-- The last element of a list survives a cons. -/
theorem getLast?_cons_ne (a : Char) (t : List Char) (h : t ≠ []) :
    (a :: t).getLast? = t.getLast? := by
  cases t with
  | nil => exact absurd rfl h
  | cons b t' => exact List.getLast?_cons_cons

/-- The last element belongs to the list. -/
theorem mem_of_getLast? {l : List Char} {a : Char} (h : l.getLast? = some a) : a ∈ l := by
  induction l with
  | nil => cases h
  | cons c t ih =>
    cases t with
    | nil =>
      have : c = a := by
        have hx : some c = some a := h
        injection hx
      simp [this]
    | cons d t' =>
      rw [List.getLast?_cons_cons] at h
      exact List.mem_cons_of_mem _ (ih h)

/-- A hex digit is not a newline. -/
theorem hexVal_ne_nl (ch : Char) (x : Nat) (h : hexVal ch = some x) : ch ≠ '\n' := by
  intro he
  rw [he] at h
  have hz : hexVal '\n' = none := by decide
  rw [hz] at h
  cases h

/-- `parseHex4` consumes exactly four non-newline characters. -/
theorem parseHex4_seg (l : List Char) (n : Nat) (r : List Char)
    (h : parseHex4 l = some (n, r)) :
    ∃ c, l = c ++ r ∧ c.length = 4 ∧ ∀ ch ∈ c, ch ≠ '\n' := by
  match l, h with
  | a :: b :: c :: d :: r', h =>
    simp only [parseHex4] at h
    cases ha : hexVal a with
    | none => rw [ha] at h; cases h
    | some x =>
      cases hb : hexVal b with
      | none => rw [ha, hb] at h; cases h
      | some y =>
        cases hc : hexVal c with
        | none => rw [ha, hb, hc] at h; cases h
        | some z =>
          cases hd : hexVal d with
          | none => rw [ha, hb, hc, hd] at h; cases h
          | some w =>
            rw [ha, hb, hc, hd] at h
            have hr : r' = r := by injection h with h1; exact congrArg Prod.snd h1
            subst hr
            refine ⟨[a, b, c, d], rfl, rfl, ?_⟩
            intro ch hch
            simp only [List.mem_cons, List.not_mem_nil, or_false] at hch
            rcases hch with rfl | rfl | rfl | rfl
            · exact hexVal_ne_nl ch x ha
            · exact hexVal_ne_nl ch y hb
            · exact hexVal_ne_nl ch z hc
            · exact hexVal_ne_nl ch w hd

/-- An escape letter is not a newline. -/
theorem escChar_ne_nl (e d : Char) (h : escChar e = some d) : e ≠ '\n' := by
  intro he
  rw [he] at h
  have hz : escChar '\n' = none := by decide
  rw [hz] at h
  cases h

/-- Prefixing a newline-free block onto a string segment. -/
theorem StrSeg.prepend (pre X r : List Char) (hpre : ∀ ch ∈ pre, ch ≠ '\n')
    (hs : StrSeg X r) : StrSeg (pre ++ X) r := by
  obtain ⟨c, hX, hne, hnl, hlast⟩ := hs
  refine ⟨pre ++ c, by rw [hX, List.append_assoc], by simp [hne], ?_, ?_⟩
  · intro ch hch
    rcases List.mem_append.mp hch with h1 | h1
    exacts [hpre ch h1, hnl ch h1]
  · rw [List.getLast?_append, hlast]
    rfl

/-- The closing quote alone is a string segment. -/
theorem StrSeg.quote (r : List Char) : StrSeg ('"' :: r) r :=
  ⟨['"'], rfl, by simp, by decide, rfl⟩

/-- `parseStringBody` consumes a `StrSeg`. -/
theorem parseStringBody_seg (n : Nat) :
    ∀ l cs r, parseStringBody n l = some (cs, r) → StrSeg l r := by
  induction n with
  | zero =>
    intro l cs r h
    rw [parseStringBody] at h
    cases h
  | succ m ih =>
    intro l cs r h
    rw [parseStringBody.eq_def] at h
    split at h
    · cases h
    · rename_i lv a1 a2 fuel hfuel
      have hf : fuel = m := by omega
      subst hf
      clear a1 a2
      split at h
      · cases h
      · -- closing quote
        rename_i r0
        have hr : r0 = r := by
          injection h with h1
          exact congrArg Prod.snd h1
        subst hr
        exact StrSeg.quote _
      · -- escape
        rename_i e r0
        split at h
        · -- backslash-u escape
          rename_i hu
          subst hu
          cases hx : parseHex4 r0 with
          | none => simp only [hx] at h; cases h
          | some p =>
            obtain ⟨nn, r1⟩ := p
            simp only [hx] at h
            obtain ⟨c4, hc4, hlen4, hnl4⟩ := parseHex4_seg r0 nn r1 hx
            have hpre4 : ∀ ch ∈ ('\\' :: 'u' :: c4), ch ≠ '\n' := by
              intro ch hch
              simp only [List.mem_cons] at hch
              rcases hch with rfl | rfl | hch
              · decide
              · decide
              · exact hnl4 ch hch
            have hshape : ('\\' :: 'u' :: r0) = ('\\' :: 'u' :: c4) ++ r1 := by
              rw [hc4]
              rfl
            split at h
            · -- high surrogate
              split at h
              · -- followed by another backslash-u escape
                rename_i r2
                cases hx2 : parseHex4 r2 with
                | none =>
                  simp only [hx2] at h
                  obtain ⟨p2, hp2, hmap⟩ := Option.map_eq_some'.mp h
                  obtain ⟨cs', r'⟩ := p2
                  have hrr : r' = r := congrArg Prod.snd hmap
                  subst hrr
                  rw [hshape]
                  exact StrSeg.prepend _ _ _ hpre4 (ih _ _ _ hp2)
                | some p2 =>
                  obtain ⟨mm, r3⟩ := p2
                  simp only [hx2] at h
                  split at h
                  · -- valid low surrogate: combined code point
                    obtain ⟨p3, hp3, hmap⟩ := Option.map_eq_some'.mp h
                    obtain ⟨cs', r'⟩ := p3
                    have hrr : r' = r := congrArg Prod.snd hmap
                    subst hrr
                    obtain ⟨c4', hc4', hlen4', hnl4'⟩ := parseHex4_seg r2 mm r3 hx2
                    rw [hshape, hc4']
                    rw [show ('\\' :: 'u' :: c4) ++ ('\\' :: 'u' :: (c4' ++ r3))
                        = (('\\' :: 'u' :: c4) ++ ('\\' :: 'u' :: c4')) ++ r3 by
                      simp [List.append_assoc]]
                    refine StrSeg.prepend _ _ _ ?_ (ih _ _ _ hp3)
                    intro ch hch
                    rcases List.mem_append.mp hch with h1 | h1
                    · exact hpre4 ch h1
                    · simp only [List.mem_cons] at h1
                      rcases h1 with rfl | rfl | h1
                      · decide
                      · decide
                      · exact hnl4' ch h1
                  · -- low-surrogate range check failed: lone surrogate
                    obtain ⟨p3, hp3, hmap⟩ := Option.map_eq_some'.mp h
                    obtain ⟨cs', r'⟩ := p3
                    have hrr : r' = r := congrArg Prod.snd hmap
                    subst hrr
                    rw [hshape]
                    exact StrSeg.prepend _ _ _ hpre4 (ih _ _ _ hp3)
              · -- not followed by a backslash-u escape: lone surrogate
                obtain ⟨p3, hp3, hmap⟩ := Option.map_eq_some'.mp h
                obtain ⟨cs', r'⟩ := p3
                have hrr : r' = r := congrArg Prod.snd hmap
                subst hrr
                rw [hshape]
                exact StrSeg.prepend _ _ _ hpre4 (ih _ _ _ hp3)
            · -- not a high surrogate
              split at h
              · -- lone low surrogate
                obtain ⟨p3, hp3, hmap⟩ := Option.map_eq_some'.mp h
                obtain ⟨cs', r'⟩ := p3
                have hrr : r' = r := congrArg Prod.snd hmap
                subst hrr
                rw [hshape]
                exact StrSeg.prepend _ _ _ hpre4 (ih _ _ _ hp3)
              · -- ordinary backslash-u code point
                obtain ⟨p3, hp3, hmap⟩ := Option.map_eq_some'.mp h
                obtain ⟨cs', r'⟩ := p3
                have hrr : r' = r := congrArg Prod.snd hmap
                subst hrr
                rw [hshape]
                exact StrSeg.prepend _ _ _ hpre4 (ih _ _ _ hp3)
        · -- single-character escape
          rename_i hu
          cases hesc : escChar e with
          | none => simp only [hesc] at h; cases h
          | some d =>
            simp only [hesc] at h
            obtain ⟨p3, hp3, hmap⟩ := Option.map_eq_some'.mp h
            obtain ⟨cs', r'⟩ := p3
            have hrr : r' = r := congrArg Prod.snd hmap
            subst hrr
            refine StrSeg.prepend ['\\', e] r0 _ ?_ (ih _ _ _ hp3)
            intro ch hch
            simp only [List.mem_cons, List.not_mem_nil, or_false] at hch
            rcases hch with rfl | rfl
            · decide
            · exact escChar_ne_nl ch d hesc
      · -- ordinary character
        rename_i lv2 c0 r0 hn1 hn2
        split at h
        · cases h
        · rename_i hctl
          obtain ⟨p3, hp3, hmap⟩ := Option.map_eq_some'.mp h
          obtain ⟨cs', r'⟩ := p3
          have hrr : r' = r := congrArg Prod.snd hmap
          subst hrr
          refine StrSeg.prepend [c0] r0 _ ?_ (ih _ _ _ hp3)
          intro ch hch
          simp only [List.mem_cons, List.not_mem_nil, or_false] at hch
          subst hch
          intro he
          subst he
          exact hctl (by decide)

/-- A number character is a token character: not whitespace, not a
backtick, not a newline. -/
theorem numChar_tok (ch : Char) (h : numChar ch = true) :
    isPyWs ch = false ∧ ch ≠ btChar ∧ ch ≠ '\n' := by
  simp only [numChar, Bool.or_eq_true, decide_eq_true_eq] at h
  rcases h with ((((hd | h1) | h1) | h1) | h1) | h1
  · refine ⟨?_, ?_, ?_⟩
    · cases hp : isPyWs ch
      · rfl
      · exfalso
        simp only [isPyWs, Bool.or_eq_true, decide_eq_true_eq] at hp
        rcases hp with ((((rfl | rfl) | rfl) | rfl) | rfl) | rfl <;>
          exact absurd hd (by decide)
    · intro he
      subst he
      exact absurd hd (by decide)
    · intro he
      subst he
      exact absurd hd (by decide)
  all_goals subst h1
  all_goals exact ⟨by decide, by decide, by decide⟩

/-- `takeDigits` splits off the maximal digit run. -/
theorem takeDigits_eq (r0 ds r' : List Char) (h : takeDigits r0 = (ds, r')) :
    r0 = ds ++ r' ∧ ∀ ch ∈ ds, ch.isDigit = true := by
  have h1 : ds = r0.takeWhile Char.isDigit := by
    have := congrArg Prod.fst h
    simpa [takeDigits] using this.symm
  have h2 : r' = r0.dropWhile Char.isDigit := by
    have := congrArg Prod.snd h
    simpa [takeDigits] using this.symm
  subst h1
  subst h2
  exact ⟨(List.takeWhile_append_dropWhile _ _).symm,
    fun ch hch => List.mem_takeWhile_imp hch⟩

/-- `parseIntPart` consumes a non-empty digit run. -/
theorem parseIntPart_seg (l ip r : List Char) (h : parseIntPart l = some (ip, r)) :
    l = ip ++ r ∧ ip ≠ [] ∧ ∀ ch ∈ ip, ch.isDigit = true := by
  rw [parseIntPart.eq_def] at h
  split at h
  · rename_i r0
    injection h with h1
    have hfst : ip = ['0'] := (congrArg Prod.fst h1).symm
    have hsnd : r = r0 := (congrArg Prod.snd h1).symm
    subst hfst
    subst hsnd
    exact ⟨rfl, by simp, by decide⟩
  · rename_i lv c0 r0 hn
    split at h
    · rename_i hdig
      cases htd : takeDigits r0 with
      | mk ds r2 =>
        simp only [htd] at h
        injection h with h1
        have hfst : ip = c0 :: ds := (congrArg Prod.fst h1).symm
        have hsnd : r = r2 := (congrArg Prod.snd h1).symm
        subst hfst
        subst hsnd
        obtain ⟨hd1, hd2⟩ := takeDigits_eq r0 ds _ htd
        refine ⟨by rw [hd1]; rfl, by simp, ?_⟩
        intro ch hch
        simp only [List.mem_cons] at hch
        rcases hch with rfl | hch
        · exact hdig
        · exact hd2 ch hch
    · cases h
  · cases h

/-- `parseFracPart` consumes number characters. -/
theorem parseFracPart_seg (l fp r : List Char) (h : parseFracPart l = (fp, r)) :
    l = fp ++ r ∧ ∀ ch ∈ fp, numChar ch = true := by
  rw [parseFracPart.eq_def] at h
  split at h
  · rename_i c0 r0
    split at h
    · rename_i hdig
      cases htd : takeDigits r0 with
      | mk ds r2 =>
        simp only [htd] at h
        have hfst : fp = '.' :: c0 :: ds := (congrArg Prod.fst h).symm
        have hsnd : r = r2 := (congrArg Prod.snd h).symm
        subst hfst
        subst hsnd
        obtain ⟨hd1, hd2⟩ := takeDigits_eq r0 ds _ htd
        refine ⟨by rw [hd1]; rfl, ?_⟩
        intro ch hch
        simp only [List.mem_cons] at hch
        rcases hch with rfl | rfl | hch
        · decide
        · simp [numChar, hdig]
        · simp [numChar, hd2 ch hch]
    · have hfst : fp = [] := (congrArg Prod.fst h).symm
      have hsnd : r = '.' :: c0 :: r0 := (congrArg Prod.snd h).symm
      subst hfst
      subst hsnd
      exact ⟨rfl, by simp⟩
  · have hfst : fp = [] := (congrArg Prod.fst h).symm
    have hsnd : r = l := (congrArg Prod.snd h).symm
    subst hfst
    subst hsnd
    exact ⟨rfl, by simp⟩

/-- `parseExpPart` consumes number characters. -/
theorem parseExpPart_seg (l ep r : List Char) (h : parseExpPart l = (ep, r)) :
    l = ep ++ r ∧ ∀ ch ∈ ep, numChar ch = true := by
  rw [parseExpPart.eq_def] at h
  split at h
  case h_1 e c0 r0 =>
    split at h
    · rename_i hg
      cases htd : takeDigits r0 with
      | mk ds r2 =>
        simp only [htd] at h
        have hfst : ep = e :: '+' :: c0 :: ds := (congrArg Prod.fst h).symm
        have hsnd : r = r2 := (congrArg Prod.snd h).symm
        subst hfst
        subst hsnd
        obtain ⟨hd1, hd2⟩ := takeDigits_eq r0 ds _ htd
        refine ⟨by rw [hd1]; rfl, ?_⟩
        intro ch hch
        simp only [List.mem_cons] at hch
        rcases hch with rfl | rfl | rfl | hch
        · rcases hg.1 with rfl | rfl <;> decide
        · decide
        · simp [numChar, hg.2]
        · simp [numChar, hd2 ch hch]
    · have hfst : ep = [] := (congrArg Prod.fst h).symm
      have hsnd : r = e :: '+' :: c0 :: r0 := (congrArg Prod.snd h).symm
      subst hfst
      subst hsnd
      exact ⟨rfl, by simp⟩
  case h_2 e c0 r0 =>
    split at h
    · rename_i hg
      cases htd : takeDigits r0 with
      | mk ds r2 =>
        simp only [htd] at h
        have hfst : ep = e :: '-' :: c0 :: ds := (congrArg Prod.fst h).symm
        have hsnd : r = r2 := (congrArg Prod.snd h).symm
        subst hfst
        subst hsnd
        obtain ⟨hd1, hd2⟩ := takeDigits_eq r0 ds _ htd
        refine ⟨by rw [hd1]; rfl, ?_⟩
        intro ch hch
        simp only [List.mem_cons] at hch
        rcases hch with rfl | rfl | rfl | hch
        · rcases hg.1 with rfl | rfl <;> decide
        · decide
        · simp [numChar, hg.2]
        · simp [numChar, hd2 ch hch]
    · have hfst : ep = [] := (congrArg Prod.fst h).symm
      have hsnd : r = e :: '-' :: c0 :: r0 := (congrArg Prod.snd h).symm
      subst hfst
      subst hsnd
      exact ⟨rfl, by simp⟩
  case h_3 e c0 r0 hn1 hn2 =>
    split at h
    · rename_i hg
      cases htd : takeDigits r0 with
      | mk ds r2 =>
        simp only [htd] at h
        have hfst : ep = e :: c0 :: ds := (congrArg Prod.fst h).symm
        have hsnd : r = r2 := (congrArg Prod.snd h).symm
        subst hfst
        subst hsnd
        obtain ⟨hd1, hd2⟩ := takeDigits_eq r0 ds _ htd
        refine ⟨by rw [hd1]; rfl, ?_⟩
        intro ch hch
        simp only [List.mem_cons] at hch
        rcases hch with rfl | rfl | hch
        · rcases hg.1 with rfl | rfl <;> decide
        · simp [numChar, hg.2]
        · simp [numChar, hd2 ch hch]
    · have hfst : ep = [] := (congrArg Prod.fst h).symm
      have hsnd : r = e :: c0 :: r0 := (congrArg Prod.snd h).symm
      subst hfst
      subst hsnd
      exact ⟨rfl, by simp⟩
  case h_4 =>
    have hfst : ep = [] := (congrArg Prod.fst h).symm
    have hsnd : r = l := (congrArg Prod.snd h).symm
    subst hfst
    subst hsnd
    exact ⟨rfl, by simp⟩

/-- The consumed segment of `parseNumber` is a non-empty run of number
characters. -/
theorem parseNumber_seg (l : List Char) (lex : String) (r : List Char)
    (h : parseNumber l = some (lex, r)) :
    ∃ c, l = c ++ r ∧ c ≠ [] ∧ ∀ ch ∈ c, numChar ch = true := by
  rw [parseNumber.eq_def] at h
  split at h
  · -- leading minus sign
    rename_i r0
    cases hip : parseIntPart r0 with
    | none => simp only [hip] at h; cases h
    | some p =>
      obtain ⟨ip, r1⟩ := p
      simp only [hip] at h
      cases hfp : parseFracPart r1 with
      | mk fp r2 =>
        simp only [hfp] at h
        cases hep : parseExpPart r2 with
        | mk ep r3 =>
          simp only [hep] at h
          have hsnd : r = r3 := by
            injection h with h1
            exact (congrArg Prod.snd h1).symm
          subst hsnd
          obtain ⟨hi1, hi2, hi3⟩ := parseIntPart_seg r0 ip r1 hip
          obtain ⟨hf1, hf2⟩ := parseFracPart_seg r1 fp r2 hfp
          obtain ⟨he1, he2⟩ := parseExpPart_seg r2 ep _ hep
          refine ⟨'-' :: (ip ++ fp ++ ep), ?_, by simp, ?_⟩
          · rw [hi1, hf1, he1]
            simp
          · intro ch hch
            simp only [List.mem_cons, List.mem_append] at hch
            rcases hch with rfl | (h1 | h1) | h1
            · decide
            · simp [numChar, hi3 ch h1]
            · exact hf2 ch h1
            · exact he2 ch h1
  · -- no sign
    rename_i hn
    cases hip : parseIntPart l with
    | none => simp only [hip] at h; cases h
    | some p =>
      obtain ⟨ip, r1⟩ := p
      simp only [hip] at h
      cases hfp : parseFracPart r1 with
      | mk fp r2 =>
        simp only [hfp] at h
        cases hep : parseExpPart r2 with
        | mk ep r3 =>
          simp only [hep] at h
          have hsnd : r = r3 := by
            injection h with h1
            exact (congrArg Prod.snd h1).symm
          subst hsnd
          obtain ⟨hi1, hi2, hi3⟩ := parseIntPart_seg l ip r1 hip
          obtain ⟨hf1, hf2⟩ := parseFracPart_seg r1 fp r2 hfp
          obtain ⟨he1, he2⟩ := parseExpPart_seg r2 ep _ hep
          refine ⟨ip ++ fp ++ ep, ?_, by simp [hi2], ?_⟩
          · rw [hi1, hf1, he1]
            simp
          · intro ch hch
            simp only [List.mem_append] at hch
            rcases hch with (h1 | h1) | h1
            · simp [numChar, hi3 ch h1]
            · exact hf2 ch h1
            · exact he2 ch h1

/-! ## C8 development, layer 2 continued: composing consumed segments -/

/-- A token character followed by whitespace and a further segment. -/
theorem seg_cons_ws (tok : Char) (rest r : List Char)
    (htok : isPyWs tok = false) (hbt : tok ≠ btChar)
    (hseg : Seg (skipJsonWs rest) r) : Seg (tok :: rest) r := by
  obtain ⟨c, hdec, hne, hhead, hlast, hnb⟩ := hseg
  have hsplit : rest = rest.takeWhile isJsonWs ++ rest.dropWhile isJsonWs :=
    (List.takeWhile_append_dropWhile _ _).symm
  have hwws : ∀ ch ∈ rest.takeWhile isJsonWs, isJsonWs ch = true :=
    fun ch hch => List.mem_takeWhile_imp hch
  have hskip : skipJsonWs rest = rest.dropWhile isJsonWs := rfl
  rw [hskip] at hdec
  refine ⟨tok :: (rest.takeWhile isJsonWs ++ c), ?_, by simp, ?_, ?_, ?_⟩
  · have hx : rest = rest.takeWhile isJsonWs ++ (c ++ r) := by
      rw [← hdec]
      exact hsplit
    conv_lhs => rw [hx]
    simp [List.append_assoc]
  · intro ch hch
    have : ch = tok := by
      have hx : some tok = some ch := hch
      injection hx with hx
      exact hx.symm
    subst this
    exact ⟨htok, hbt⟩
  · intro ch hch
    rw [getLast?_cons_ne _ _ (by simp [hne]), List.getLast?_append] at hch
    cases hc : c.getLast? with
    | none => exact absurd (List.getLast?_eq_none_iff.mp hc) hne
    | some x =>
      rw [hc] at hch
      have : x = ch := by
        have hx : some x = some ch := hch
        injection hx
      subst this
      exact hlast _ hc
  · have h1 : startsBT c = false :=
      startsBT_eq_false _ (fun ch hch => (hhead ch hch).2)
    have hww : ∀ ch ∈ rest.takeWhile isJsonWs, isPyWs ch = true :=
      fun ch hch => isPyWs_of_isJsonWs ch (hwws ch hch)
    have h2 : hasNB (rest.takeWhile isJsonWs ++ c) = false := by
      rw [hasNB_append]
      simp [hasNB_all_ws _ hww, h1, hnb]
    show ((tok = '\n' && startsBT (rest.takeWhile isJsonWs ++ c))
        || hasNB (rest.takeWhile isJsonWs ++ c)) = false
    have h3 : startsBT (rest.takeWhile isJsonWs ++ c) = false := by
      cases hw : rest.takeWhile isJsonWs with
      | nil => simpa using h1
      | cons a t =>
        show decide (a = btChar) = false
        have ha : isPyWs a = true := by
          apply hww
          rw [hw]
          exact List.mem_cons_self a t
        have : a ≠ btChar := by
          intro he
          rw [he] at ha
          exact absurd ha (by decide)
        simp [this]
    simp [h3, h2]

/-- Two consumed segments separated by whitespace compose. -/
theorem seg_trans_ws (l mid r : List Char) (h1 : Seg l mid) (h2 : Seg (skipJsonWs mid) r) :
    Seg l r := by
  obtain ⟨c1, hd1, hne1, hh1, hl1, hb1⟩ := h1
  obtain ⟨c2, hd2, hne2, hh2, hl2, hb2⟩ := h2
  have hsplit : mid = mid.takeWhile isJsonWs ++ mid.dropWhile isJsonWs :=
    (List.takeWhile_append_dropWhile _ _).symm
  have hww : ∀ ch ∈ mid.takeWhile isJsonWs, isPyWs ch = true :=
    fun ch hch => isPyWs_of_isJsonWs ch (List.mem_takeWhile_imp hch)
  have hskip : skipJsonWs mid = mid.dropWhile isJsonWs := rfl
  rw [hskip] at hd2
  refine ⟨c1 ++ (mid.takeWhile isJsonWs ++ c2), ?_, by simp [hne1], ?_, ?_, ?_⟩
  · have hm : mid = mid.takeWhile isJsonWs ++ (c2 ++ r) := by
      rw [← hd2]
      exact hsplit
    conv_lhs => rw [hd1, hm]
    simp [List.append_assoc]
  · intro ch hch
    rw [List.head?_append] at hch
    cases hc : c1.head? with
    | none =>
      cases c1 with
      | nil => exact absurd rfl hne1
      | cons a t => cases hc
    | some x =>
      rw [hc] at hch
      have : x = ch := by
        have hx : some x = some ch := hch
        injection hx
      subst this
      exact hh1 _ hc
  · intro ch hch
    rw [List.getLast?_append, List.getLast?_append] at hch
    cases hc : c2.getLast? with
    | none => exact absurd (List.getLast?_eq_none_iff.mp hc) hne2
    | some x =>
      rw [hc] at hch
      have : x = ch := by
        have hx : ((some x).or (mid.takeWhile isJsonWs).getLast?).or c1.getLast?
            = some ch := hch
        simpa [Option.or] using hx
      subst this
      exact hl2 _ hc
  · rw [hasNB_append, hasNB_append]
    have hsBT2 : startsBT c2 = false :=
      startsBT_eq_false _ (fun ch hch => (hh2 ch hch).2)
    have hendc1 : endsNl c1 = false := by
      apply endsNl_eq_false
      intro ch hch he
      have := hl1 ch hch
      rw [he] at this
      exact absurd this (by decide)
    simp [hb1, hb2, hendc1, hsBT2, hasNB_all_ws _ hww]

/-- A run of number characters is a consumed segment. -/
theorem seg_of_numchars (l r c : List Char) (hdec : l = c ++ r) (hne : c ≠ [])
    (hall : ∀ ch ∈ c, numChar ch = true) : Seg l r := by
  refine ⟨c, hdec, hne, ?_, ?_, ?_⟩
  · intro ch hch
    have hm : ch ∈ c := List.mem_of_mem_head? (by rw [hch]; rfl)
    obtain ⟨h1, h2, h3⟩ := numChar_tok ch (hall ch hm)
    exact ⟨h1, h2⟩
  · intro ch hch
    exact (numChar_tok ch (hall ch (mem_of_getLast? hch))).1
  · exact hasNB_no_nl c (fun ch hch => (numChar_tok ch (hall ch hch)).2.2)

/-- A quoted string literal is a consumed segment. -/
theorem seg_quote_str (rest r1 : List Char) (hs : StrSeg rest r1) : Seg ('"' :: rest) r1 := by
  obtain ⟨c, hdec, hne, hnl, hlast⟩ := hs
  refine ⟨'"' :: c, by rw [hdec]; rfl, by simp, ?_, ?_, ?_⟩
  · intro ch hch
    have : ch = '"' := by
      have hx : some '"' = some ch := hch
      injection hx with hx
      exact hx.symm
    subst this
    exact ⟨by decide, by decide⟩
  · intro ch hch
    rw [getLast?_cons_ne _ _ hne, hlast] at hch
    have : ch = '"' := by
      have hx : some '"' = some ch := hch
      injection hx with hx
      exact hx.symm
    subst this
    decide
  · show (('"' = '\n' && startsBT c) || hasNB c) = false
    simp [hasNB_no_nl c hnl]

/-- A concrete run of token characters is a consumed segment. -/
theorem seg_literal (c : List Char) (r : List Char) (hne : c ≠ [])
    (hh : ∀ ch ∈ c, isPyWs ch = false ∧ ch ≠ btChar ∧ ch ≠ '\n') :
    Seg (c ++ r) r := by
  refine ⟨c, rfl, hne, ?_, ?_, ?_⟩
  · intro ch hch
    have := hh ch (List.mem_of_mem_head? (by rw [hch]; rfl))
    exact ⟨this.1, this.2.1⟩
  · intro ch hch
    exact (hh ch (mem_of_getLast? hch)).1
  · exact hasNB_no_nl c (fun ch hch => (hh ch hch).2.2)

/-- A successful literal strip decomposes the input. -/
theorem stripLit_eq : ∀ cs l r, stripLit cs l = some r → l = cs ++ r := by
  intro cs
  induction cs with
  | nil =>
    intro l r h
    rw [stripLit] at h
    injection h with h
  | cons c ct ih =>
    intro l r h
    cases l with
    | nil =>
      rw [stripLit] at h
      cases h
    | cons x xs =>
      rw [stripLit] at h
      split at h
      · rename_i hx
        subst hx
        rw [List.cons_append]
        exact congrArg (List.cons x) (ih xs r h)
      · cases h

/-- A successful literal strip consumes a well-formed segment. -/
theorem seg_of_stripLit (cs l r0 : List Char) (hs : stripLit cs l = some r0)
    (hne : cs ≠ [])
    (hh : ∀ ch ∈ cs, isPyWs ch = false ∧ ch ≠ btChar ∧ ch ≠ '\n') :
    Seg l r0 := by
  rw [stripLit_eq cs l r0 hs]
  exact seg_literal cs r0 hne hh

/-- `parseAtom` consumes a well-formed segment. -/
theorem parseAtom_seg : ∀ l v r, parseAtom l = some (v, r) → Seg l r := by
  intro l v r h
  rw [parseAtom] at h
  split at h
  · rename_i r0 hs
    have hrr : r0 = r := by
      injection h with h1
      exact congrArg Prod.snd h1
    rw [← hrr]
    exact seg_of_stripLit _ _ _ hs (by simp) (by decide)
  · rename_i hn1
    split at h
    · rename_i r0 hs
      have hrr : r0 = r := by
        injection h with h1
        exact congrArg Prod.snd h1
      rw [← hrr]
      exact seg_of_stripLit _ _ _ hs (by simp) (by decide)
    · rename_i hn2
      split at h
      · rename_i r0 hs
        have hrr : r0 = r := by
          injection h with h1
          exact congrArg Prod.snd h1
        rw [← hrr]
        exact seg_of_stripLit _ _ _ hs (by simp) (by decide)
      · rename_i hn3
        split at h
        · rename_i r0 hs
          have hrr : r0 = r := by
            injection h with h1
            exact congrArg Prod.snd h1
          rw [← hrr]
          exact seg_of_stripLit _ _ _ hs (by simp) (by decide)
        · rename_i hn4
          split at h
          · rename_i r0 hs
            have hrr : r0 = r := by
              injection h with h1
              exact congrArg Prod.snd h1
            rw [← hrr]
            exact seg_of_stripLit _ _ _ hs (by simp) (by decide)
          · rename_i hn5
            split at h
            · rename_i r0 hs
              have hrr : r0 = r := by
                injection h with h1
                exact congrArg Prod.snd h1
              rw [← hrr]
              exact seg_of_stripLit _ _ _ hs (by simp) (by decide)
            · rename_i hn6
              obtain ⟨p, hp, hmap⟩ := Option.map_eq_some'.mp h
              obtain ⟨lex, r'⟩ := p
              have hrr : r' = r := congrArg Prod.snd hmap
              rw [← hrr]
              obtain ⟨c, hdec, hne, hall⟩ := parseNumber_seg _ lex _ hp
              exact seg_of_numchars _ _ _ hdec hne hall

/-- A successful colon expectation: the input is whitespace-skipped to a
colon. -/
theorem expectColon_eq (l r : List Char) (h : expectColon l = some r) :
    skipJsonWs l = ':' :: r := by
  rw [expectColon] at h
  split at h
  · rename_i r0 heq
    injection h with h1
    rw [heq, h1]
  · cases h

/-- A successful quote expectation: the input is whitespace-skipped to a
double quote. -/
theorem expectQuote_eq (l r : List Char) (h : expectQuote l = some r) :
    skipJsonWs l = '"' :: r := by
  rw [expectQuote] at h
  split at h
  · rename_i r0 heq
    injection h with h1
    rw [heq, h1]
  · cases h

/-- Every successful parse of the five mutually recursive parser functions
consumes a well-formed segment: non-empty, token-delimited, free of
newline-backtick pairs. -/
theorem parse_seg (n : Nat) :
    (∀ l v r, parseValue n l = some (v, r) → Seg l r) ∧
    (∀ l v r, parseArrBody n l = some (v, r) → Seg l r) ∧
    (∀ acc l v r, parseArrRest n acc l = some (v, r) → Seg l r) ∧
    (∀ l v r, parseObjBody n l = some (v, r) → Seg l r) ∧
    (∀ acc l v r, parseObjRest n acc l = some (v, r) → Seg l r) := by
  induction n with
  | zero =>
    refine ⟨?_, ?_, ?_, ?_, ?_⟩
    · intro l v r h
      rw [parseValue] at h
      cases h
    · intro l v r h
      rw [parseArrBody] at h
      cases h
    · intro acc l v r h
      rw [parseArrRest] at h
      cases h
    · intro l v r h
      rw [parseObjBody] at h
      cases h
    · intro acc l v r h
      rw [parseObjRest] at h
      cases h
  | succ m ih =>
    obtain ⟨ihV, ihAB, ihAR, ihOB, ihOR⟩ := ih
    refine ⟨?_, ?_, ?_, ?_, ?_⟩
    · -- parseValue
      intro l v r h
      rw [parseValue.eq_def] at h
      split at h
      · cases h
      · rename_i fuel hfuel
        have hf : fuel = m := by omega
        subst hf
        split at h
        · -- object
          exact seg_cons_ws _ _ _ (by decide) (by decide) (ihOB _ _ _ h)
        · -- array
          exact seg_cons_ws _ _ _ (by decide) (by decide) (ihAB _ _ _ h)
        · -- string
          obtain ⟨p, hp, hmap⟩ := Option.map_eq_some'.mp h
          obtain ⟨cs, r'⟩ := p
          have hrr : r' = r := congrArg Prod.snd hmap
          subst hrr
          exact seg_quote_str _ _ (parseStringBody_seg _ _ cs _ hp)
        · -- atom
          exact parseAtom_seg _ _ _ h
    · -- parseArrBody
      intro l v r h
      rw [parseArrBody.eq_def] at h
      split at h
      · cases h
      · rename_i fuel hfuel
        have hf : fuel = m := by omega
        subst hf
        split at h
        · -- immediate close
          rename_i r0
          have hrr : r0 = r := by
            injection h with h1
            exact congrArg Prod.snd h1
          rw [← hrr]
          exact seg_literal [']'] r0 (by simp) (by decide)
        · -- first element
          rw [Option.bind_eq_some] at h
          obtain ⟨p, hv, h⟩ := h
          obtain ⟨v1, r1⟩ := p
          exact seg_trans_ws _ r1 r (ihV _ _ _ hv) (ihAR _ _ _ _ h)
    · -- parseArrRest
      intro acc l v r h
      rw [parseArrRest.eq_def] at h
      split at h
      · cases h
      · rename_i fuel hfuel
        have hf : fuel = m := by omega
        subst hf
        split at h
        · -- close bracket
          rename_i r0
          have hrr : r0 = r := by
            injection h with h1
            exact congrArg Prod.snd h1
          rw [← hrr]
          exact seg_literal [']'] r0 (by simp) (by decide)
        · -- comma and next element
          rename_i r0
          rw [Option.bind_eq_some] at h
          obtain ⟨p, hv, h⟩ := h
          obtain ⟨v1, r1⟩ := p
          refine seg_cons_ws _ _ _ (by decide) (by decide) ?_
          exact seg_trans_ws _ r1 r (ihV _ _ _ hv) (ihAR _ _ _ _ h)
        · cases h
    · -- parseObjBody
      intro l v r h
      rw [parseObjBody.eq_def] at h
      split at h
      · cases h
      · rename_i fuel hfuel
        have hf : fuel = m := by omega
        subst hf
        split at h
        · -- immediate close
          rename_i r0
          have hrr : r0 = r := by
            injection h with h1
            exact congrArg Prod.snd h1
          rw [← hrr]
          exact seg_literal ['}'] r0 (by simp) (by decide)
        · -- first member
          rename_i r0
          rw [Option.bind_eq_some] at h
          obtain ⟨pk, hk, h⟩ := h
          obtain ⟨k, r1⟩ := pk
          rw [Option.bind_eq_some] at h
          obtain ⟨r2, hc, h⟩ := h
          rw [Option.bind_eq_some] at h
          obtain ⟨pv, hv, h⟩ := h
          obtain ⟨v1, r3⟩ := pv
          have hseg2 : Seg (skipJsonWs r2) r :=
            seg_trans_ws _ r3 r (ihV _ _ _ hv) (ihOR _ _ _ _ h)
          have hseg3 : Seg (':' :: r2) r :=
            seg_cons_ws _ _ _ (by decide) (by decide) hseg2
          have hseg4 : Seg (skipJsonWs r1) r := by
            rw [expectColon_eq r1 r2 hc]
            exact hseg3
          exact seg_trans_ws _ r1 r
            (seg_quote_str _ _ (parseStringBody_seg _ _ k _ hk)) hseg4
        · cases h
    · -- parseObjRest
      intro acc l v r h
      rw [parseObjRest.eq_def] at h
      split at h
      · cases h
      · rename_i fuel hfuel
        have hf : fuel = m := by omega
        subst hf
        split at h
        · -- close brace
          rename_i r0
          have hrr : r0 = r := by
            injection h with h1
            exact congrArg Prod.snd h1
          rw [← hrr]
          exact seg_literal ['}'] r0 (by simp) (by decide)
        · -- comma and next member
          rename_i r0
          rw [Option.bind_eq_some] at h
          obtain ⟨r1, hq, h⟩ := h
          rw [Option.bind_eq_some] at h
          obtain ⟨pk, hk, h⟩ := h
          obtain ⟨k, r2⟩ := pk
          rw [Option.bind_eq_some] at h
          obtain ⟨r3, hc, h⟩ := h
          rw [Option.bind_eq_some] at h
          obtain ⟨pv, hv, h⟩ := h
          obtain ⟨v1, r4⟩ := pv
          have hseg2 : Seg (skipJsonWs r3) r :=
            seg_trans_ws _ r4 r (ihV _ _ _ hv) (ihOR _ _ _ _ h)
          have hseg3 : Seg (':' :: r3) r :=
            seg_cons_ws _ _ _ (by decide) (by decide) hseg2
          have hseg4 : Seg (skipJsonWs r2) r := by
            rw [expectColon_eq r2 r3 hc]
            exact hseg3
          have hseg5 : Seg ('"' :: r1) r :=
            seg_trans_ws _ r2 r
              (seg_quote_str _ _ (parseStringBody_seg _ _ k _ hk)) hseg4
          have hseg6 : Seg (skipJsonWs r0) r := by
            rw [expectQuote_eq r0 r1 hq]
            exact hseg5
          exact seg_cons_ws _ _ _ (by decide) (by decide) hseg6
        · cases h

/-! ## C8 development, layer 3: stability of the lexers under context
replacement across a safe boundary -/

/-- The head of a `dropWhile` result fails the predicate. -/
theorem head_dropWhile_false (p : Char → Bool) (l : List Char) :
    ∀ ch, (l.dropWhile p).head? = some ch → p ch = false := by
  induction l with
  | nil =>
    intro ch h
    cases h
  | cons c t ih =>
    intro ch h
    rw [List.dropWhile_cons] at h
    split at h
    · exact ih ch h
    · rename_i hc
      injection h with h1
      subst h1
      cases hpc : p c
      · rfl
      · exact absurd hpc hc

/-- Splitting an equation of concatenations when the left part is at least
as long as the first factor of the right. -/
theorem append_split_of_le (a b c d : List Char) (h : a ++ b = c ++ d)
    (hlen : c.length ≤ a.length) : ∃ e, a = c ++ e ∧ d = e ++ b := by
  have htake : a.take c.length = c := by
    have h1 : (a ++ b).take c.length = a.take c.length :=
      List.take_append_of_le_length hlen
    rw [h, List.take_left c d] at h1
    exact h1.symm
  have ha : a = c ++ a.drop c.length := by
    conv_lhs => rw [← List.take_append_drop c.length a]
    rw [htake]
  refine ⟨a.drop c.length, ha, ?_⟩
  rw [ha, List.append_assoc] at h
  exact (List.append_cancel_left h).symm

/-- A list equal to itself with a prefix attached forces the prefix empty. -/
theorem eq_nil_of_append_eq_self (a b : List Char) (h : a ++ b = b) : a = [] := by
  have hl := congrArg List.length h
  rw [List.length_append] at hl
  have h0 : a.length = 0 := by omega
  exact List.length_eq_zero.mp h0

/-- A consumed segment strictly shortens the input. -/
theorem seg_len_lt (l r : List Char) (h : Seg l r) : r.length < l.length := by
  obtain ⟨c, hc, hne, -, -, -⟩ := h
  have h0 : c.length ≠ 0 := fun hz => hne (List.length_eq_zero.mp hz)
  rw [hc, List.length_append]
  omega

/-- A consumed string segment strictly shortens the input. -/
theorem strSeg_len_lt (l r : List Char) (h : StrSeg l r) : r.length < l.length := by
  obtain ⟨c, hc, hne, -, -⟩ := h
  have h0 : c.length ≠ 0 := fun hz => hne (List.length_eq_zero.mp hz)
  rw [hc, List.length_append]
  omega

/-- Propagating a head predicate across replacement of the tail beyond a
three-part prefix. -/
theorem head3 (P : Char → Prop) (fp ep u r r' : List Char)
    (hr : ∀ ch, (fp ++ (ep ++ (u ++ r))).head? = some ch → P ch)
    (hr' : ∀ ch, r'.head? = some ch → P ch) :
    ∀ ch, (fp ++ (ep ++ (u ++ r'))).head? = some ch → P ch := by
  cases fp with
  | cons f0 ft =>
    intro ch h
    exact hr ch (by injection h with h1; rw [h1]; rfl)
  | nil =>
    cases ep with
    | cons e0 et =>
      intro ch h
      exact hr ch (by injection h with h1; rw [h1]; rfl)
    | nil =>
      cases u with
      | cons u0 ut =>
        intro ch h
        exact hr ch (by injection h with h1; rw [h1]; rfl)
      | nil => exact hr'

/-- `takeDigits` on a digit block followed by a non-digit boundary. -/
theorem takeDigits_stable (ds X : List Char) (hds : ∀ ch ∈ ds, ch.isDigit = true)
    (hX : ∀ ch, X.head? = some ch → ch.isDigit = false) :
    takeDigits (ds ++ X) = (ds, X) := by
  unfold takeDigits
  rw [takeWhile_all_append _ _ _ hds hX, dropWhile_all_append _ _ _ hds hX]

/-- The remainder of a non-`"0"` integer part starts with a non-digit. -/
theorem parseIntPart_maximal (t ip r1 : List Char)
    (h : parseIntPart t = some (ip, r1)) (h0 : ip ≠ ['0']) :
    ∀ ch, r1.head? = some ch → ch.isDigit = false := by
  rw [parseIntPart.eq_def] at h
  split at h
  · exfalso
    apply h0
    injection h with h1
    exact (congrArg Prod.fst h1).symm
  · rename_i c r0 hno
    split at h
    · cases htd : takeDigits r0 with
      | mk ds rr =>
        simp only [htd] at h
        have hr : r1 = rr := by
          injection h with h1
          exact (congrArg Prod.snd h1).symm
        have hrr : rr = r0.dropWhile Char.isDigit := by
          have := congrArg Prod.snd htd
          simpa [takeDigits] using this.symm
        rw [hr, hrr]
        exact head_dropWhile_false _ _
    · cases h
  · cases h

/-- The remainder of a consumed fraction part starts with a non-digit. -/
theorem parseFracPart_maximal (l fp r2 : List Char)
    (h : parseFracPart l = (fp, r2)) (hne : fp ≠ []) :
    ∀ ch, r2.head? = some ch → ch.isDigit = false := by
  rw [parseFracPart.eq_def] at h
  split at h
  · rename_i c0 r0
    split at h
    · cases htd : takeDigits r0 with
      | mk ds rr =>
        simp only [htd] at h
        have hr : r2 = rr := (congrArg Prod.snd h).symm
        have hrr : rr = r0.dropWhile Char.isDigit := by
          have := congrArg Prod.snd htd
          simpa [takeDigits] using this.symm
        rw [hr, hrr]
        exact head_dropWhile_false _ _
    · exact absurd (congrArg Prod.fst h).symm hne
  · exact absurd (congrArg Prod.fst h).symm hne

/-- The remainder of a consumed exponent part starts with a non-digit. -/
theorem parseExpPart_maximal (l ep r3 : List Char)
    (h : parseExpPart l = (ep, r3)) (hne : ep ≠ []) :
    ∀ ch, r3.head? = some ch → ch.isDigit = false := by
  rw [parseExpPart.eq_def] at h
  split at h
  case h_1 e c0 r0 =>
    split at h
    · cases htd : takeDigits r0 with
      | mk ds rr =>
        simp only [htd] at h
        have hr : r3 = rr := (congrArg Prod.snd h).symm
        have hrr : rr = r0.dropWhile Char.isDigit := by
          have := congrArg Prod.snd htd
          simpa [takeDigits] using this.symm
        rw [hr, hrr]
        exact head_dropWhile_false _ _
    · exact absurd (congrArg Prod.fst h).symm hne
  case h_2 e c0 r0 =>
    split at h
    · cases htd : takeDigits r0 with
      | mk ds rr =>
        simp only [htd] at h
        have hr : r3 = rr := (congrArg Prod.snd h).symm
        have hrr : rr = r0.dropWhile Char.isDigit := by
          have := congrArg Prod.snd htd
          simpa [takeDigits] using this.symm
        rw [hr, hrr]
        exact head_dropWhile_false _ _
    · exact absurd (congrArg Prod.fst h).symm hne
  case h_3 e c0 r0 hn1 hn2 =>
    split at h
    · cases htd : takeDigits r0 with
      | mk ds rr =>
        simp only [htd] at h
        have hr : r3 = rr := (congrArg Prod.snd h).symm
        have hrr : rr = r0.dropWhile Char.isDigit := by
          have := congrArg Prod.snd htd
          simpa [takeDigits] using this.symm
        rw [hr, hrr]
        exact head_dropWhile_false _ _
    · exact absurd (congrArg Prod.fst h).symm hne
  case h_4 =>
    exact absurd (congrArg Prod.fst h).symm hne

/-- `parseIntPart` is stable under replacing the input beyond its lexeme. -/
theorem parseIntPart_stable (t ip r1 X : List Char)
    (h : parseIntPart t = some (ip, r1))
    (hX : ip = ['0'] ∨ ∀ ch, X.head? = some ch → ch.isDigit = false) :
    parseIntPart (ip ++ X) = some (ip, X) := by
  rw [parseIntPart.eq_def] at h
  split at h
  · rename_i r0
    have hip : ip = ['0'] := by
      injection h with h1
      exact (congrArg Prod.fst h1).symm
    rw [hip, parseIntPart.eq_def]
    rfl
  · rename_i c r0 hno
    split at h
    · rename_i hdig
      cases htd : takeDigits r0 with
      | mk ds rr =>
        simp only [htd] at h
        have hip : ip = c :: ds := by
          injection h with h1
          exact (congrArg Prod.fst h1).symm
        obtain ⟨hd1, hd2⟩ := takeDigits_eq r0 ds rr htd
        have hc0 : c ≠ '0' := fun he => hno he
        have hXd : ∀ ch, X.head? = some ch → ch.isDigit = false := by
          rcases hX with hX | hX
          · exfalso
            rw [hip] at hX
            injection hX with e1 e2
            exact hc0 e1
          · exact hX
        rw [hip]
        rw [parseIntPart.eq_def]
        split
        · rename_i rz heq
          exfalso
          injection heq with e1 e2
          exact hc0 e1
        · rename_i c2 r2 hne0 heq2
          injection heq2 with e1 e2
          subst e2
          rw [← e1]
          rw [if_pos hdig]
          simp only [List.append_eq]
          rw [takeDigits_stable ds X hd2 hXd]
        · rename_i heq3
          exact List.noConfusion heq3
    · cases h
  · cases h

/-- A consumed fraction part is stable under replacing the input beyond
its lexeme. -/
theorem parseFracPart_stableC (l fp r2 X : List Char)
    (h : parseFracPart l = (fp, r2)) (hfp : fp ≠ [])
    (hX : ∀ ch, X.head? = some ch → ch.isDigit = false) :
    parseFracPart (fp ++ X) = (fp, X) := by
  rw [parseFracPart.eq_def] at h
  split at h
  · rename_i c0 r0
    split at h
    · rename_i hdig
      cases htd : takeDigits r0 with
      | mk ds rr =>
        simp only [htd] at h
        have hf : fp = '.' :: c0 :: ds := (congrArg Prod.fst h).symm
        obtain ⟨hd1, hd2⟩ := takeDigits_eq r0 ds rr htd
        rw [hf]
        rw [parseFracPart.eq_def]
        split
        · rename_i c1 rz heq
          injection heq with e1 e2
          injection e2 with e2a e2b
          rw [← e2a, ← e2b]
          rw [if_pos hdig]
          simp only [List.append_eq]
          rw [takeDigits_stable ds X hd2 hX]
        · rename_i hno
          exfalso
          exact hno c0 (ds ++ X) rfl
    · exact absurd (congrArg Prod.fst h).symm hfp
  · exact absurd (congrArg Prod.fst h).symm hfp

/-- An unconsumed fraction position is stable under replacing the context
across a safe boundary. -/
theorem parseFracPart_stableN (y r r' : List Char)
    (h : parseFracPart (y ++ r) = ([], y ++ r))
    (hS : SafeCut r) (hS' : SafeCut r') :
    parseFracPart (y ++ r') = ([], y ++ r') := by
  cases y with
  | nil =>
    simp only [List.nil_append]
    rw [parseFracPart.eq_def]
    split
    · rename_i c1 rz
      exact absurd rfl ( hS' '.' rfl).2.1
    · rfl
  | cons y0 yt =>
    by_cases hy0 : y0 = '.'
    · subst hy0
      cases yt with
      | nil =>
        simp only [List.cons_append, List.nil_append]
        rw [parseFracPart.eq_def]
        split
        · rename_i c1 rz heq
          injection heq with e1 e2
          have hc1 : c1.isDigit = false := (hS' c1 (by rw [e2]; rfl)).1
          rw [if_neg (by simp [hc1]), e2]
        · rfl
      | cons y1 yt2 =>
        have hy1 : y1.isDigit = false := by
          cases hd : y1.isDigit
          · rfl
          · exfalso
            rw [parseFracPart.eq_def] at h
            split at h
            · rename_i c1 rz heq
              injection heq with e1 e2
              injection e2 with e2a e2b
              rw [← e2a, if_pos hd] at h
              cases htd : takeDigits rz with
              | mk ds rr =>
                simp only [htd] at h
                have := congrArg Prod.fst h
                exact List.noConfusion this
            · rename_i hno
              exact hno y1 (yt2 ++ r) rfl
        simp only [List.cons_append]
        rw [parseFracPart.eq_def]
        split
        · rename_i c1 rz heq
          injection heq with e1 e2
          injection e2 with e2a e2b
          rw [← e2a, ← e2b]
          rw [if_neg (by simp [hy1])]
        · rfl
    · simp only [List.cons_append]
      rw [parseFracPart.eq_def]
      split
      · rename_i c1 rz heq
        injection heq with e1 e2
        exact absurd e1 hy0
      · rfl

/-- A consumed exponent part is stable under replacing the input beyond
its lexeme. -/
theorem parseExpPart_stableC (l ep r3 X : List Char)
    (h : parseExpPart l = (ep, r3)) (hne : ep ≠ [])
    (hX : ∀ ch, X.head? = some ch → ch.isDigit = false) :
    parseExpPart (ep ++ X) = (ep, X) := by
  rw [parseExpPart.eq_def] at h
  split at h
  case h_1 e c0 r0 =>
    split at h
    · rename_i hg
      cases htd : takeDigits r0 with
      | mk ds rr =>
        simp only [htd] at h
        have hf : ep = e :: '+' :: c0 :: ds := (congrArg Prod.fst h).symm
        obtain ⟨hd1, hd2⟩ := takeDigits_eq r0 ds rr htd
        rw [hf]
        rw [parseExpPart.eq_def]
        split
        · rename_i e1 c1 rz heq
          injection heq with f1 f2
          injection f2 with f2a f2b
          injection f2b with f3a f3b
          rw [← f1, ← f3a, ← f3b]
          rw [if_pos hg]
          simp only [List.append_eq]
          rw [takeDigits_stable ds X hd2 hX]
        · rename_i e1 c1 rz heq
          exfalso
          injection heq with f1 f2
          injection f2 with f2a f2b
          exact absurd f2a (by decide)
        · rename_i e1 c1 rz hno1 hno2 heq
          exfalso
          injection heq with f1 f2
          injection f2 with f2a f2b
          exact hno1 c0 (ds ++ X) f2a.symm f2b.symm
        · rename_i hno1 hno2 hno3
          exfalso
          exact hno1 e c0 (ds ++ X) rfl
    · exact absurd (congrArg Prod.fst h).symm hne
  case h_2 e c0 r0 =>
    split at h
    · rename_i hg
      cases htd : takeDigits r0 with
      | mk ds rr =>
        simp only [htd] at h
        have hf : ep = e :: '-' :: c0 :: ds := (congrArg Prod.fst h).symm
        obtain ⟨hd1, hd2⟩ := takeDigits_eq r0 ds rr htd
        rw [hf]
        rw [parseExpPart.eq_def]
        split
        · rename_i e1 c1 rz heq
          exfalso
          injection heq with f1 f2
          injection f2 with f2a f2b
          exact absurd f2a (by decide)
        · rename_i e1 c1 rz heq
          injection heq with f1 f2
          injection f2 with f2a f2b
          injection f2b with f3a f3b
          rw [← f1, ← f3a, ← f3b]
          rw [if_pos hg]
          simp only [List.append_eq]
          rw [takeDigits_stable ds X hd2 hX]
        · rename_i e1 c1 rz hno1 hno2 heq
          exfalso
          injection heq with f1 f2
          injection f2 with f2a f2b
          exact hno2 c0 (ds ++ X) f2a.symm f2b.symm
        · rename_i hno1 hno2 hno3
          exfalso
          exact hno2 e c0 (ds ++ X) rfl
    · exact absurd (congrArg Prod.fst h).symm hne
  case h_3 e c0 r0 hn1 hn2 =>
    split at h
    · rename_i hg
      cases htd : takeDigits r0 with
      | mk ds rr =>
        simp only [htd] at h
        have hf : ep = e :: c0 :: ds := (congrArg Prod.fst h).symm
        obtain ⟨hd1, hd2⟩ := takeDigits_eq r0 ds rr htd
        have hc0d : c0.isDigit = true := hg.2
        rw [hf]
        rw [parseExpPart.eq_def]
        split
        · rename_i e1 c1 rz heq
          exfalso
          injection heq with f1 f2
          injection f2 with f2a f2b
          rw [f2a] at hc0d
          exact absurd hc0d (by decide)
        · rename_i e1 c1 rz heq
          exfalso
          injection heq with f1 f2
          injection f2 with f2a f2b
          rw [f2a] at hc0d
          exact absurd hc0d (by decide)
        · rename_i e1 c1 rz hno1 hno2 heq
          injection heq with f1 f2
          injection f2 with f2a f2b
          rw [← f1, ← f2a, ← f2b]
          rw [if_pos hg]
          simp only [List.append_eq]
          rw [takeDigits_stable ds X hd2 hX]
        · rename_i hno1 hno2 hno3
          exfalso
          exact hno3 e c0 (ds ++ X) rfl
    · exact absurd (congrArg Prod.fst h).symm hne
  case h_4 =>
    exact absurd (congrArg Prod.fst h).symm hne

/-- An unconsumed exponent position is stable under replacing the context
across a safe boundary. -/
theorem parseExpPart_stableN (y r r' : List Char)
    (h : parseExpPart (y ++ r) = ([], y ++ r))
    (hS : SafeCut r) (hS' : SafeCut r') :
    parseExpPart (y ++ r') = ([], y ++ r') := by
  cases y with
  | nil =>
    simp only [List.nil_append]
    rw [parseExpPart.eq_def]
    split
    · rename_i e1 c1 rz
      have he := hS' e1 rfl
      rw [if_neg (fun hg => hg.1.elim he.2.2.1 he.2.2.2.1)]
    · rename_i e1 c1 rz
      have he := hS' e1 rfl
      rw [if_neg (fun hg => hg.1.elim he.2.2.1 he.2.2.2.1)]
    · rename_i e1 c1 rz hno1 hno2
      have he := hS' e1 rfl
      rw [if_neg (fun hg => hg.1.elim he.2.2.1 he.2.2.2.1)]
    · rfl
  | cons y0 yt =>
    cases yt with
    | nil =>
      simp only [List.cons_append, List.nil_append]
      rw [parseExpPart.eq_def]
      split
      · rename_i e1 c1 rz heq
        exfalso
        injection heq with f1 f2
        exact ( hS' '+' (by rw [f2]; rfl)).2.2.2.2.1 rfl
      · rename_i e1 c1 rz heq
        exfalso
        injection heq with f1 f2
        exact ( hS' '-' (by rw [f2]; rfl)).2.2.2.2.2 rfl
      · rename_i e1 c1 rz hno1 hno2 heq
        injection heq with f1 f2
        have hc1 : c1.isDigit = false := (hS' c1 (by rw [f2]; rfl)).1
        rw [if_neg (fun hg => absurd hg.2 (by simp [hc1]))]
      · rfl
    | cons y1 yt2 =>
      simp only [List.cons_append]
      rw [parseExpPart.eq_def]
      split
      · -- goal pattern `e :: '+' :: c :: rz`
        rename_i e1 c1 rz heq
        injection heq with f1 f2
        injection f2 with f2a f2b
        cases yt2 with
        | nil =>
          simp only [List.nil_append] at f2b
          have hc1 : c1.isDigit = false := (hS' c1 (by rw [f2b]; rfl)).1
          rw [if_neg (fun hg => absurd hg.2 (by simp [hc1]))]
        | cons y2 yt3 =>
          have f3 : y2 :: (yt3 ++ r') = c1 :: rz := f2b
          injection f3 with f3a f3b
          by_cases hg : (y0 = 'e' ∨ y0 = 'E') ∧ y2.isDigit = true
          · exfalso
            rw [parseExpPart.eq_def] at h
            split at h
            · rename_i e2 c2 rz2 heq2
              injection heq2 with g1 g2
              injection g2 with g2a g2b
              injection g2b with g3a g3b
              rw [← g1, ← g3a, if_pos hg] at h
              cases htd : takeDigits rz2 with
              | mk ds rr =>
                simp only [htd] at h
                exact List.noConfusion (congrArg Prod.fst h)
            · rename_i e2 c2 rz2 heq2
              injection heq2 with g1 g2
              injection g2 with g2a g2b
              rw [f2a] at g2a
              exact absurd g2a (by decide)
            · rename_i e2 c2 rz2 hno1 hno2 heq2
              injection heq2 with g1 g2
              injection g2 with g2a g2b
              exact hno1 y2 (yt3 ++ r) (g2a.symm.trans f2a) g2b.symm
            · rename_i hno1 hno2 hno3
              exact hno1 y0 y2 (yt3 ++ r) (by simp [f2a])
          · rw [← f1, ← f3a]
            rw [if_neg hg]
      · -- goal pattern `e :: '-' :: c :: rz`
        rename_i e1 c1 rz heq
        injection heq with f1 f2
        injection f2 with f2a f2b
        cases yt2 with
        | nil =>
          simp only [List.nil_append] at f2b
          have hc1 : c1.isDigit = false := (hS' c1 (by rw [f2b]; rfl)).1
          rw [if_neg (fun hg => absurd hg.2 (by simp [hc1]))]
        | cons y2 yt3 =>
          have f3 : y2 :: (yt3 ++ r') = c1 :: rz := f2b
          injection f3 with f3a f3b
          by_cases hg : (y0 = 'e' ∨ y0 = 'E') ∧ y2.isDigit = true
          · exfalso
            rw [parseExpPart.eq_def] at h
            split at h
            · rename_i e2 c2 rz2 heq2
              injection heq2 with g1 g2
              injection g2 with g2a g2b
              rw [f2a] at g2a
              exact absurd g2a (by decide)
            · rename_i e2 c2 rz2 heq2
              injection heq2 with g1 g2
              injection g2 with g2a g2b
              injection g2b with g3a g3b
              rw [← g1, ← g3a, if_pos hg] at h
              cases htd : takeDigits rz2 with
              | mk ds rr =>
                simp only [htd] at h
                exact List.noConfusion (congrArg Prod.fst h)
            · rename_i e2 c2 rz2 hno1 hno2 heq2
              injection heq2 with g1 g2
              injection g2 with g2a g2b
              exact hno2 y2 (yt3 ++ r) (g2a.symm.trans f2a) g2b.symm
            · rename_i hno1 hno2 hno3
              exact hno2 y0 y2 (yt3 ++ r) (by simp [f2a])
          · rw [← f1, ← f3a]
            rw [if_neg hg]
      · -- goal pattern `e :: c :: rz`
        rename_i e1 c1 rz hno1 hno2 heq
        injection heq with f1 f2
        injection f2 with f2a f2b
        by_cases hg : (y0 = 'e' ∨ y0 = 'E') ∧ y1.isDigit = true
        · exfalso
          rw [parseExpPart.eq_def] at h
          split at h
          · rename_i e2 c2 rz2 heq2
            injection heq2 with g1 g2
            injection g2 with g2a g2b
            rw [g2a] at hg
            exact absurd hg.2 (by decide)
          · rename_i e2 c2 rz2 heq2
            injection heq2 with g1 g2
            injection g2 with g2a g2b
            rw [g2a] at hg
            exact absurd hg.2 (by decide)
          · rename_i e2 c2 rz2 hno3 hno4 heq2
            injection heq2 with g1 g2
            injection g2 with g2a g2b
            rw [← g1, ← g2a, if_pos hg] at h
            cases htd : takeDigits rz2 with
            | mk ds rr =>
              simp only [htd] at h
              exact List.noConfusion (congrArg Prod.fst h)
          · rename_i hno3 hno4 hno5
            exact hno5 y0 y1 (yt2 ++ r) rfl
        · rw [← f1, ← f2a]
          rw [if_neg hg]
      · rfl

/-- The int-frac-exp pipeline of the number lexer is stable under replacing
the trailing context across a safe boundary. -/
theorem parseIFE_repl (xt u r r' ip fp ep r1 r2 : List Char)
    (hS : SafeCut r) (hS' : SafeCut r')
    (hip : parseIntPart (xt ++ (u ++ r)) = some (ip, r1))
    (hfp : parseFracPart r1 = (fp, r2))
    (hep : parseExpPart r2 = (ep, u ++ r)) :
    xt ++ (u ++ r') = ip ++ (fp ++ (ep ++ (u ++ r'))) ∧
    parseIntPart (ip ++ (fp ++ (ep ++ (u ++ r'))))
      = some (ip, fp ++ (ep ++ (u ++ r'))) ∧
    parseFracPart (fp ++ (ep ++ (u ++ r'))) = (fp, ep ++ (u ++ r')) ∧
    parseExpPart (ep ++ (u ++ r')) = (ep, u ++ r') := by
  obtain ⟨hi1, hine, hidig⟩ := parseIntPart_seg _ ip r1 hip
  obtain ⟨hf1, hfnum⟩ := parseFracPart_seg r1 fp r2 hfp
  obtain ⟨he1, henum⟩ := parseExpPart_seg r2 ep (u ++ r) hep
  have hSd' : ∀ ch, r'.head? = some ch → ch.isDigit = false :=
    fun ch hch => (hS' ch hch).1
  have hexp : parseExpPart (ep ++ (u ++ r')) = (ep, u ++ r') := by
    by_cases hne : ep = []
    · subst hne
      simp only [List.nil_append] at he1 ⊢
      rw [he1] at hep
      exact parseExpPart_stableN u r r' hep hS hS'
    · have hX : ∀ ch, (u ++ r').head? = some ch → ch.isDigit = false :=
        head3 (fun ch => ch.isDigit = false) [] [] u r r'
          (parseExpPart_maximal r2 ep (u ++ r) hep hne) hSd'
      exact parseExpPart_stableC r2 ep (u ++ r) (u ++ r') hep hne hX
  have hfrac : parseFracPart (fp ++ (ep ++ (u ++ r'))) = (fp, ep ++ (u ++ r')) := by
    by_cases hne : fp = []
    · subst hne
      simp only [List.nil_append] at hf1 ⊢
      rw [hf1, he1] at hfp
      have hst := parseFracPart_stableN (ep ++ u) r r'
        (by rw [List.append_assoc]; exact hfp) hS hS'
      rw [List.append_assoc] at hst
      exact hst
    · have hmax := parseFracPart_maximal r1 fp r2 hfp hne
      rw [he1] at hmax
      have hX : ∀ ch, (ep ++ (u ++ r')).head? = some ch → ch.isDigit = false :=
        head3 (fun ch => ch.isDigit = false) [] ep u r r' hmax hSd'
      exact parseFracPart_stableC r1 fp r2 (ep ++ (u ++ r')) hfp hne hX
  have hint : parseIntPart (ip ++ (fp ++ (ep ++ (u ++ r'))))
      = some (ip, fp ++ (ep ++ (u ++ r'))) := by
    apply parseIntPart_stable _ ip r1 _ hip
    by_cases hip0 : ip = ['0']
    · exact Or.inl hip0
    · right
      have hmax := parseIntPart_maximal _ ip r1 hip hip0
      rw [hf1, he1] at hmax
      exact head3 (fun ch => ch.isDigit = false) fp ep u r r' hmax hSd'
  have hdec : xt ++ (u ++ r') = ip ++ (fp ++ (ep ++ (u ++ r'))) := by
    have hchain : xt ++ (u ++ r) = ip ++ (fp ++ (ep ++ (u ++ r))) := by
      rw [hi1, hf1, he1]
    have hxt : xt = ip ++ (fp ++ ep) := by
      have h2 : xt ++ (u ++ r) = (ip ++ (fp ++ ep)) ++ (u ++ r) := by
        rw [hchain]
        simp [List.append_assoc]
      exact List.append_cancel_right h2
    rw [hxt]
    simp [List.append_assoc]
  exact ⟨hdec, hint, hfrac, hexp⟩

/-- `parseNumber` is stable under replacing the trailing context across a
safe boundary. -/
theorem parseNumber_repl (x u r r' : List Char) (lex : String)
    (hS : SafeCut r) (hS' : SafeCut r')
    (h : parseNumber (x ++ (u ++ r)) = some (lex, u ++ r)) :
    parseNumber (x ++ (u ++ r')) = some (lex, u ++ r') := by
  rw [parseNumber.eq_def] at h
  split at h
  · rename_i rr heq
    cases hip : parseIntPart rr with
    | none =>
      simp only [hip] at h
      cases h
    | some p =>
      obtain ⟨ip, r1⟩ := p
      simp only [hip] at h
      cases hfp : parseFracPart r1 with
      | mk fp r2 =>
      simp only [hfp] at h
      cases hep : parseExpPart r2 with
      | mk ep r3 =>
      simp only [hep] at h
      have hlex : lex = ('-' :: (ip ++ fp ++ ep)).asString := by
        injection h with h1
        exact (congrArg Prod.fst h1).symm
      have hr3 : r3 = u ++ r := by
        injection h with h1
        exact congrArg Prod.snd h1
      subst hr3
      obtain ⟨hi1, hine, hidig⟩ := parseIntPart_seg rr ip r1 hip
      obtain ⟨hf1, hfnum⟩ := parseFracPart_seg r1 fp r2 hfp
      obtain ⟨he1, henum⟩ := parseExpPart_seg r2 ep (u ++ r) hep
      have hrr : rr = (ip ++ (fp ++ ep)) ++ (u ++ r) := by
        rw [hi1, hf1, he1]
        simp [List.append_assoc]
      have hip' : parseIntPart ((ip ++ (fp ++ ep)) ++ (u ++ r)) = some (ip, r1) := by
        rw [← hrr]
        exact hip
      obtain ⟨hdec, hint, hfrac, hexp⟩ :=
        parseIFE_repl (ip ++ (fp ++ ep)) u r r' ip fp ep r1 r2 hS hS' hip' hfp hep
      have hx : x = '-' :: (ip ++ (fp ++ ep)) := by
        have h2 : x ++ (u ++ r) = ('-' :: (ip ++ (fp ++ ep))) ++ (u ++ r) := by
          rw [heq, hrr]
          rfl
        exact List.append_cancel_right h2
      have hgin : x ++ (u ++ r') = '-' :: ((ip ++ (fp ++ ep)) ++ (u ++ r')) := by
        rw [hx]
        rfl
      rw [hgin]
      rw [parseNumber.eq_def]
      split
      · rename_i rr2 heq2
        injection heq2 with g1 g2
        rw [← g2]
        rw [(by simp [List.append_assoc] :
          (ip ++ (fp ++ ep)) ++ (u ++ r') = ip ++ (fp ++ (ep ++ (u ++ r'))))]
        simp only [hint, hfrac, hexp]
        rw [hlex]
      · rename_i hno
        exfalso
        exact hno ((ip ++ (fp ++ ep)) ++ (u ++ r')) rfl
  · rename_i hno
    cases hip : parseIntPart (x ++ (u ++ r)) with
    | none =>
      simp only [hip] at h
      cases h
    | some p =>
      obtain ⟨ip, r1⟩ := p
      simp only [hip] at h
      cases hfp : parseFracPart r1 with
      | mk fp r2 =>
      simp only [hfp] at h
      cases hep : parseExpPart r2 with
      | mk ep r3 =>
      simp only [hep] at h
      have hlex : lex = (ip ++ fp ++ ep).asString := by
        injection h with h1
        exact (congrArg Prod.fst h1).symm
      have hr3 : r3 = u ++ r := by
        injection h with h1
        exact congrArg Prod.snd h1
      subst hr3
      obtain ⟨hi1, hine, hidig⟩ := parseIntPart_seg _ ip r1 hip
      obtain ⟨hf1, hfnum⟩ := parseFracPart_seg r1 fp r2 hfp
      obtain ⟨he1, henum⟩ := parseExpPart_seg r2 ep (u ++ r) hep
      have hxx : x = ip ++ (fp ++ ep) := by
        have h2 : x ++ (u ++ r) = (ip ++ (fp ++ ep)) ++ (u ++ r) := by
          rw [hi1, hf1, he1]
          simp [List.append_assoc]
        exact List.append_cancel_right h2
      have hip' : parseIntPart ((ip ++ (fp ++ ep)) ++ (u ++ r)) = some (ip, r1) := by
        rw [← hxx]
        exact hip
      obtain ⟨hdec, hint, hfrac, hexp⟩ :=
        parseIFE_repl (ip ++ (fp ++ ep)) u r r' ip fp ep r1 r2 hS hS' hip' hfp hep
      rw [hxx]
      rw [parseNumber.eq_def]
      split
      · rename_i rr2 heq2
        exfalso
        cases ip with
        | nil => exact hine rfl
        | cons i0 it =>
          have hdig0 : i0.isDigit = true := hidig i0 (by simp)
          injection heq2 with g1 g2
          rw [g1] at hdig0
          exact absurd hdig0 (by decide)
      · rename_i hno2
        rw [(by simp [List.append_assoc] :
          (ip ++ (fp ++ ep)) ++ (u ++ r') = ip ++ (fp ++ (ep ++ (u ++ r'))))]
        simp only [hint, hfrac, hexp]
        rw [hlex]

/-- `stripLit` of its own literal. -/
theorem stripLit_self (cs X : List Char) : stripLit cs (cs ++ X) = some X := by
  induction cs with
  | nil => rfl
  | cons c ct ih =>
    rw [List.cons_append, stripLit, if_pos rfl]
    exact ih

/-- `stripLit` fails on a first-character mismatch. -/
theorem stripLit_ne1 (c0 : Char) (cs : List Char) (x : Char) (xs : List Char)
    (h : x ≠ c0) : stripLit (c0 :: cs) (x :: xs) = none := by
  rw [stripLit, if_neg h]

/-- `stripLit` fails on a second-character mismatch. -/
theorem stripLit_ne2 (c0 c1 : Char) (cs : List Char) (x0 x1 : Char) (xs : List Char)
    (h : x1 ≠ c1) : stripLit (c0 :: c1 :: cs) (x0 :: x1 :: xs) = none := by
  rw [stripLit]
  split
  · exact stripLit_ne1 c1 cs x1 xs h
  · rfl

/-- A number lexeme that consumes exactly the block before `Y` starts with a
digit, or a minus followed by a digit. -/
theorem parseNumber_head (x Y : List Char) (lex : String)
    (h : parseNumber (x ++ Y) = some (lex, Y)) :
    (∃ d t, x = d :: t ∧ d.isDigit = true) ∨
      (∃ d t, x = '-' :: d :: t ∧ d.isDigit = true) := by
  rw [parseNumber.eq_def] at h
  split at h
  · rename_i rr heq
    right
    cases hip : parseIntPart rr with
    | none =>
      simp only [hip] at h
      cases h
    | some p =>
      obtain ⟨ip, r1⟩ := p
      simp only [hip] at h
      cases hfp : parseFracPart r1 with
      | mk fp r2 =>
      simp only [hfp] at h
      cases hep : parseExpPart r2 with
      | mk ep r3 =>
      simp only [hep] at h
      have hr3 : r3 = Y := by
        injection h with h1
        exact congrArg Prod.snd h1
      rw [hr3] at hep
      obtain ⟨hi1, hine, hidig⟩ := parseIntPart_seg rr ip r1 hip
      obtain ⟨hf1, hfnum⟩ := parseFracPart_seg r1 fp r2 hfp
      obtain ⟨he1, henum⟩ := parseExpPart_seg r2 ep Y hep
      have hx : x = '-' :: (ip ++ (fp ++ ep)) := by
        have h2 : x ++ Y = ('-' :: (ip ++ (fp ++ ep))) ++ Y := by
          rw [heq, hi1, hf1, he1]
          simp [List.append_assoc]
        exact List.append_cancel_right h2
      cases ip with
      | nil => exact absurd rfl hine
      | cons i0 it =>
        exact ⟨i0, it ++ (fp ++ ep), hx, hidig i0 (by simp)⟩
  · rename_i hno
    left
    cases hip : parseIntPart (x ++ Y) with
    | none =>
      simp only [hip] at h
      cases h
    | some p =>
      obtain ⟨ip, r1⟩ := p
      simp only [hip] at h
      cases hfp : parseFracPart r1 with
      | mk fp r2 =>
      simp only [hfp] at h
      cases hep : parseExpPart r2 with
      | mk ep r3 =>
      simp only [hep] at h
      have hr3 : r3 = Y := by
        injection h with h1
        exact congrArg Prod.snd h1
      rw [hr3] at hep
      obtain ⟨hi1, hine, hidig⟩ := parseIntPart_seg _ ip r1 hip
      obtain ⟨hf1, hfnum⟩ := parseFracPart_seg r1 fp r2 hfp
      obtain ⟨he1, henum⟩ := parseExpPart_seg r2 ep Y hep
      have hx : x = ip ++ (fp ++ ep) := by
        have h2 : x ++ Y = (ip ++ (fp ++ ep)) ++ Y := by
          rw [hi1, hf1, he1]
          simp [List.append_assoc]
        exact List.append_cancel_right h2
      cases ip with
      | nil => exact absurd rfl hine
      | cons i0 it =>
        exact ⟨i0, it ++ (fp ++ ep), hx, hidig i0 (by simp)⟩

/-- `parseAtom` is stable under replacing the trailing context across a
safe boundary. -/
theorem parseAtom_repl (x u r r' : List Char) (v : Json)
    (hS : SafeCut r) (hS' : SafeCut r')
    (h : parseAtom (x ++ (u ++ r)) = some (v, u ++ r)) :
    parseAtom (x ++ (u ++ r')) = some (v, u ++ r') := by
  rw [parseAtom] at h
  split at h
  · rename_i r0 hs
    have hr0 : r0 = u ++ r := by
      injection h with h1
      exact congrArg Prod.snd h1
    have hv : v = Json.bool true := by
      injection h with h1
      exact (congrArg Prod.fst h1).symm
    have hx : x = ['t', 'r', 'u', 'e'] := by
      have hd := stripLit_eq _ _ _ hs
      rw [hr0] at hd
      exact List.append_cancel_right hd
    rw [parseAtom, hx]
    simp only [stripLit_self]
    rw [hv]
  · rename_i hn1
    split at h
    · rename_i r0 hs
      have hr0 : r0 = u ++ r := by
        injection h with h1
        exact congrArg Prod.snd h1
      have hv : v = Json.bool false := by
        injection h with h1
        exact (congrArg Prod.fst h1).symm
      have hx : x = ['f', 'a', 'l', 's', 'e'] := by
        have hd := stripLit_eq _ _ _ hs
        rw [hr0] at hd
        exact List.append_cancel_right hd
      rw [parseAtom, hx]
      have k1 : stripLit ['t', 'r', 'u', 'e']
          (['f', 'a', 'l', 's', 'e'] ++ (u ++ r')) = none :=
        stripLit_ne1 _ _ _ _ (by decide)
      simp only [k1, stripLit_self]
      rw [hv]
    · rename_i hn2
      split at h
      · rename_i r0 hs
        have hr0 : r0 = u ++ r := by
          injection h with h1
          exact congrArg Prod.snd h1
        have hv : v = Json.null := by
          injection h with h1
          exact (congrArg Prod.fst h1).symm
        have hx : x = ['n', 'u', 'l', 'l'] := by
          have hd := stripLit_eq _ _ _ hs
          rw [hr0] at hd
          exact List.append_cancel_right hd
        rw [parseAtom, hx]
        have k1 : stripLit ['t', 'r', 'u', 'e']
            (['n', 'u', 'l', 'l'] ++ (u ++ r')) = none :=
          stripLit_ne1 _ _ _ _ (by decide)
        have k2 : stripLit ['f', 'a', 'l', 's', 'e']
            (['n', 'u', 'l', 'l'] ++ (u ++ r')) = none :=
          stripLit_ne1 _ _ _ _ (by decide)
        simp only [k1, k2, stripLit_self]
        rw [hv]
      · rename_i hn3
        split at h
        · rename_i r0 hs
          have hr0 : r0 = u ++ r := by
            injection h with h1
            exact congrArg Prod.snd h1
          have hv : v = Json.num "NaN" := by
            injection h with h1
            exact (congrArg Prod.fst h1).symm
          have hx : x = ['N', 'a', 'N'] := by
            have hd := stripLit_eq _ _ _ hs
            rw [hr0] at hd
            exact List.append_cancel_right hd
          rw [parseAtom, hx]
          have k1 : stripLit ['t', 'r', 'u', 'e']
              (['N', 'a', 'N'] ++ (u ++ r')) = none :=
            stripLit_ne1 _ _ _ _ (by decide)
          have k2 : stripLit ['f', 'a', 'l', 's', 'e']
              (['N', 'a', 'N'] ++ (u ++ r')) = none :=
            stripLit_ne1 _ _ _ _ (by decide)
          have k3 : stripLit ['n', 'u', 'l', 'l']
              (['N', 'a', 'N'] ++ (u ++ r')) = none :=
            stripLit_ne1 _ _ _ _ (by decide)
          simp only [k1, k2, k3, stripLit_self]
          rw [hv]
        · rename_i hn4
          split at h
          · rename_i r0 hs
            have hr0 : r0 = u ++ r := by
              injection h with h1
              exact congrArg Prod.snd h1
            have hv : v = Json.num "Infinity" := by
              injection h with h1
              exact (congrArg Prod.fst h1).symm
            have hx : x = ['I', 'n', 'f', 'i', 'n', 'i', 't', 'y'] := by
              have hd := stripLit_eq _ _ _ hs
              rw [hr0] at hd
              exact List.append_cancel_right hd
            rw [parseAtom, hx]
            have k1 : stripLit ['t', 'r', 'u', 'e']
                (['I', 'n', 'f', 'i', 'n', 'i', 't', 'y'] ++ (u ++ r')) = none :=
              stripLit_ne1 _ _ _ _ (by decide)
            have k2 : stripLit ['f', 'a', 'l', 's', 'e']
                (['I', 'n', 'f', 'i', 'n', 'i', 't', 'y'] ++ (u ++ r')) = none :=
              stripLit_ne1 _ _ _ _ (by decide)
            have k3 : stripLit ['n', 'u', 'l', 'l']
                (['I', 'n', 'f', 'i', 'n', 'i', 't', 'y'] ++ (u ++ r')) = none :=
              stripLit_ne1 _ _ _ _ (by decide)
            have k4 : stripLit ['N', 'a', 'N']
                (['I', 'n', 'f', 'i', 'n', 'i', 't', 'y'] ++ (u ++ r')) = none :=
              stripLit_ne1 _ _ _ _ (by decide)
            simp only [k1, k2, k3, k4, stripLit_self]
            rw [hv]
          · rename_i hn5
            split at h
            · rename_i r0 hs
              have hr0 : r0 = u ++ r := by
                injection h with h1
                exact congrArg Prod.snd h1
              have hv : v = Json.num "-Infinity" := by
                injection h with h1
                exact (congrArg Prod.fst h1).symm
              have hx : x = ['-', 'I', 'n', 'f', 'i', 'n', 'i', 't', 'y'] := by
                have hd := stripLit_eq _ _ _ hs
                rw [hr0] at hd
                exact List.append_cancel_right hd
              rw [parseAtom, hx]
              have k1 : stripLit ['t', 'r', 'u', 'e']
                  (['-', 'I', 'n', 'f', 'i', 'n', 'i', 't', 'y'] ++ (u ++ r'))
                    = none :=
                stripLit_ne1 _ _ _ _ (by decide)
              have k2 : stripLit ['f', 'a', 'l', 's', 'e']
                  (['-', 'I', 'n', 'f', 'i', 'n', 'i', 't', 'y'] ++ (u ++ r'))
                    = none :=
                stripLit_ne1 _ _ _ _ (by decide)
              have k3 : stripLit ['n', 'u', 'l', 'l']
                  (['-', 'I', 'n', 'f', 'i', 'n', 'i', 't', 'y'] ++ (u ++ r'))
                    = none :=
                stripLit_ne1 _ _ _ _ (by decide)
              have k4 : stripLit ['N', 'a', 'N']
                  (['-', 'I', 'n', 'f', 'i', 'n', 'i', 't', 'y'] ++ (u ++ r'))
                    = none :=
                stripLit_ne1 _ _ _ _ (by decide)
              have k5 : stripLit ['I', 'n', 'f', 'i', 'n', 'i', 't', 'y']
                  (['-', 'I', 'n', 'f', 'i', 'n', 'i', 't', 'y'] ++ (u ++ r'))
                    = none :=
                stripLit_ne1 _ _ _ _ (by decide)
              simp only [k1, k2, k3, k4, k5, stripLit_self]
              rw [hv]
            · rename_i hn6
              obtain ⟨p, hp, hmap⟩ := Option.map_eq_some'.mp h
              obtain ⟨lex0, r0⟩ := p
              have hr0 : r0 = u ++ r := congrArg Prod.snd hmap
              have hv : v = Json.num lex0 := by
                have := congrArg Prod.fst hmap
                exact this.symm
              rw [hr0] at hp
              rcases parseNumber_head x (u ++ r) lex0 hp with
                ⟨d, t, hxd, hdd⟩ | ⟨d, t, hxd, hdd⟩
              · have k1 : stripLit ['t', 'r', 'u', 'e'] (x ++ (u ++ r')) = none := by
                  rw [hxd]
                  exact stripLit_ne1 _ _ _ _
                    (fun he => by rw [he] at hdd; exact absurd hdd (by decide))
                have k2 : stripLit ['f', 'a', 'l', 's', 'e'] (x ++ (u ++ r'))
                    = none := by
                  rw [hxd]
                  exact stripLit_ne1 _ _ _ _
                    (fun he => by rw [he] at hdd; exact absurd hdd (by decide))
                have k3 : stripLit ['n', 'u', 'l', 'l'] (x ++ (u ++ r')) = none := by
                  rw [hxd]
                  exact stripLit_ne1 _ _ _ _
                    (fun he => by rw [he] at hdd; exact absurd hdd (by decide))
                have k4 : stripLit ['N', 'a', 'N'] (x ++ (u ++ r')) = none := by
                  rw [hxd]
                  exact stripLit_ne1 _ _ _ _
                    (fun he => by rw [he] at hdd; exact absurd hdd (by decide))
                have k5 : stripLit ['I', 'n', 'f', 'i', 'n', 'i', 't', 'y']
                    (x ++ (u ++ r')) = none := by
                  rw [hxd]
                  exact stripLit_ne1 _ _ _ _
                    (fun he => by rw [he] at hdd; exact absurd hdd (by decide))
                have k6 : stripLit ['-', 'I', 'n', 'f', 'i', 'n', 'i', 't', 'y']
                    (x ++ (u ++ r')) = none := by
                  rw [hxd]
                  exact stripLit_ne1 _ _ _ _
                    (fun he => by rw [he] at hdd; exact absurd hdd (by decide))
                rw [parseAtom]
                simp only [k1, k2, k3, k4, k5, k6]
                rw [parseNumber_repl x u r r' lex0 hS hS' hp]
                rw [hv]
                rfl
              · have k1 : stripLit ['t', 'r', 'u', 'e'] (x ++ (u ++ r')) = none := by
                  rw [hxd]
                  exact stripLit_ne1 _ _ _ _ (by decide)
                have k2 : stripLit ['f', 'a', 'l', 's', 'e'] (x ++ (u ++ r'))
                    = none := by
                  rw [hxd]
                  exact stripLit_ne1 _ _ _ _ (by decide)
                have k3 : stripLit ['n', 'u', 'l', 'l'] (x ++ (u ++ r')) = none := by
                  rw [hxd]
                  exact stripLit_ne1 _ _ _ _ (by decide)
                have k4 : stripLit ['N', 'a', 'N'] (x ++ (u ++ r')) = none := by
                  rw [hxd]
                  exact stripLit_ne1 _ _ _ _ (by decide)
                have k5 : stripLit ['I', 'n', 'f', 'i', 'n', 'i', 't', 'y']
                    (x ++ (u ++ r')) = none := by
                  rw [hxd]
                  exact stripLit_ne1 _ _ _ _ (by decide)
                have k6 : stripLit ['-', 'I', 'n', 'f', 'i', 'n', 'i', 't', 'y']
                    (x ++ (u ++ r')) = none := by
                  rw [hxd]
                  exact stripLit_ne2 _ _ _ _ _ _
                    (fun he => by rw [he] at hdd; exact absurd hdd (by decide))
                rw [parseAtom]
                simp only [k1, k2, k3, k4, k5, k6]
                rw [parseNumber_repl x u r r' lex0 hS hS' hp]
                rw [hv]
                rfl

/-- A four-hex-digit parse is oblivious to the input beyond its four
characters. -/
theorem parseHex4_repl (h4 W W' : List Char) (nv : Nat)
    (h : parseHex4 (h4 ++ W) = some (nv, W)) (hlen : h4.length = 4) :
    parseHex4 (h4 ++ W') = some (nv, W') := by
  match h4, hlen with
  | [a, b, c, d], _ =>
    simp only [List.cons_append, List.nil_append, parseHex4] at h ⊢
    cases ha : hexVal a with
    | none => rw [ha] at h; cases h
    | some x =>
    cases hb : hexVal b with
    | none => rw [ha, hb] at h; cases h
    | some y =>
    cases hc : hexVal c with
    | none => rw [ha, hb, hc] at h; cases h
    | some z =>
    cases hd : hexVal d with
    | none => rw [ha, hb, hc, hd] at h; cases h
    | some w =>
      simp only [ha, hb, hc, hd] at h
      have hn : nv = ((x * 16 + y) * 16 + z) * 16 + w := by
        injection h with h1
        exact (congrArg Prod.fst h1).symm
      rw [hn]

/-- A successful string-body parse strictly shortens the input. -/
theorem ssb_len (k : Nat) (L cs R : List Char)
    (h : parseStringBody k L = some (cs, R)) : R.length < L.length :=
  strSeg_len_lt L R (parseStringBody_seg k L cs R h)

/-- A string body starting with a unicode escape pins the four hex digits:
they parse, and the remaining input after them is strictly longer than the
final rest. -/
theorem ssb_unicode_len (k : Nat) (rr cs R : List Char)
    (h : parseStringBody k ('\\' :: 'u' :: rr) = some (cs, R)) :
    ∃ mv rr3, parseHex4 rr = some (mv, rr3) ∧ R.length < rr3.length := by
  cases k with
  | zero =>
    rw [parseStringBody] at h
    cases h
  | succ fuel =>
    rw [parseStringBody.eq_def] at h
    split at h
    · cases h
    · rename_i fuelv hfeq
      have hfv : fuelv = fuel := by omega
      subst hfv
      split at h
      · cases h
      · rename_i heq
        exfalso
        injection heq with h1
        exact absurd h1 (by decide)
      case h_4 c0 r0 hq hbs heq =>
        exfalso
        injection heq with g1 g2
        exact hbs 'u' rr g1.symm g2.symm
      case h_3 e r0 heq =>
      injection heq with h1 h2
      injection h2 with h2a h2b
      rw [← h2a, ← h2b] at h
      rw [if_pos rfl] at h
      cases hx : parseHex4 rr with
      | none =>
        rw [hx] at h
        cases h
      | some p =>
        obtain ⟨mv, rr3⟩ := p
        rw [hx] at h
        refine ⟨mv, rr3, rfl, ?_⟩
        split at h
        · cases h
        · rename_i nv2 rr3b heq2
          injection heq2 with heq2'
          have hnv : nv2 = mv := (congrArg Prod.fst heq2').symm
          have hrr : rr3b = rr3 := (congrArg Prod.snd heq2').symm
          subst hnv
          subst hrr
          split at h
          · -- high surrogate: further match on rr3
            split at h
            · -- rr3 = '\\' :: 'u' :: rr4
              rename_i rr4
              cases hx2 : parseHex4 rr4 with
              | none =>
                rw [hx2] at h
                split at h
                · rename_i m4 rr5b heq3
                  exact Option.noConfusion heq3
                · obtain ⟨p2, hp2, hm2⟩ := Option.map_eq_some'.mp h
                  obtain ⟨cs2, R2⟩ := p2
                  have hR : R2 = R := congrArg Prod.snd hm2
                  rw [hR] at hp2
                  have := ssb_len _ _ _ _ hp2
                  simpa using this
              | some p2 =>
                obtain ⟨m3, rr5⟩ := p2
                rw [hx2] at h
                split at h
                · rename_i m4 rr5b heq3
                  injection heq3 with heq3a
                  have hm4 : m4 = m3 := (congrArg Prod.fst heq3a).symm
                  have hrr5 : rr5b = rr5 := (congrArg Prod.snd heq3a).symm
                  subst hm4
                  subst hrr5
                  split at h
                  · -- combined surrogate pair
                    obtain ⟨p3, hp3, hm3⟩ := Option.map_eq_some'.mp h
                    obtain ⟨cs2, R2⟩ := p3
                    have hR : R2 = R := congrArg Prod.snd hm3
                    rw [hR] at hp3
                    have hlt := ssb_len _ _ _ _ hp3
                    obtain ⟨c4, hc4, hc4len, -⟩ := parseHex4_seg rr4 m4 rr5b hx2
                    have : rr4.length = 4 + rr5b.length := by
                      rw [hc4, List.length_append, hc4len]
                    simp only [List.length_cons]
                    omega
                  · obtain ⟨p3, hp3, hm3⟩ := Option.map_eq_some'.mp h
                    obtain ⟨cs2, R2⟩ := p3
                    have hR : R2 = R := congrArg Prod.snd hm3
                    rw [hR] at hp3
                    have := ssb_len _ _ _ _ hp3
                    simpa using this
                · rename_i heq3
                  exact Option.noConfusion heq3
            · -- rr3 does not continue with a unicode escape
              obtain ⟨p3, hp3, hm3⟩ := Option.map_eq_some'.mp h
              obtain ⟨cs2, R2⟩ := p3
              have hR : R2 = R := congrArg Prod.snd hm3
              rw [hR] at hp3
              exact ssb_len _ _ _ _ hp3
          · split at h
            · obtain ⟨p3, hp3, hm3⟩ := Option.map_eq_some'.mp h
              obtain ⟨cs2, R2⟩ := p3
              have hR : R2 = R := congrArg Prod.snd hm3
              rw [hR] at hp3
              exact ssb_len _ _ _ _ hp3
            · obtain ⟨p3, hp3, hm3⟩ := Option.map_eq_some'.mp h
              obtain ⟨cs2, R2⟩ := p3
              have hR : R2 = R := congrArg Prod.snd hm3
              rw [hR] at hp3
              exact ssb_len _ _ _ _ hp3

/-- Forward evaluation of the string-body parser at a closing quote. -/
theorem ssb_eval_quote (m1 : Nat) (W : List Char) :
    parseStringBody (m1 + 1) ('"' :: W) = some ([], W) := rfl

/-- Forward evaluation of the string-body parser at a backslash: the body
of the escape branch. -/
theorem ssb_eval_bslash (fuel : Nat) (e : Char) (W : List Char) :
    parseStringBody (fuel + 1) ('\\' :: e :: W) =
      (if e = 'u' then
        match parseHex4 W with
        | none => none
        | some (n, r') =>
          if 0xD800 ≤ n ∧ n < 0xDC00 then
            match r' with
            | '\\' :: 'u' :: r'' =>
              match parseHex4 r'' with
              | some (m, r3) =>
                if 0xDC00 ≤ m ∧ m < 0xE000 then
                  (parseStringBody fuel r3).map (fun p =>
                    (Char.ofNat (0x10000 + (n - 0xD800) * 0x400 + (m - 0xDC00)) :: p.1,
                      p.2))
                else
                  (parseStringBody fuel r').map (fun p => ('�' :: p.1, p.2))
              | none => (parseStringBody fuel r').map (fun p => ('�' :: p.1, p.2))
            | _ => (parseStringBody fuel r').map (fun p => ('�' :: p.1, p.2))
          else if 0xDC00 ≤ n ∧ n < 0xE000 then
            (parseStringBody fuel r').map (fun p => ('�' :: p.1, p.2))
          else
            (parseStringBody fuel r').map (fun p => (Char.ofNat n :: p.1, p.2))
      else
        match escChar e with
        | some d => (parseStringBody fuel W).map (fun p => (d :: p.1, p.2))
        | none => none) := rfl

/-- Forward evaluation of the string-body parser at an ordinary character. -/
theorem ssb_eval_char (fuel : Nat) (c : Char) (W : List Char)
    (hq : c ≠ '"') (hb : c ≠ '\\') :
    parseStringBody (fuel + 1) (c :: W) =
      (if c.toNat < 0x20 then none
       else (parseStringBody fuel W).map (fun p => (c :: p.1, p.2))) := by
  rw [parseStringBody.eq_def]
  split
  · rename_i heqz
    exact absurd heqz (by omega)
  · rename_i fuelw hfw
    have hfv : fuelw = fuel := by omega
    subst hfv
    split
    · rename_i heqq
      exact List.noConfusion heqq
    · rename_i rz heqq
      injection heqq with hq1
      exact absurd hq1 hq
    · rename_i e2 rz heqq
      injection heqq with hq1
      exact absurd hq1 hb
    · rename_i c2 rz hnq hnb heqq
      injection heqq with hq1 hq2
      rw [← hq1, ← hq2]

/-- The string-body parser on the empty input. -/
theorem ssb_nil (k : Nat) : parseStringBody k [] = none := by
  cases k with
  | zero => rfl
  | succ f => rfl

/-- `parseStringBody` never inspects the input beyond the closing quote:
the consumed block combines with any other trailing context, given fuel
beyond the block's length. -/
theorem parseStringBody_repl (Y Y' : List Char) :
    ∀ n x cs, parseStringBody n (x ++ Y) = some (cs, Y) →
      ∀ m, x.length + 1 ≤ m → parseStringBody m (x ++ Y') = some (cs, Y') := by
  intro n
  induction n with
  | zero =>
    intro x cs h m hm
    rw [parseStringBody] at h
    cases h
  | succ fuel ih =>
    intro x cs h m hm
    have hxne : x ≠ [] := by
      intro h0
      subst h0
      have := ssb_len (fuel + 1) _ _ _ h
      simp at this
    cases x with
    | nil => exact absurd rfl hxne
    | cons x0 xt =>
      cases m with
      | zero =>
        exact absurd hm (by simp)
      | succ m1 =>
        have hm1 : xt.length + 1 ≤ m1 := by
          simp [List.length_cons] at hm
          omega
        rw [parseStringBody.eq_def] at h
        split at h
        · cases h
        · rename_i fuelv hfeq
          have hfv : fuel = fuelv := by omega
          subst hfv
          split at h
          · cases h
          · -- closing quote
            rename_i r0 heq
            injection heq with hx0 hrest
            replace hrest : xt ++ Y = r0 := hrest
            have hcs : cs = [] := by
              injection h with h1
              exact (congrArg Prod.fst h1).symm
            have hr0 : r0 = Y := by
              injection h with h1
              exact congrArg Prod.snd h1
            have hxt : xt = [] := eq_nil_of_append_eq_self xt Y (by rw [hrest, hr0])
            subst hx0
            subst hxt
            rw [hcs, List.cons_append, List.nil_append]
            exact ssb_eval_quote m1 Y'
          · -- escape
            rename_i e r0 heq
            injection heq with hx0 hrest
            replace hrest : xt ++ Y = e :: r0 := hrest
            subst hx0
            by_cases heu : e = 'u'
            · subst heu
              rw [if_pos rfl] at h
              cases hx4 : parseHex4 r0 with
              | none =>
                rw [hx4] at h
                cases h
              | some p =>
                obtain ⟨n1, r1⟩ := p
                rw [hx4] at h
                split at h
                · cases h
                · rename_i n2 r1b heq2
                  injection heq2 with heq2a
                  have hn2 : n1 = n2 := congrArg Prod.fst heq2a
                  have hr1b : r1 = r1b := congrArg Prod.snd heq2a
                  subst hn2
                  subst hr1b
                  obtain ⟨h4a, hh4a, hh4alen, -⟩ := parseHex4_seg r0 n1 r1 hx4
                  split at h
                  · -- high surrogate
                    rename_i hhigh
                    split at h
                    · -- r1 = '\\' :: 'u' :: r2
                      rename_i r2
                      cases hx42 : parseHex4 r2 with
                      | none =>
                        rw [hx42] at h
                        split at h
                        · rename_i m2 r3 heq3
                          exact Option.noConfusion heq3
                        · obtain ⟨p2, hp2, hm2⟩ := Option.map_eq_some'.mp h
                          obtain ⟨cs2, R2⟩ := p2
                          have hR2 : R2 = Y := congrArg Prod.snd hm2
                          rw [hR2] at hp2
                          obtain ⟨mv, rr3x, hhex, -⟩ :=
                            ssb_unicode_len fuel r2 cs2 Y hp2
                          rw [hx42] at hhex
                          exact Option.noConfusion hhex
                      | some p2 =>
                        obtain ⟨m2, r3⟩ := p2
                        rw [hx42] at h
                        split at h
                        · rename_i m2b r3b heq3
                          injection heq3 with heq3a
                          have hA : m2 = m2b := congrArg Prod.fst heq3a
                          have hB : r3 = r3b := congrArg Prod.snd heq3a
                          subst hA
                          subst hB
                          obtain ⟨h4b, hh4b, hh4blen, -⟩ :=
                            parseHex4_seg r2 m2 r3 hx42
                          split at h
                          · -- combined surrogate pair
                            rename_i hlow
                            obtain ⟨p3, hp3, hm3⟩ := Option.map_eq_some'.mp h
                            obtain ⟨cs2, R2⟩ := p3
                            have hR2 : R2 = Y := congrArg Prod.snd hm3
                            have hcs : cs = Char.ofNat
                                (0x10000 + (n1 - 0xD800) * 0x400 + (m2 - 0xDC00))
                                :: cs2 := (congrArg Prod.fst hm3).symm
                            rw [hR2] at hp3
                            have hlen := ssb_len _ _ _ _ hp3
                            have hchain : xt ++ Y
                                = ('u' :: h4a ++ ('\\' :: 'u' :: h4b)) ++ r3 := by
                              rw [hrest, hh4a, hh4b]
                              simp [List.append_assoc]
                            have hc := congrArg List.length hchain
                            rw [List.length_append, List.length_append] at hc
                            have hpl : ('u' :: h4a ++ ('\\' :: 'u' :: h4b)).length
                                = 11 := by
                              simp [List.length_append, hh4alen, hh4blen]
                            have hplen : ('u' :: h4a ++ ('\\' :: 'u' :: h4b)).length
                                ≤ xt.length := by omega
                            obtain ⟨xt2, hxt2, hLX⟩ :=
                              append_split_of_le xt Y _ r3 hchain hplen
                            rw [hLX] at hp3
                            have hih := ih xt2 cs2 hp3 m1 (by
                              rw [hxt2, List.length_append] at hm1
                              omega)
                            rw [hcs]
                            have hgin : ('\\' :: xt) ++ Y' = '\\' :: 'u' ::
                                (h4a ++ ('\\' :: 'u' :: (h4b ++ (xt2 ++ Y')))) := by
                              rw [hxt2]
                              simp [List.append_assoc]
                            rw [hgin, ssb_eval_bslash, if_pos rfl]
                            have hhex1r : parseHex4
                                (h4a ++ ('\\' :: 'u' :: (h4b ++ (xt2 ++ Y'))))
                                = some (n1, '\\' :: 'u' :: (h4b ++ (xt2 ++ Y'))) := by
                              apply parseHex4_repl h4a ('\\' :: 'u' :: r2) _ n1 _
                                hh4alen
                              rw [← hh4a]
                              exact hx4
                            simp only [hhex1r]
                            rw [if_pos hhigh]
                            have hhex2r : parseHex4 (h4b ++ (xt2 ++ Y'))
                                = some (m2, xt2 ++ Y') := by
                              apply parseHex4_repl h4b r3 _ m2 _ hh4blen
                              rw [← hh4b]
                              exact hx42
                            split
                            · rename_i mv4 r4 heq4
                              rw [hhex2r] at heq4
                              injection heq4 with heq4a
                              have hA : m2 = mv4 := congrArg Prod.fst heq4a
                              have hB : xt2 ++ Y' = r4 := congrArg Prod.snd heq4a
                              subst hA
                              rw [← hB]
                              rw [if_pos hlow, hih]
                              rfl
                            · rename_i hns
                              rw [hhex2r] at hns
                              exact Option.noConfusion hns
                          · -- second escape is not a low surrogate
                            rename_i hnotlow
                            obtain ⟨p3, hp3, hm3⟩ := Option.map_eq_some'.mp h
                            obtain ⟨cs2, R2⟩ := p3
                            have hR2 : R2 = Y := congrArg Prod.snd hm3
                            have hcs : cs = '�' :: cs2 :=
                              (congrArg Prod.fst hm3).symm
                            rw [hR2] at hp3
                            obtain ⟨mv, rr3x, hhex2u, hlen3⟩ :=
                              ssb_unicode_len fuel r2 cs2 Y hp3
                            rw [hx42] at hhex2u
                            injection hhex2u with hhex2u'
                            have hmv : m2 = mv := congrArg Prod.fst hhex2u'
                            have hrr3 : r3 = rr3x := congrArg Prod.snd hhex2u'
                            rw [← hrr3] at hlen3
                            have hlen1 : Y.length < ('\\' :: 'u' :: r2).length := by
                              have h2len := congrArg List.length hh4b
                              rw [List.length_append, hh4blen] at h2len
                              simp only [List.length_cons]
                              omega
                            have hchain : xt ++ Y
                                = ('u' :: h4a) ++ ('\\' :: 'u' :: r2) := by
                              rw [hrest, hh4a]
                              rfl
                            have hc := congrArg List.length hchain
                            rw [List.length_append, List.length_append] at hc
                            have hpl : ('u' :: h4a).length = 5 := by
                              simp [hh4alen]
                            have hplen : ('u' :: h4a).length ≤ xt.length := by omega
                            obtain ⟨xt2, hxt2, hLX⟩ :=
                              append_split_of_le xt Y _ ('\\' :: 'u' :: r2)
                                hchain hplen
                            -- xt2 itself starts with the second escape
                            have hxt2len : ('\\' :: 'u' :: ([] : List Char)).length
                                ≤ xt2.length := by
                              have hc2 := congrArg List.length hLX
                              rw [List.length_append] at hc2
                              have h2len := congrArg List.length hh4b
                              rw [List.length_append, hh4blen] at h2len
                              simp only [List.length_cons] at hc2 ⊢
                              simp only [List.length_nil]
                              omega
                            obtain ⟨t2, ht2, hr2t⟩ :=
                              append_split_of_le xt2 Y ['\\', 'u'] r2 hLX.symm
                                hxt2len
                            have hr3t : ('u' :: h4a).length ≤ 5 := by omega
                            -- split t2 against the four hex digits
                            have ht2len : h4b.length ≤ t2.length := by
                              have hc3 := congrArg List.length hr2t
                              have h2len := congrArg List.length hh4b
                              rw [List.length_append] at hc3 h2len
                              omega
                            obtain ⟨t3, ht3, hr3split⟩ :=
                              append_split_of_le t2 Y h4b r3
                                (by rw [← hr2t]; exact hh4b) ht2len
                            have hp3' : parseStringBody fuel (xt2 ++ Y)
                                = some (cs2, Y) := by
                              rw [← hLX]
                              exact hp3
                            have hih := ih xt2 cs2 hp3' m1 (by
                              rw [hxt2, List.length_append] at hm1
                              omega)
                            rw [hcs]
                            have hgin : ('\\' :: xt) ++ Y'
                                = '\\' :: 'u' :: (h4a ++ (xt2 ++ Y')) := by
                              rw [hxt2]
                              simp [List.append_assoc]
                            rw [hgin, ssb_eval_bslash, if_pos rfl]
                            have hhex1r : parseHex4 (h4a ++ (xt2 ++ Y'))
                                = some (n1, xt2 ++ Y') := by
                              apply parseHex4_repl h4a (xt2 ++ Y) _ n1 _ hh4alen
                              rw [← hLX, ← hh4a]
                              exact hx4
                            simp only [hhex1r]
                            rw [if_pos hhigh]
                            split
                            · rename_i r4 heq4
                              -- xt2 ++ Y' = '\\' :: 'u' :: r4
                              have hscr : xt2 ++ Y' = '\\' :: 'u' :: (t2 ++ Y') := by
                                rw [ht2]
                                rfl
                              rw [hscr] at heq4
                              injection heq4 with g1 g2
                              injection g2 with g2a g2b
                              rw [← g2b]
                              have hhex2r : parseHex4 (t2 ++ Y')
                                  = some (m2, t3 ++ Y') := by
                                have : t2 ++ Y' = h4b ++ (t3 ++ Y') := by
                                  rw [ht3]
                                  simp [List.append_assoc]
                                rw [this]
                                apply parseHex4_repl h4b (t3 ++ Y) _ m2 _ hh4blen
                                rw [← hr3split, ← hh4b]
                                exact hx42
                              simp only [hhex2r]
                              rw [if_neg hnotlow]
                              rw [hih]
                              rfl
                            · rename_i hns
                              exfalso
                              apply hns (t2 ++ Y')
                              rw [ht2]
                              rfl
                        · rename_i heq3
                          exact Option.noConfusion heq3
                    · -- r1 does not continue with a unicode escape
                      rename_i hns0
                      obtain ⟨p3, hp3, hm3⟩ := Option.map_eq_some'.mp h
                      obtain ⟨cs2, R2⟩ := p3
                      have hR2 : R2 = Y := congrArg Prod.snd hm3
                      have hcs : cs = '�' :: cs2 := (congrArg Prod.fst hm3).symm
                      rw [hR2] at hp3
                      have hlen := ssb_len _ _ _ _ hp3
                      have hchain : xt ++ Y = ('u' :: h4a) ++ r1 := by
                        rw [hrest, hh4a]
                        rfl
                      have hc := congrArg List.length hchain
                      rw [List.length_append, List.length_append] at hc
                      have hpl : ('u' :: h4a).length = 5 := by simp [hh4alen]
                      have hplen : ('u' :: h4a).length ≤ xt.length := by omega
                      obtain ⟨xt2, hxt2, hLX⟩ :=
                        append_split_of_le xt Y _ r1 hchain hplen
                      have hxt2ne : xt2 ≠ [] := by
                        intro h0
                        rw [h0, List.nil_append] at hLX
                        rw [hLX] at hlen
                        omega
                      have hp3' : parseStringBody fuel (xt2 ++ Y)
                          = some (cs2, Y) := by
                        rw [← hLX]
                        exact hp3
                      have hih := ih xt2 cs2 hp3' m1 (by
                        rw [hxt2, List.length_append] at hm1
                        omega)
                      rw [hcs]
                      have hgin : ('\\' :: xt) ++ Y'
                          = '\\' :: 'u' :: (h4a ++ (xt2 ++ Y')) := by
                        rw [hxt2]
                        simp [List.append_assoc]
                      rw [hgin, ssb_eval_bslash, if_pos rfl]
                      have hhex1r : parseHex4 (h4a ++ (xt2 ++ Y'))
                          = some (n1, xt2 ++ Y') := by
                        apply parseHex4_repl h4a (xt2 ++ Y) _ n1 _ hh4alen
                        rw [← hLX, ← hh4a]
                        exact hx4
                      simp only [hhex1r]
                      rw [if_pos hhigh]
                      split
                      · -- the replaced tail cannot recreate a unicode escape
                        rename_i r4 heq4
                        exfalso
                        cases hxx : xt2 with
                        | nil => exact hxt2ne hxx
                        | cons a t2 =>
                          rw [hxx] at heq4
                          injection heq4 with g1 g2
                          subst g1
                          cases htt : t2 with
                          | nil =>
                            -- xt2 = ['\\']: the retried parse of r1 refutes it
                            rw [hxx, htt] at hLX
                            rw [hLX] at hp3
                            cases hfc : fuel with
                            | zero =>
                              rw [hfc, parseStringBody] at hp3
                              cases hp3
                            | succ f2 =>
                              rw [hfc] at hp3
                              cases hYc : Y with
                              | nil =>
                                rw [hYc] at hp3
                                obtain ⟨cq, hcq, -, -, hlast⟩ :=
                                  parseStringBody_seg _ _ _ _ hp3
                                have hcq2 : cq = ['\\'] := by
                                  simp only [List.append_nil] at hcq
                                  exact hcq.symm
                                rw [hcq2] at hlast
                                have : some '\\' = some '"' := hlast
                                injection this with hbad
                                exact absurd hbad (by decide)
                              | cons yh yt =>
                                rw [hYc] at hp3
                                have hp3b : parseStringBody (f2 + 1)
                                    ('\\' :: yh :: yt) = some (cs2, yh :: yt) := by
                                  exact hp3
                                by_cases hyu : yh = 'u'
                                · subst hyu
                                  obtain ⟨mv2, rr3y, hhexy, hleny⟩ :=
                                    ssb_unicode_len (f2 + 1) yt cs2 ('u' :: yt) hp3b
                                  obtain ⟨cy, hcy, hcylen, -⟩ :=
                                    parseHex4_seg yt mv2 rr3y hhexy
                                  have h1 := congrArg List.length hcy
                                  rw [List.length_append, hcylen] at h1
                                  simp only [List.length_cons] at hleny
                                  omega
                                · rw [ssb_eval_bslash, if_neg hyu] at hp3b
                                  cases hesc2 : escChar yh with
                                  | none =>
                                    rw [hesc2] at hp3b
                                    cases hp3b
                                  | some d =>
                                    simp only [hesc2] at hp3b
                                    obtain ⟨p4, hp4, hm4⟩ :=
                                      Option.map_eq_some'.mp hp3b
                                    obtain ⟨cs4, R4⟩ := p4
                                    have hR4 : R4 = yh :: yt :=
                                      congrArg Prod.snd hm4
                                    rw [hR4] at hp4
                                    have := ssb_len _ _ _ _ hp4
                                    simp only [List.length_cons] at this
                                    omega
                          | cons b t3 =>
                            rw [htt] at g2
                            injection g2 with g2a g2b
                            subst g2a
                            apply hns0 (t3 ++ Y)
                            rw [hLX, hxx, htt]
                            rfl
                      · rename_i hns
                        rw [hih]
                        rfl
                  · -- not a high surrogate
                    rename_i hnothigh
                    split at h
                    · -- lone low surrogate
                      rename_i hlow
                      obtain ⟨p3, hp3, hm3⟩ := Option.map_eq_some'.mp h
                      obtain ⟨cs2, R2⟩ := p3
                      have hR2 : R2 = Y := congrArg Prod.snd hm3
                      have hcs : cs = '�' :: cs2 := (congrArg Prod.fst hm3).symm
                      rw [hR2] at hp3
                      have hlen := ssb_len _ _ _ _ hp3
                      have hchain : xt ++ Y = ('u' :: h4a) ++ r1 := by
                        rw [hrest, hh4a]
                        rfl
                      have hc := congrArg List.length hchain
                      rw [List.length_append, List.length_append] at hc
                      have hpl : ('u' :: h4a).length = 5 := by simp [hh4alen]
                      have hplen : ('u' :: h4a).length ≤ xt.length := by omega
                      obtain ⟨xt2, hxt2, hLX⟩ :=
                        append_split_of_le xt Y _ r1 hchain hplen
                      have hp3' : parseStringBody fuel (xt2 ++ Y)
                          = some (cs2, Y) := by
                        rw [← hLX]
                        exact hp3
                      have hih := ih xt2 cs2 hp3' m1 (by
                        rw [hxt2, List.length_append] at hm1
                        omega)
                      rw [hcs]
                      have hgin : ('\\' :: xt) ++ Y'
                          = '\\' :: 'u' :: (h4a ++ (xt2 ++ Y')) := by
                        rw [hxt2]
                        simp [List.append_assoc]
                      rw [hgin, ssb_eval_bslash, if_pos rfl]
                      have hhex1r : parseHex4 (h4a ++ (xt2 ++ Y'))
                          = some (n1, xt2 ++ Y') := by
                        apply parseHex4_repl h4a (xt2 ++ Y) _ n1 _ hh4alen
                        rw [← hLX, ← hh4a]
                        exact hx4
                      simp only [hhex1r]
                      rw [if_neg hnothigh, if_pos hlow, hih]
                      rfl
                    · -- plain code point
                      rename_i hnotlow
                      obtain ⟨p3, hp3, hm3⟩ := Option.map_eq_some'.mp h
                      obtain ⟨cs2, R2⟩ := p3
                      have hR2 : R2 = Y := congrArg Prod.snd hm3
                      have hcs : cs = Char.ofNat n1 :: cs2 :=
                        (congrArg Prod.fst hm3).symm
                      rw [hR2] at hp3
                      have hlen := ssb_len _ _ _ _ hp3
                      have hchain : xt ++ Y = ('u' :: h4a) ++ r1 := by
                        rw [hrest, hh4a]
                        rfl
                      have hc := congrArg List.length hchain
                      rw [List.length_append, List.length_append] at hc
                      have hpl : ('u' :: h4a).length = 5 := by simp [hh4alen]
                      have hplen : ('u' :: h4a).length ≤ xt.length := by omega
                      obtain ⟨xt2, hxt2, hLX⟩ :=
                        append_split_of_le xt Y _ r1 hchain hplen
                      have hp3' : parseStringBody fuel (xt2 ++ Y)
                          = some (cs2, Y) := by
                        rw [← hLX]
                        exact hp3
                      have hih := ih xt2 cs2 hp3' m1 (by
                        rw [hxt2, List.length_append] at hm1
                        omega)
                      rw [hcs]
                      have hgin : ('\\' :: xt) ++ Y'
                          = '\\' :: 'u' :: (h4a ++ (xt2 ++ Y')) := by
                        rw [hxt2]
                        simp [List.append_assoc]
                      rw [hgin, ssb_eval_bslash, if_pos rfl]
                      have hhex1r : parseHex4 (h4a ++ (xt2 ++ Y'))
                          = some (n1, xt2 ++ Y') := by
                        apply parseHex4_repl h4a (xt2 ++ Y) _ n1 _ hh4alen
                        rw [← hLX, ← hh4a]
                        exact hx4
                      simp only [hhex1r]
                      rw [if_neg hnothigh, if_neg hnotlow, hih]
                      rfl
            · -- single-character escape
              rw [if_neg heu] at h
              cases hesc : escChar e with
              | none =>
                rw [hesc] at h
                cases h
              | some d =>
                simp only [hesc] at h
                obtain ⟨p2, hp2, hm2⟩ := Option.map_eq_some'.mp h
                obtain ⟨cs2, R2⟩ := p2
                have hR2 : R2 = Y := congrArg Prod.snd hm2
                have hcs : cs = d :: cs2 := (congrArg Prod.fst hm2).symm
                rw [hR2] at hp2
                have hlen := ssb_len _ _ _ _ hp2
                have hchain : xt ++ Y = [e] ++ r0 := hrest
                have hc := congrArg List.length hchain
                rw [List.length_append, List.length_append] at hc
                have hplen : ([e] : List Char).length ≤ xt.length := by
                  simp only [List.length_cons, List.length_nil] at hc ⊢
                  omega
                obtain ⟨xt2, hxt2, hLX⟩ :=
                  append_split_of_le xt Y [e] r0 hchain hplen
                have hp2' : parseStringBody fuel (xt2 ++ Y) = some (cs2, Y) := by
                  rw [← hLX]
                  exact hp2
                have hih := ih xt2 cs2 hp2' m1 (by
                  rw [hxt2, List.length_append] at hm1
                  omega)
                rw [hcs]
                have hgin : ('\\' :: xt) ++ Y' = '\\' :: e :: (xt2 ++ Y') := by
                  rw [hxt2]
                  rfl
                rw [hgin, ssb_eval_bslash, if_neg heu]
                simp only [hesc]
                rw [hih]
                rfl
          · -- ordinary character
            rename_i c0 r0 hnq hnb heq
            injection heq with hx0 hrest
            replace hrest : xt ++ Y = r0 := hrest
            split at h
            · cases h
            · rename_i htoNat
              obtain ⟨p2, hp2, hm2⟩ := Option.map_eq_some'.mp h
              obtain ⟨cs2, R2⟩ := p2
              have hR2 : R2 = Y := congrArg Prod.snd hm2
              have hcs : cs = c0 :: cs2 := (congrArg Prod.fst hm2).symm
              rw [hR2] at hp2
              have hb : c0 ≠ '\\' := by
                intro hbe
                cases hr0c : r0 with
                | nil =>
                  rw [hr0c, ssb_nil] at hp2
                  cases hp2
                | cons e1 rr1 => exact hnb e1 rr1 hbe hr0c
              have hq : c0 ≠ '"' := fun hqe => hnq hqe
              rw [← hrest] at hp2
              have hih := ih xt cs2 hp2 m1 hm1
              rw [hcs, hx0, List.cons_append]
              rw [ssb_eval_char m1 c0 (xt ++ Y') hq hb]
              rw [if_neg htoNat, hih]
              rfl

/-- Whitespace skipping distributes over a block with a non-whitespace
remainder. -/
theorem skip_append_pos (u1 Z : List Char) (hd : u1.dropWhile isJsonWs ≠ []) :
    skipJsonWs (u1 ++ Z) = (u1.dropWhile isJsonWs) ++ Z := by
  show (u1 ++ Z).dropWhile isJsonWs = u1.dropWhile isJsonWs ++ Z
  rw [List.dropWhile_append]
  rw [if_neg (by simp [hd])]

/-- Whitespace skipping falls through an all-whitespace block. -/
theorem skip_append_nil (u1 Z : List Char) (hd : u1.dropWhile isJsonWs = []) :
    skipJsonWs (u1 ++ Z) = skipJsonWs Z := by
  show (u1 ++ Z).dropWhile isJsonWs = Z.dropWhile isJsonWs
  rw [List.dropWhile_append]
  rw [if_pos (by simp [hd])]

/-- Whitespace skipping never lengthens the input. -/
theorem skip_len_le (Z : List Char) : (skipJsonWs Z).length ≤ Z.length :=
  (Z.dropWhile_suffix isJsonWs).length_le

/-- A successful value parse strictly shortens the input. -/
theorem parseValue_len (n : Nat) (l : List Char) (v : Json) (rr : List Char)
    (h : parseValue n l = some (v, rr)) : rr.length < l.length :=
  seg_len_lt l rr ((parse_seg n).1 l v rr h)

/-- A successful array-body parse strictly shortens the input. -/
theorem parseArrBody_len (n : Nat) (l : List Char) (v : Json) (rr : List Char)
    (h : parseArrBody n l = some (v, rr)) : rr.length < l.length :=
  seg_len_lt l rr ((parse_seg n).2.1 l v rr h)

/-- A successful array-rest parse strictly shortens the input. -/
theorem parseArrRest_len (n : Nat) (acc : List Json) (l : List Char) (v : Json)
    (rr : List Char) (h : parseArrRest n acc l = some (v, rr)) :
    rr.length < l.length :=
  seg_len_lt l rr ((parse_seg n).2.2.1 acc l v rr h)

/-- A successful object-body parse strictly shortens the input. -/
theorem parseObjBody_len (n : Nat) (l : List Char) (v : Json) (rr : List Char)
    (h : parseObjBody n l = some (v, rr)) : rr.length < l.length :=
  seg_len_lt l rr ((parse_seg n).2.2.2.1 l v rr h)

/-- A successful object-rest parse strictly shortens the input. -/
theorem parseObjRest_len (n : Nat) (acc : List (String × Json)) (l : List Char)
    (v : Json) (rr : List Char) (h : parseObjRest n acc l = some (v, rr)) :
    rr.length < l.length :=
  seg_len_lt l rr ((parse_seg n).2.2.2.2 acc l v rr h)

/-- Forward evaluation: a value at an opening brace. -/
theorem pv_eval_brace (m1 : Nat) (W : List Char) :
    parseValue (m1 + 1) ('{' :: W) = parseObjBody m1 (skipJsonWs W) := rfl

/-- Forward evaluation: a value at an opening bracket. -/
theorem pv_eval_bracket (m1 : Nat) (W : List Char) :
    parseValue (m1 + 1) ('[' :: W) = parseArrBody m1 (skipJsonWs W) := rfl

/-- Forward evaluation: a value at an opening quote. -/
theorem pv_eval_str (m1 : Nat) (W : List Char) :
    parseValue (m1 + 1) ('"' :: W)
      = (parseStringBody m1 W).map (fun p => (Json.str p.1.asString, p.2)) := rfl

/-- Forward evaluation: a value at any other character is an atom. -/
theorem pv_eval_atom (m1 : Nat) (c : Char) (W : List Char)
    (h1 : c ≠ '{') (h2 : c ≠ '[') (h3 : c ≠ '"') :
    parseValue (m1 + 1) (c :: W) = parseAtom (c :: W) := by
  rw [parseValue.eq_def]
  split
  · rename_i heqz
    exact absurd heqz (by omega)
  · rename_i fuelw hfw
    have hfv : fuelw = m1 := by omega
    subst hfv
    split
    · rename_i rz heqq
      injection heqq with hq1
      exact absurd hq1 h1
    · rename_i rz heqq
      injection heqq with hq1
      exact absurd hq1 h2
    · rename_i rz heqq
      injection heqq with hq1
      exact absurd hq1 h3
    · rfl

/-- Forward evaluation: an array body at a closing bracket. -/
theorem pab_eval_close (m1 : Nat) (W : List Char) :
    parseArrBody (m1 + 1) (']' :: W) = some (Json.arr [], W) := rfl

/-- Forward evaluation: an array body at a first element. -/
theorem pab_eval_elem (m1 : Nat) (c : Char) (W : List Char) (h1 : c ≠ ']') :
    parseArrBody (m1 + 1) (c :: W)
      = (parseValue m1 (c :: W)).bind
          (fun p => parseArrRest m1 [p.1] (skipJsonWs p.2)) := by
  rw [parseArrBody.eq_def]
  split
  · rename_i heqz
    exact absurd heqz (by omega)
  · rename_i fuelw hfw
    have hfv : fuelw = m1 := by omega
    subst hfv
    split
    · rename_i rz heqq
      injection heqq with hq1
      exact absurd hq1 h1
    · rfl

/-- Forward evaluation: an array rest at a closing bracket. -/
theorem par_eval_close (m1 : Nat) (acc : List Json) (W : List Char) :
    parseArrRest (m1 + 1) acc (']' :: W) = some (Json.arr acc.reverse, W) := rfl

/-- Forward evaluation: an array rest at a comma. -/
theorem par_eval_comma (m1 : Nat) (acc : List Json) (W : List Char) :
    parseArrRest (m1 + 1) acc (',' :: W)
      = (parseValue m1 (skipJsonWs W)).bind
          (fun p => parseArrRest m1 (p.1 :: acc) (skipJsonWs p.2)) := rfl

/-- Forward evaluation: an object body at a closing brace. -/
theorem pob_eval_close (m1 : Nat) (W : List Char) :
    parseObjBody (m1 + 1) ('}' :: W) = some (Json.obj [], W) := rfl

/-- Forward evaluation: an object body at a first key. -/
theorem pob_eval_key (m1 : Nat) (W : List Char) :
    parseObjBody (m1 + 1) ('"' :: W)
      = (parseStringBody m1 W).bind (fun pk =>
          (expectColon pk.2).bind (fun r2 =>
            (parseValue m1 (skipJsonWs r2)).bind (fun pv =>
              parseObjRest m1 [(pk.1.asString, pv.1)] (skipJsonWs pv.2)))) := rfl

/-- Forward evaluation: an object rest at a closing brace. -/
theorem por_eval_close (m1 : Nat) (acc : List (String × Json)) (W : List Char) :
    parseObjRest (m1 + 1) acc ('}' :: W) = some (Json.obj acc.reverse, W) := rfl

/-- Forward evaluation: an object rest at a comma. -/
theorem por_eval_comma (m1 : Nat) (acc : List (String × Json)) (W : List Char) :
    parseObjRest (m1 + 1) acc (',' :: W)
      = (expectQuote W).bind (fun r1 =>
          (parseStringBody m1 r1).bind (fun pk =>
            (expectColon pk.2).bind (fun r2 =>
              (parseValue m1 (skipJsonWs r2)).bind (fun pv =>
                parseObjRest m1 ((pk.1.asString, pv.1) :: acc)
                  (skipJsonWs pv.2))))) := rfl

/-- Forward evaluation: an array rest at any other character fails. -/
theorem par_eval_other (m1 : Nat) (acc : List Json) (c : Char) (W : List Char)
    (h1 : c ≠ ']') (h2 : c ≠ ',') : parseArrRest (m1 + 1) acc (c :: W) = none := by
  rw [parseArrRest.eq_def]
  split
  · rfl
  · split
    · rename_i rz heq
      injection heq with hc1
      exact absurd hc1 h1
    · rename_i rz heq
      injection heq with hc1
      exact absurd hc1 h2
    · rfl

/-- Forward evaluation: an object rest at any other character fails. -/
theorem por_eval_other (m1 : Nat) (acc : List (String × Json)) (c : Char)
    (W : List Char) (h1 : c ≠ '}') (h2 : c ≠ ',') :
    parseObjRest (m1 + 1) acc (c :: W) = none := by
  rw [parseObjRest.eq_def]
  split
  · rfl
  · split
    · rename_i rz heq
      injection heq with hc1
      exact absurd hc1 h1
    · rename_i rz heq
      injection heq with hc1
      exact absurd hc1 h2
    · rfl

/-- Split an input decomposition at a parse remainder that lies strictly
inside the appended context. -/
theorem seg_split (s Z rest1 : List Char) (hseg : Seg (s ++ Z) rest1)
    (hlen : Z.length < rest1.length) :
    ∃ cV u2, s = cV ++ u2 ∧ rest1 = u2 ++ Z ∧ cV ≠ [] ∧
      cV.length + u2.length = s.length := by
  obtain ⟨cV, hceq, hne, -, -, -⟩ := hseg
  have hL := congrArg List.length hceq
  simp only [List.length_append] at hL
  have hle : cV.length ≤ s.length := by omega
  obtain ⟨u2, hs, hr⟩ := append_split_of_le s Z cV rest1 hceq hle
  have hL2 := congrArg List.length hs
  simp only [List.length_append] at hL2
  exact ⟨cV, u2, hs, hr, hne, hL2.symm⟩

/-- Context replacement for the whole mutual JSON parser: if a parse of
`x ++ (u ++ r)` succeeds consuming exactly `x ++ u` and leaving `r`, and the
cut before `r` is safe on both sides, then the same parse succeeds on
`x ++ (u ++ r')` leaving `r'`, for any fuel at least `2 * |x| + 1`. -/
theorem parse_repl (r r' : List Char) (hS : SafeCut r) (hS' : SafeCut r') :
    ∀ n : Nat,
    (∀ x u v, parseValue n (x ++ (u ++ r)) = some (v, u ++ r) →
      ∀ m, 2 * x.length + 1 ≤ m →
        parseValue m (x ++ (u ++ r')) = some (v, u ++ r')) ∧
    (∀ x u v, parseArrBody n (x ++ (u ++ r)) = some (v, u ++ r) →
      ∀ m, 2 * x.length + 1 ≤ m →
        parseArrBody m (x ++ (u ++ r')) = some (v, u ++ r')) ∧
    (∀ acc x u v, parseArrRest n acc (x ++ (u ++ r)) = some (v, u ++ r) →
      ∀ m, 2 * x.length + 1 ≤ m →
        parseArrRest m acc (x ++ (u ++ r')) = some (v, u ++ r')) ∧
    (∀ x u v, parseObjBody n (x ++ (u ++ r)) = some (v, u ++ r) →
      ∀ m, 2 * x.length + 1 ≤ m →
        parseObjBody m (x ++ (u ++ r')) = some (v, u ++ r')) ∧
    (∀ acc x u v, parseObjRest n acc (x ++ (u ++ r)) = some (v, u ++ r) →
      ∀ m, 2 * x.length + 1 ≤ m →
        parseObjRest m acc (x ++ (u ++ r')) = some (v, u ++ r')) := by
  intro n
  induction n with
  | zero =>
    refine ⟨?_, ?_, ?_, ?_, ?_⟩
    · intro x u v h m hm
      rw [parseValue] at h
      cases h
    · intro x u v h m hm
      rw [parseArrBody] at h
      cases h
    · intro acc x u v h m hm
      rw [parseArrRest] at h
      cases h
    · intro x u v h m hm
      rw [parseObjBody] at h
      cases h
    · intro acc x u v h m hm
      rw [parseObjRest] at h
      cases h
  | succ n1 ih =>
    obtain ⟨ihV, ihAB, ihAR, ihOB, ihOR⟩ := ih
    refine ⟨?_, ?_, ?_, ?_, ?_⟩
    · -- parseValue
      intro x u v h m hm
      obtain ⟨mf, rfl⟩ : ∃ mf, m = mf + 1 := ⟨m - 1, by omega⟩
      have hxne : x ≠ [] := by
        intro hx
        subst hx
        have hl := parseValue_len (n1 + 1) _ _ _ h
        simp at hl
      cases x with
      | nil => exact absurd rfl hxne
      | cons x0 xt =>
        simp only [List.length_cons] at hm
        rw [List.cons_append] at h
        rw [parseValue.eq_def] at h
        split at h
        · cases h
        · rename_i fuelv hfeq
          have hfv : n1 = fuelv := by omega
          subst hfv
          split at h
          · -- object
            rename_i rz heq
            injection heq with hx0 hrz
            replace hrz : xt ++ (u ++ r) = rz := hrz
            subst hx0
            subst hrz
            by_cases hd : xt.dropWhile isJsonWs = []
            · rw [skip_append_nil xt (u ++ r) hd] at h
              have h1 := parseObjBody_len n1 _ _ _ h
              have h2 := skip_len_le (u ++ r)
              omega
            · rw [skip_append_pos xt (u ++ r) hd] at h
              have hdlen := (xt.dropWhile_suffix isJsonWs).length_le
              have hg := ihOB (xt.dropWhile isJsonWs) u v h mf (by omega)
              rw [List.cons_append, pv_eval_brace mf (xt ++ (u ++ r')),
                skip_append_pos xt (u ++ r') hd]
              exact hg
          · -- array
            rename_i rz heq
            injection heq with hx0 hrz
            replace hrz : xt ++ (u ++ r) = rz := hrz
            subst hx0
            subst hrz
            by_cases hd : xt.dropWhile isJsonWs = []
            · rw [skip_append_nil xt (u ++ r) hd] at h
              have h1 := parseArrBody_len n1 _ _ _ h
              have h2 := skip_len_le (u ++ r)
              omega
            · rw [skip_append_pos xt (u ++ r) hd] at h
              have hdlen := (xt.dropWhile_suffix isJsonWs).length_le
              have hg := ihAB (xt.dropWhile isJsonWs) u v h mf (by omega)
              rw [List.cons_append, pv_eval_bracket mf (xt ++ (u ++ r')),
                skip_append_pos xt (u ++ r') hd]
              exact hg
          · -- string
            rename_i rz heq
            injection heq with hx0 hrz
            replace hrz : xt ++ (u ++ r) = rz := hrz
            subst hx0
            subst hrz
            obtain ⟨p, hp, hmap⟩ := Option.map_eq_some'.mp h
            obtain ⟨cs, rW⟩ := p
            have hv : Json.str cs.asString = v := congrArg Prod.fst hmap
            have hrW : rW = u ++ r := congrArg Prod.snd hmap
            subst hrW
            have hg := parseStringBody_repl (u ++ r) (u ++ r') n1 xt cs hp mf
              (by omega)
            rw [List.cons_append, pv_eval_str mf (xt ++ (u ++ r')), hg]
            show some (Json.str cs.asString, u ++ r') = some (v, u ++ r')
            rw [hv]
          · -- atom
            rename_i hn1 hn2 hn3
            have hx1 : x0 ≠ '{' := fun hh => hn1 (xt ++ (u ++ r)) (by rw [hh])
            have hx2 : x0 ≠ '[' := fun hh => hn2 (xt ++ (u ++ r)) (by rw [hh])
            have hx3 : x0 ≠ '"' := fun hh => hn3 (xt ++ (u ++ r)) (by rw [hh])
            have hg := parseAtom_repl (x0 :: xt) u r r' v hS hS' h
            rw [List.cons_append,
              pv_eval_atom mf x0 (xt ++ (u ++ r')) hx1 hx2 hx3]
            exact hg
    · -- parseArrBody
      intro x u v h m hm
      obtain ⟨mf, rfl⟩ : ∃ mf, m = mf + 1 := ⟨m - 1, by omega⟩
      have hxne : x ≠ [] := by
        intro hx
        subst hx
        have hl := parseArrBody_len (n1 + 1) _ _ _ h
        simp at hl
      cases x with
      | nil => exact absurd rfl hxne
      | cons x0 xt =>
        simp only [List.length_cons] at hm
        rw [List.cons_append] at h
        rw [parseArrBody.eq_def] at h
        split at h
        · cases h
        · rename_i fuelv hfeq
          have hfv : n1 = fuelv := by omega
          subst hfv
          split at h
          · -- immediate close
            rename_i rz heq
            injection heq with hx0 hrz
            replace hrz : xt ++ (u ++ r) = rz := hrz
            subst hx0
            subst hrz
            injection h with h1
            have hv : Json.arr [] = v := congrArg Prod.fst h1
            have hrest : xt ++ (u ++ r) = u ++ r := congrArg Prod.snd h1
            have hxt : xt = [] := eq_nil_of_append_eq_self xt (u ++ r) hrest
            subst hxt
            rw [List.cons_append, List.nil_append,
              pab_eval_close mf (u ++ r'), hv]
          · -- first element
            rename_i hn1
            have hx1 : x0 ≠ ']' := fun hh => hn1 (xt ++ (u ++ r)) (by rw [hh])
            rw [Option.bind_eq_some] at h
            obtain ⟨p, hv1, hA⟩ := h
            obtain ⟨v1, rest1⟩ := p
            dsimp only at hA
            have hLA := parseArrRest_len n1 [v1] _ _ _ hA
            have hLs := skip_len_le rest1
            have hseg := (parse_seg n1).1 _ _ _ hv1
            obtain ⟨cV, u2, hxeq, hrest1, hcVne, hlen2⟩ :=
              seg_split (x0 :: xt) (u ++ r) rest1 hseg (by omega)
            simp only [List.length_cons] at hlen2
            subst hrest1
            rw [← List.cons_append, hxeq, List.append_assoc,
              ← List.append_assoc u2 u r] at hv1
            by_cases hd2 : u2.dropWhile isJsonWs = []
            · rw [skip_append_nil u2 (u ++ r) hd2] at hLA
              have h2 := skip_len_le (u ++ r)
              omega
            · have hu2ne : u2 ≠ [] := fun h0 => hd2 (by rw [h0]; rfl)
              have hu2pos : 0 < u2.length := List.length_pos.mpr hu2ne
              have hcVpos : 0 < cV.length := List.length_pos.mpr hcVne
              have hd2len := (u2.dropWhile_suffix isJsonWs).length_le
              have hgv := ihV cV (u2 ++ u) v1 hv1 mf (by omega)
              rw [skip_append_pos u2 (u ++ r) hd2] at hA
              have hgA := ihAR [v1] (u2.dropWhile isJsonWs) u v hA mf (by omega)
              simp only [List.append_assoc] at hgv
              rw [List.cons_append, pab_eval_elem mf x0 (xt ++ (u ++ r')) hx1]
              have hgin : x0 :: (xt ++ (u ++ r')) = cV ++ (u2 ++ (u ++ r')) := by
                rw [← List.cons_append, hxeq, List.append_assoc]
              rw [hgin, hgv]
              show parseArrRest mf [v1] (skipJsonWs (u2 ++ (u ++ r')))
                = some (v, u ++ r')
              rw [skip_append_pos u2 (u ++ r') hd2]
              exact hgA
    · -- parseArrRest
      intro acc x u v h m hm
      obtain ⟨mf, rfl⟩ : ∃ mf, m = mf + 1 := ⟨m - 1, by omega⟩
      have hxne : x ≠ [] := by
        intro hx
        subst hx
        have hl := parseArrRest_len (n1 + 1) acc _ _ _ h
        simp at hl
      cases x with
      | nil => exact absurd rfl hxne
      | cons x0 xt =>
        simp only [List.length_cons] at hm
        rw [List.cons_append] at h
        by_cases hx0c : x0 = ']'
        · -- close bracket
          subst hx0c
          rw [par_eval_close n1 acc (xt ++ (u ++ r))] at h
          injection h with h1
          have hv : Json.arr acc.reverse = v := congrArg Prod.fst h1
          have hrest : xt ++ (u ++ r) = u ++ r := congrArg Prod.snd h1
          have hxt : xt = [] := eq_nil_of_append_eq_self xt (u ++ r) hrest
          subst hxt
          rw [List.cons_append, List.nil_append,
            par_eval_close mf acc (u ++ r'), hv]
        · by_cases hx0m : x0 = ','
          · -- comma and next element
            subst hx0m
            rw [par_eval_comma n1 acc (xt ++ (u ++ r))] at h
            rw [Option.bind_eq_some] at h
            obtain ⟨p, hv1, hA⟩ := h
            obtain ⟨v1, rest1⟩ := p
            dsimp only at hA
            have hLA := parseArrRest_len n1 (v1 :: acc) _ _ _ hA
            have hLs := skip_len_le rest1
            by_cases hd : xt.dropWhile isJsonWs = []
            · rw [skip_append_nil xt (u ++ r) hd] at hv1
              have h1 := parseValue_len n1 _ _ _ hv1
              have h2 := skip_len_le (u ++ r)
              omega
            · rw [skip_append_pos xt (u ++ r) hd] at hv1
              have hdlen := (xt.dropWhile_suffix isJsonWs).length_le
              have hseg := (parse_seg n1).1 _ _ _ hv1
              obtain ⟨cV, u2, hdeq, hrest1, hcVne, hlen2⟩ :=
                seg_split (xt.dropWhile isJsonWs) (u ++ r) rest1 hseg (by omega)
              subst hrest1
              rw [hdeq, List.append_assoc, ← List.append_assoc u2 u r] at hv1
              have hcVpos : 0 < cV.length := List.length_pos.mpr hcVne
              have hgv := ihV cV (u2 ++ u) v1 hv1 mf (by omega)
              by_cases hd2 : u2.dropWhile isJsonWs = []
              · rw [skip_append_nil u2 (u ++ r) hd2] at hLA
                have h2 := skip_len_le (u ++ r)
                omega
              · rw [skip_append_pos u2 (u ++ r) hd2] at hA
                have hd2len := (u2.dropWhile_suffix isJsonWs).length_le
                have hgA := ihAR (v1 :: acc) (u2.dropWhile isJsonWs) u v hA mf
                  (by omega)
                simp only [List.append_assoc] at hgv
                rw [List.cons_append, par_eval_comma mf acc (xt ++ (u ++ r')),
                  skip_append_pos xt (u ++ r') hd]
                have hgin : xt.dropWhile isJsonWs ++ (u ++ r')
                    = cV ++ (u2 ++ (u ++ r')) := by
                  rw [hdeq, List.append_assoc]
                rw [hgin, hgv]
                show parseArrRest mf (v1 :: acc) (skipJsonWs (u2 ++ (u ++ r')))
                  = some (v, u ++ r')
                rw [skip_append_pos u2 (u ++ r') hd2]
                exact hgA
          · rw [par_eval_other n1 acc x0 (xt ++ (u ++ r)) hx0c hx0m] at h
            cases h
    · -- parseObjBody
      intro x u v h m hm
      obtain ⟨mf, rfl⟩ : ∃ mf, m = mf + 1 := ⟨m - 1, by omega⟩
      have hxne : x ≠ [] := by
        intro hx
        subst hx
        have hl := parseObjBody_len (n1 + 1) _ _ _ h
        simp at hl
      cases x with
      | nil => exact absurd rfl hxne
      | cons x0 xt =>
        simp only [List.length_cons] at hm
        rw [List.cons_append] at h
        rw [parseObjBody.eq_def] at h
        split at h
        · cases h
        · rename_i fuelv hfeq
          have hfv : n1 = fuelv := by omega
          subst hfv
          split at h
          · -- immediate close
            rename_i rz heq
            injection heq with hx0 hrz
            replace hrz : xt ++ (u ++ r) = rz := hrz
            subst hx0
            subst hrz
            injection h with h1
            have hv : Json.obj [] = v := congrArg Prod.fst h1
            have hrest : xt ++ (u ++ r) = u ++ r := congrArg Prod.snd h1
            have hxt : xt = [] := eq_nil_of_append_eq_self xt (u ++ r) hrest
            subst hxt
            rw [List.cons_append, List.nil_append,
              pob_eval_close mf (u ++ r'), hv]
          · -- first member
            rename_i rz heq
            injection heq with hx0 hrz
            replace hrz : xt ++ (u ++ r) = rz := hrz
            subst hx0
            subst hrz
            rw [Option.bind_eq_some] at h
            obtain ⟨pk, hk, h⟩ := h
            obtain ⟨ks, rest1⟩ := pk
            dsimp only at h
            rw [Option.bind_eq_some] at h
            obtain ⟨r2v, hc, h⟩ := h
            rw [Option.bind_eq_some] at h
            obtain ⟨pv, hv1, hR⟩ := h
            obtain ⟨v1, rest3⟩ := pv
            dsimp only at hR
            have hL4 := parseObjRest_len n1 [(ks.asString, v1)] _ _ _ hR
            have hL4b := skip_len_le rest3
            have hL3 := parseValue_len n1 _ _ _ hv1
            have hL3b := skip_len_le r2v
            have hcEq := expectColon_eq rest1 r2v hc
            have hL2 : (skipJsonWs rest1).length = r2v.length + 1 := by
              rw [hcEq]
              rfl
            have hL2b := skip_len_le rest1
            have hur : (u ++ r).length = u.length + r.length := by simp
            obtain ⟨cS, hdec, hcSne, hnlS, hlastS⟩ :=
              parseStringBody_seg n1 _ _ _ hk
            have hLd := congrArg List.length hdec
            simp only [List.length_append] at hLd
            obtain ⟨u1, hxt, hrest1⟩ :=
              append_split_of_le xt (u ++ r) cS rest1 hdec (by omega)
            subst hrest1
            rw [hxt, List.append_assoc] at hk
            have hLxt := congrArg List.length hxt
            simp only [List.length_append] at hLxt
            have hgk := parseStringBody_repl (u1 ++ (u ++ r))
              (u1 ++ (u ++ r')) n1 cS ks hk mf (by omega)
            by_cases hd1 : u1.dropWhile isJsonWs = []
            · rw [skip_append_nil u1 (u ++ r) hd1] at hcEq
              have h1 := congrArg List.length hcEq
              simp only [List.length_cons] at h1
              have h2 := skip_len_le (u ++ r)
              omega
            · rw [skip_append_pos u1 (u ++ r) hd1] at hcEq
              cases hd1eq : u1.dropWhile isJsonWs with
              | nil => exact absurd hd1eq hd1
              | cons e1 d1t =>
                rw [hd1eq, List.cons_append] at hcEq
                injection hcEq with he1 hr2v
                subst he1
                replace hr2v : d1t ++ (u ++ r) = r2v := hr2v
                subst hr2v
                have hLd1 := congrArg List.length hd1eq
                simp only [List.length_cons] at hLd1
                have hd1le := (u1.dropWhile_suffix isJsonWs).length_le
                by_cases hd2 : d1t.dropWhile isJsonWs = []
                · rw [skip_append_nil d1t (u ++ r) hd2] at hv1
                  have h1 := parseValue_len n1 _ _ _ hv1
                  have h2 := skip_len_le (u ++ r)
                  omega
                · rw [skip_append_pos d1t (u ++ r) hd2] at hv1
                  have hd2le := (d1t.dropWhile_suffix isJsonWs).length_le
                  have hseg := (parse_seg n1).1 _ _ _ hv1
                  obtain ⟨cV, u3, hd2eq, hrest3, hcVne, hlen3⟩ :=
                    seg_split (d1t.dropWhile isJsonWs) (u ++ r) rest3 hseg
                      (by omega)
                  subst hrest3
                  rw [hd2eq, List.append_assoc, ← List.append_assoc u3 u r]
                    at hv1
                  have hcVpos : 0 < cV.length := List.length_pos.mpr hcVne
                  have hgv := ihV cV (u3 ++ u) v1 hv1 mf (by omega)
                  by_cases hd3 : u3.dropWhile isJsonWs = []
                  · rw [skip_append_nil u3 (u ++ r) hd3] at hR
                    have h1 := parseObjRest_len n1 [(ks.asString, v1)] _ _ _ hR
                    have h2 := skip_len_le (u ++ r)
                    omega
                  · rw [skip_append_pos u3 (u ++ r) hd3] at hR
                    have hd3le := (u3.dropWhile_suffix isJsonWs).length_le
                    have hgR := ihOR [(ks.asString, v1)]
                      (u3.dropWhile isJsonWs) u v hR mf (by omega)
                    simp only [List.append_assoc] at hgv
                    rw [List.cons_append, pob_eval_key mf (xt ++ (u ++ r'))]
                    have hgin : xt ++ (u ++ r') = cS ++ (u1 ++ (u ++ r')) := by
                      rw [hxt, List.append_assoc]
                    rw [hgin, hgk]
                    simp only [Option.some_bind]
                    have hgc : expectColon (u1 ++ (u ++ r'))
                        = some (d1t ++ (u ++ r')) := by
                      rw [expectColon]
                      rw [skip_append_pos u1 (u ++ r') hd1, hd1eq]
                      rfl
                    rw [hgc]
                    simp only [Option.some_bind]
                    rw [skip_append_pos d1t (u ++ r') hd2]
                    have hgin2 : d1t.dropWhile isJsonWs ++ (u ++ r')
                        = cV ++ (u3 ++ (u ++ r')) := by
                      rw [hd2eq, List.append_assoc]
                    rw [hgin2, hgv]
                    simp only [Option.some_bind]
                    rw [skip_append_pos u3 (u ++ r') hd3]
                    exact hgR
          · cases h
    · -- parseObjRest
      intro acc x u v h m hm
      obtain ⟨mf, rfl⟩ : ∃ mf, m = mf + 1 := ⟨m - 1, by omega⟩
      have hxne : x ≠ [] := by
        intro hx
        subst hx
        have hl := parseObjRest_len (n1 + 1) acc _ _ _ h
        simp at hl
      cases x with
      | nil => exact absurd rfl hxne
      | cons x0 xt =>
        simp only [List.length_cons] at hm
        rw [List.cons_append] at h
        by_cases hx0c : x0 = '}'
        · -- close brace
          subst hx0c
          rw [por_eval_close n1 acc (xt ++ (u ++ r))] at h
          injection h with h1
          have hv : Json.obj acc.reverse = v := congrArg Prod.fst h1
          have hrest : xt ++ (u ++ r) = u ++ r := congrArg Prod.snd h1
          have hxt : xt = [] := eq_nil_of_append_eq_self xt (u ++ r) hrest
          subst hxt
          rw [List.cons_append, List.nil_append,
            por_eval_close mf acc (u ++ r'), hv]
        · by_cases hx0m : x0 = ','
          · -- comma and next member
            subst hx0m
            rw [por_eval_comma n1 acc (xt ++ (u ++ r))] at h
            rw [Option.bind_eq_some] at h
            obtain ⟨r1v, hq, h⟩ := h
            rw [Option.bind_eq_some] at h
            obtain ⟨pk, hk, h⟩ := h
            obtain ⟨ks, rest1⟩ := pk
            dsimp only at h
            rw [Option.bind_eq_some] at h
            obtain ⟨r2v, hc, h⟩ := h
            rw [Option.bind_eq_some] at h
            obtain ⟨pv, hv1, hR⟩ := h
            obtain ⟨v1, rest3⟩ := pv
            dsimp only at hR
            have hL4 := parseObjRest_len n1 ((ks.asString, v1) :: acc) _ _ _ hR
            have hL4b := skip_len_le rest3
            have hL3 := parseValue_len n1 _ _ _ hv1
            have hL3b := skip_len_le r2v
            have hcEq := expectColon_eq rest1 r2v hc
            have hL2 : (skipJsonWs rest1).length = r2v.length + 1 := by
              rw [hcEq]
              rfl
            have hL2b := skip_len_le rest1
            have hur : (u ++ r).length = u.length + r.length := by simp
            have hLk := strSeg_len_lt _ _ (parseStringBody_seg n1 _ _ _ hk)
            have hqEq := expectQuote_eq _ _ hq
            by_cases hdq : xt.dropWhile isJsonWs = []
            · rw [skip_append_nil xt (u ++ r) hdq] at hqEq
              have h1 := congrArg List.length hqEq
              simp only [List.length_cons] at h1
              have h2 := skip_len_le (u ++ r)
              omega
            · rw [skip_append_pos xt (u ++ r) hdq] at hqEq
              cases hdqeq : xt.dropWhile isJsonWs with
              | nil => exact absurd hdqeq hdq
              | cons eQ dqt =>
                rw [hdqeq, List.cons_append] at hqEq
                injection hqEq with heQ hr1v
                subst heQ
                replace hr1v : dqt ++ (u ++ r) = r1v := hr1v
                subst hr1v
                have hLdq := congrArg List.length hdqeq
                simp only [List.length_cons] at hLdq
                have hdqle := (xt.dropWhile_suffix isJsonWs).length_le
                obtain ⟨cS, hdec, hcSne, hnlS, hlastS⟩ :=
                  parseStringBody_seg n1 _ _ _ hk
                have hLd := congrArg List.length hdec
                simp only [List.length_append] at hLd
                obtain ⟨u1, hdqt, hrest1⟩ :=
                  append_split_of_le dqt (u ++ r) cS rest1 hdec (by omega)
                subst hrest1
                rw [hdqt, List.append_assoc] at hk
                have hLdqt := congrArg List.length hdqt
                simp only [List.length_append] at hLdqt
                have hgk := parseStringBody_repl (u1 ++ (u ++ r))
                  (u1 ++ (u ++ r')) n1 cS ks hk mf (by omega)
                by_cases hd1 : u1.dropWhile isJsonWs = []
                · rw [skip_append_nil u1 (u ++ r) hd1] at hcEq
                  have h1 := congrArg List.length hcEq
                  simp only [List.length_cons] at h1
                  have h2 := skip_len_le (u ++ r)
                  omega
                · rw [skip_append_pos u1 (u ++ r) hd1] at hcEq
                  cases hd1eq : u1.dropWhile isJsonWs with
                  | nil => exact absurd hd1eq hd1
                  | cons e1 d1t =>
                    rw [hd1eq, List.cons_append] at hcEq
                    injection hcEq with he1 hr2v
                    subst he1
                    replace hr2v : d1t ++ (u ++ r) = r2v := hr2v
                    subst hr2v
                    have hLd1 := congrArg List.length hd1eq
                    simp only [List.length_cons] at hLd1
                    have hd1le := (u1.dropWhile_suffix isJsonWs).length_le
                    by_cases hd2 : d1t.dropWhile isJsonWs = []
                    · rw [skip_append_nil d1t (u ++ r) hd2] at hv1
                      have h1 := parseValue_len n1 _ _ _ hv1
                      have h2 := skip_len_le (u ++ r)
                      omega
                    · rw [skip_append_pos d1t (u ++ r) hd2] at hv1
                      have hd2le := (d1t.dropWhile_suffix isJsonWs).length_le
                      have hseg := (parse_seg n1).1 _ _ _ hv1
                      obtain ⟨cV, u3, hd2eq, hrest3, hcVne, hlen3⟩ :=
                        seg_split (d1t.dropWhile isJsonWs) (u ++ r) rest3 hseg
                          (by omega)
                      subst hrest3
                      rw [hd2eq, List.append_assoc, ← List.append_assoc u3 u r]
                        at hv1
                      have hcVpos : 0 < cV.length := List.length_pos.mpr hcVne
                      have hgv := ihV cV (u3 ++ u) v1 hv1 mf (by omega)
                      by_cases hd3 : u3.dropWhile isJsonWs = []
                      · rw [skip_append_nil u3 (u ++ r) hd3] at hR
                        have h1 := parseObjRest_len n1
                          ((ks.asString, v1) :: acc) _ _ _ hR
                        have h2 := skip_len_le (u ++ r)
                        omega
                      · rw [skip_append_pos u3 (u ++ r) hd3] at hR
                        have hd3le := (u3.dropWhile_suffix isJsonWs).length_le
                        have hgR := ihOR ((ks.asString, v1) :: acc)
                          (u3.dropWhile isJsonWs) u v hR mf (by omega)
                        simp only [List.append_assoc] at hgv
                        rw [List.cons_append,
                          por_eval_comma mf acc (xt ++ (u ++ r'))]
                        have hgq : expectQuote (xt ++ (u ++ r'))
                            = some (dqt ++ (u ++ r')) := by
                          rw [expectQuote]
                          rw [skip_append_pos xt (u ++ r') hdq, hdqeq]
                          rfl
                        rw [hgq]
                        simp only [Option.some_bind]
                        have hgin : dqt ++ (u ++ r')
                            = cS ++ (u1 ++ (u ++ r')) := by
                          rw [hdqt, List.append_assoc]
                        rw [hgin, hgk]
                        simp only [Option.some_bind]
                        have hgc : expectColon (u1 ++ (u ++ r'))
                            = some (d1t ++ (u ++ r')) := by
                          rw [expectColon]
                          rw [skip_append_pos u1 (u ++ r') hd1, hd1eq]
                          rfl
                        rw [hgc]
                        simp only [Option.some_bind]
                        rw [skip_append_pos d1t (u ++ r') hd2]
                        have hgin2 : d1t.dropWhile isJsonWs ++ (u ++ r')
                            = cV ++ (u3 ++ (u ++ r')) := by
                          rw [hd2eq, List.append_assoc]
                        rw [hgin2, hgv]
                        simp only [Option.some_bind]
                        rw [skip_append_pos u3 (u ++ r') hd3]
                        exact hgR
          · rw [por_eval_other n1 acc x0 (xt ++ (u ++ r)) hx0c hx0m] at h
            cases h

/-- The head (if any) belongs to the list. -/
theorem mem_of_head? {l : List Char} {a : Char} (h : l.head? = some a) : a ∈ l := by
  cases l with
  | nil => cases h
  | cons c t =>
    have h1 : some c = some a := h
    injection h1 with h2
    rw [← h2]
    exact List.mem_cons_self c t

/-- JSON whitespace is Python whitespace. -/
theorem isJsonWs_isPyWs (ch : Char) (h : isJsonWs ch = true) : isPyWs ch = true := by
  have hc : ch = ' ' ∨ ch = '\t' ∨ ch = '\n' ∨ ch = '\r' := by
    simpa [isJsonWs, or_assoc] using h
  rcases hc with rfl | rfl | rfl | rfl <;> decide

/-- An all-whitespace remainder is a safe cut for the number lexer. -/
theorem safeCut_all_ws (r : List Char) (h : ∀ ch ∈ r, isJsonWs ch = true) :
    SafeCut r := by
  intro ch hch
  have hw := h ch (mem_of_head? hch)
  have hc : ch = ' ' ∨ ch = '\t' ∨ ch = '\n' ∨ ch = '\r' := by
    simpa [isJsonWs, or_assoc] using hw
  rcases hc with rfl | rfl | rfl | rfl <;> exact (by decide)

/-- The empty remainder is a safe cut. -/
theorem safeCut_nil : SafeCut [] := by
  intro ch hch
  cases hch

/-- A successful `findSome?` comes from some element of the list. -/
theorem findSome?_mem_of_eq_some {α β : Type} (l : List α) (f : α → Option β)
    (b : β) (h : l.findSome? f = some b) : ∃ a ∈ l, f a = some b := by
  induction l with
  | nil => cases h
  | cons c t ih =>
    rw [List.findSome?_cons] at h
    cases hf : f c with
    | some y =>
      rw [hf] at h
      have hy : y = b := by injection h
      exact ⟨c, List.mem_cons_self c t, by rw [hf, hy]⟩
    | none =>
      rw [hf] at h
      obtain ⟨a, ha, hfa⟩ := ih h
      exact ⟨a, List.mem_cons_of_mem _ ha, hfa⟩

/-- `findSome?` succeeds when some member succeeds. -/
theorem findSome?_isSome_of_mem {α β : Type} (l : List α) (f : α → Option β)
    (a : α) (ha : a ∈ l) (b : β) (hb : f a = some b) :
    ∃ y, l.findSome? f = some y := by
  induction l with
  | nil => cases ha
  | cons c t ih =>
    rw [List.findSome?_cons]
    cases hf : f c with
    | some y => exact ⟨y, rfl⟩
    | none =>
      rcases List.mem_cons.mp ha with rfl | hat
      · rw [hf] at hb
        cases hb
      · exact ih hat

/-- Python strip is the identity on text with non-whitespace ends. -/
theorem pyStripL_id (c0 : Char) (ct : List Char) (hh : isPyWs c0 = false)
    (hl : ∀ ch, (c0 :: ct).getLast? = some ch → isPyWs ch = false) :
    pyStripL (c0 :: ct) = c0 :: ct := by
  have hs := pyStripL_sandwich [] c0 ct []
    (by intro ch hch; cases hch) (by intro ch hch; cases hch) hh hl
  simpa using hs

/-- `toList` distributes over string concatenation. -/
theorem toList_append (s t : String) : (s ++ t).toList = s.toList ++ t.toList := by
  cases s
  cases t
  rfl

/-- Introduction form for `json_loads`. -/
theorem json_loads_of_parse (s : String) (v : Json) (rest : List Char)
    (hp : parseValue (2 * s.toList.length + 2) (skipJsonWs s.toList)
      = some (v, rest))
    (hr : skipJsonWs rest = []) : json_loads s = some v := by
  show (match parseValue (2 * s.toList.length + 2) (skipJsonWs s.toList) with
        | some (v0, rest0) => if skipJsonWs rest0 = [] then some v0 else none
        | none => none) = some v
  rw [hp]
  show (if skipJsonWs rest = [] then some v else none) = some v
  rw [if_pos hr]

/-- Inversion of `json_loads`: a successful load is a full parse whose
remainder is trailing whitespace. -/
theorem json_loads_inv (s : String) (v : Json) (h : json_loads s = some v) :
    ∃ rest, parseValue (2 * s.toList.length + 2) (skipJsonWs s.toList)
      = some (v, rest) ∧ skipJsonWs rest = [] := by
  have h0 : (match parseValue (2 * s.toList.length + 2) (skipJsonWs s.toList) with
        | some (v0, rest0) => if skipJsonWs rest0 = [] then some v0 else none
        | none => none) = some v := h
  cases hp : parseValue (2 * s.toList.length + 2) (skipJsonWs s.toList) with
  | none =>
    rw [hp] at h0
    cases h0
  | some p =>
    obtain ⟨v1, rest⟩ := p
    rw [hp] at h0
    have h1 : (if skipJsonWs rest = [] then some v1 else none) = some v := h0
    by_cases hws : skipJsonWs rest = []
    · rw [if_pos hws] at h1
      have hv : v1 = v := by injection h1
      exact ⟨rest, by rw [hv], hws⟩
    · rw [if_neg hws] at h1
      cases h1

/-- Evaluation of the fence regex search when the pattern matches at the
start. -/
theorem reSearch_eval (t : List Char) (g : List Char)
    (hm : matchAt openJson t = true) (hg : matchFenceBody (t.drop 7) = some g) :
    reSearchJsonFence t = some g := by
  cases t with
  | nil => exact absurd hm (by decide)
  | cons a t' =>
    have he : reSearchJsonFence (a :: t')
        = if matchAt openJson (a :: t') = true then
            (match matchFenceBody ((a :: t').drop 7) with
             | some g0 => some g0
             | none => reSearchJsonFence t')
          else reSearchJsonFence t' := rfl
    rw [he, if_pos hm, hg]

/-- The fence-body match on a wrapped JSON payload returns the payload with
its leading whitespace partially trimmed. -/
theorem matchFenceBody_wrap (w1 : List Char) (c0 : Char) (ct w2 : List Char)
    (hw1 : ∀ ch ∈ w1, isJsonWs ch = true) (hw2 : ∀ ch ∈ w2, isJsonWs ch = true)
    (hh : isPyWs c0 = false) (hbt : c0 ≠ btChar)
    (hcnb : hasNB (c0 :: ct) = false) :
    ∃ u, (∀ ch ∈ u, isJsonWs ch = true) ∧
      matchFenceBody (('\n' :: w1) ++ (((c0 :: ct) ++ w2) ++ fenceClose))
        = some (u ++ ((c0 :: ct) ++ w2)) := by
  have hWpy : ∀ ch ∈ ('\n' :: w1), isPyWs ch = true := by
    intro ch hch
    rcases List.mem_cons.mp hch with rfl | hmem
    · decide
    · exact isJsonWs_isPyWs ch (hw1 ch hmem)
  have hZhd : ∀ ch, (((c0 :: ct) ++ w2) ++ fenceClose).head? = some ch →
      isPyWs ch = false := by
    intro ch hch
    have h0 : some c0 = some ch := hch
    injection h0 with h0
    rw [← h0]
    exact hh
  have hRun : wsRunLen (('\n' :: w1) ++ (((c0 :: ct) ++ w2) ++ fenceClose))
      = w1.length + 1 := by
    unfold wsRunLen
    rw [takeWhile_all_append isPyWs ('\n' :: w1) _ hWpy hZhd]
    simp
  have hone : 1 ∈ candidateJs (('\n' :: w1) ++ (((c0 :: ct) ++ w2) ++ fenceClose)) := by
    unfold candidateJs
    rw [hRun]
    apply List.mem_filter.mpr
    refine ⟨(mem_descRange _ _).mpr ⟨le_refl 1, by omega⟩, ?_⟩
    exact decide_eq_true rfl
  have heval : ∀ j ∈ candidateJs (('\n' :: w1) ++ (((c0 :: ct) ++ w2) ++ fenceClose)),
      (findFence ((('\n' :: w1) ++ (((c0 :: ct) ++ w2) ++ fenceClose)).drop j)).map
          (fun m => ((('\n' :: w1) ++ (((c0 :: ct) ++ w2) ++ fenceClose)).drop j).take m)
        = some ((('\n' :: w1).drop j) ++ ((c0 :: ct) ++ w2)) := by
    intro j hj
    unfold candidateJs at hj
    have hjd := (List.mem_filter.mp hj).1
    have hjb := (mem_descRange _ j).mp hjd
    rw [hRun] at hjb
    have hz : j - ('\n' :: w1).length = 0 := by
      simp only [List.length_cons]
      omega
    have hdropR : (('\n' :: w1) ++ (((c0 :: ct) ++ w2) ++ fenceClose)).drop j
        = (('\n' :: w1).drop j) ++ (((c0 :: ct) ++ w2) ++ fenceClose) := by
      rw [List.drop_append_eq_append_drop, hz, List.drop_zero]
    have hupy : ∀ ch ∈ ('\n' :: w1).drop j, isPyWs ch = true :=
      fun ch hm => hWpy ch (List.mem_of_mem_drop hm)
    have hw2py : ∀ ch ∈ w2, isPyWs ch = true :=
      fun ch hm => isJsonWs_isPyWs ch (hw2 ch hm)
    have hnb : hasNB ((('\n' :: w1).drop j) ++ ((c0 :: ct) ++ w2)) = false := by
      have h1 : hasNB (('\n' :: w1).drop j) = false := hasNB_all_ws _ hupy
      have h2 : hasNB w2 = false := hasNB_all_ws _ hw2py
      have h4 : startsBT w2 = false := by
        apply startsBT_eq_false
        intro ch hch he
        have hm := hw2py ch (mem_of_head? hch)
        rw [he] at hm
        exact absurd hm (by decide)
      have h3 : startsBT (c0 :: (ct ++ w2)) = false := by
        show decide (c0 = btChar) = false
        exact decide_eq_false hbt
      have h5 : hasNB (c0 :: (ct ++ w2)) = false := by
        show hasNB ((c0 :: ct) ++ w2) = false
        rw [hasNB_append]
        simp [hcnb, h4, h2]
      rw [hasNB_append]
      simp [h1, h3, h5]
    have hcore : (('\n' :: w1).drop j) ++ (((c0 :: ct) ++ w2) ++ fenceClose)
        = ((('\n' :: w1).drop j) ++ ((c0 :: ct) ++ w2)) ++ fenceClose := by
      simp [List.append_assoc]
    rw [hdropR, hcore, findFence_boundary _ hnb, Option.map_some', List.take_left]
  obtain ⟨g, hg⟩ := findSome?_isSome_of_mem
    (candidateJs (('\n' :: w1) ++ (((c0 :: ct) ++ w2) ++ fenceClose)))
    (fun j => (findFence ((('\n' :: w1) ++ (((c0 :: ct) ++ w2) ++ fenceClose)).drop j)).map
      (fun m => ((('\n' :: w1) ++ (((c0 :: ct) ++ w2) ++ fenceClose)).drop j).take m))
    1 hone _ (heval 1 hone)
  obtain ⟨j, hjmem, hjg⟩ := findSome?_mem_of_eq_some _ _ g hg
  have hje := heval j hjmem
  rw [hje] at hjg
  have hgeq : (('\n' :: w1).drop j) ++ ((c0 :: ct) ++ w2) = g := by injection hjg
  refine ⟨('\n' :: w1).drop j, ?_, ?_⟩
  · intro ch hmem
    rcases List.mem_cons.mp (List.mem_of_mem_drop hmem) with rfl | hm2
    · decide
    · exact hw1 ch hm2
  · show (candidateJs (('\n' :: w1) ++ (((c0 :: ct) ++ w2) ++ fenceClose))).findSome?
        (fun j => (findFence ((('\n' :: w1) ++ (((c0 :: ct) ++ w2) ++ fenceClose)).drop j)).map
          (fun m => ((('\n' :: w1) ++ (((c0 :: ct) ++ w2) ++ fenceClose)).drop j).take m))
      = some ((('\n' :: w1).drop j) ++ ((c0 :: ct) ++ w2))
    rw [hg, hgeq]

/-- Evaluation of the response cleaner through the regex branch. -/
theorem cleanResponse_fence_eval (s : String) (g : List Char)
    (hm : matchAt openJson (pyStripL s.toList) = true)
    (hrs : reSearchJsonFence (pyStripL s.toList) = some g) :
    cleanResponse s = (pyStripL g).asString := by
  unfold cleanResponse
  simp only [hm, hrs, if_true]

/-- Cleaning a wrapped whitespace-padded JSON payload returns exactly the
payload's token core. -/
theorem cleanResponse_wrap (b : String) (w1 : List Char) (c0 : Char)
    (ct w2 : List Char)
    (hb : b.toList = w1 ++ ((c0 :: ct) ++ w2))
    (hw1 : ∀ ch ∈ w1, isJsonWs ch = true) (hw2 : ∀ ch ∈ w2, isJsonWs ch = true)
    (hh : isPyWs c0 = false) (hbt : c0 ≠ btChar)
    (hclast : ∀ ch, (c0 :: ct).getLast? = some ch → isPyWs ch = false)
    (hcnb : hasNB (c0 :: ct) = false) :
    cleanResponse (wrapJson b) = (c0 :: ct).asString := by
  have hX : (wrapJson b).toList = openJson ++ ('\n' :: (b.toList ++ fenceClose)) := by
    show ("```json\n" ++ b ++ "\n```").toList = _
    rw [toList_append, toList_append]
    have h1 : ("```json\n" : String).toList = openJson ++ ['\n'] := by decide
    have h2 : ("\n```" : String).toList = fenceClose := by decide
    rw [h1, h2]
    simp [List.append_assoc]
  have hXcons : (wrapJson b).toList
      = btChar :: ([btChar, btChar, 'j', 's', 'o', 'n']
          ++ ('\n' :: (b.toList ++ fenceClose))) := by
    rw [hX]
    rfl
  have hlastX : ∀ ch, ((wrapJson b).toList).getLast? = some ch →
      isPyWs ch = false := by
    intro ch hchl
    rw [hX] at hchl
    have hre : openJson ++ ('\n' :: (b.toList ++ fenceClose))
        = (openJson ++ ('\n' :: b.toList)) ++ fenceClose := by
      simp [List.append_assoc]
    rw [hre, List.getLast?_append_of_ne_nil _ (by decide : fenceClose ≠ [])] at hchl
    have hfc : fenceClose.getLast? = some btChar := by decide
    rw [hfc] at hchl
    injection hchl with h1
    rw [← h1]
    decide
  have hclean : pyStripL ((wrapJson b).toList) = (wrapJson b).toList := by
    rw [hXcons]
    exact pyStripL_id btChar _ (by decide)
      (fun ch hch => hlastX ch (by rw [hXcons]; exact hch))
  obtain ⟨u, hu, hMF⟩ := matchFenceBody_wrap w1 c0 ct w2 hw1 hw2 hh hbt hcnb
  have hdrop7 : ((wrapJson b).toList).drop 7
      = ('\n' :: w1) ++ (((c0 :: ct) ++ w2) ++ fenceClose) := by
    rw [hX, show (7 : Nat) = openJson.length from rfl, List.drop_left, hb]
    simp [List.append_assoc]
  have hRS : reSearchJsonFence (pyStripL ((wrapJson b).toList))
      = some (u ++ ((c0 :: ct) ++ w2)) := by
    rw [hclean]
    apply reSearch_eval
    · rw [hX]
      exact matchAt_append_self _ _
    · rw [hdrop7]
      exact hMF
  have hmatch : matchAt openJson (pyStripL ((wrapJson b).toList)) = true := by
    rw [hclean, hX]
    exact matchAt_append_self _ _
  rw [cleanResponse_fence_eval (wrapJson b) (u ++ ((c0 :: ct) ++ w2)) hmatch hRS]
  have hupy : ∀ ch ∈ u, isPyWs ch = true :=
    fun ch hm => isJsonWs_isPyWs ch (hu ch hm)
  have hw2py : ∀ ch ∈ w2, isPyWs ch = true :=
    fun ch hm => isJsonWs_isPyWs ch (hw2 ch hm)
  have hs : pyStripL (u ++ ((c0 :: ct) ++ w2)) = c0 :: ct := by
    rw [← List.append_assoc]
    exact pyStripL_sandwich u c0 ct w2 hupy hw2py hh hclast
  rw [hs]

/-- C8: for every JSON body `b` that parses, extracting the advisory
response consisting of `b` wrapped in a labelled fenced code block
(`"```json\n" ++ b ++ "\n```"`) yields the same strategy as parsing `b`
directly: the clean-then-parse composition succeeds with the very value
`json.loads` gives on the unwrapped body. -/
theorem C8_fenced_equals_plain (b : String) (v : Json)
    (h : json_loads b = some v) :
    json_loads (cleanResponse (wrapJson b)) = some v ∧
    extractStrategy (wrapJson b) = v := by
  obtain ⟨w2, hp, hw2nil⟩ := json_loads_inv b v h
  have hw2 : ∀ ch ∈ w2, isJsonWs ch = true := List.dropWhile_eq_nil_iff.mp hw2nil
  have hsplit : b.toList.takeWhile isJsonWs ++ skipJsonWs b.toList = b.toList :=
    List.takeWhile_append_dropWhile isJsonWs b.toList
  have hw1 : ∀ ch ∈ b.toList.takeWhile isJsonWs, isJsonWs ch = true :=
    fun ch hm => List.mem_takeWhile_imp hm
  obtain ⟨c, hXc, hcne, hchead, hclast, hcnb⟩ :=
    (parse_seg (2 * b.toList.length + 2)).1 _ _ _ hp
  have hSr : SafeCut w2 := safeCut_all_ws w2 hw2
  have hp2 : parseValue (2 * b.toList.length + 2) (c ++ ([] ++ w2))
      = some (v, [] ++ w2) := by
    rw [List.nil_append, ← hXc]
    exact hp
  have htr := (parse_repl w2 [] hSr safeCut_nil (2 * b.toList.length + 2)).1
    c [] v hp2 (2 * c.length + 2) (by omega)
  have htr2 : parseValue (2 * c.length + 2) c = some (v, []) := by
    simpa using htr
  obtain ⟨c0, ct, rfl⟩ : ∃ c0 ct, c = c0 :: ct := by
    cases c with
    | nil => exact absurd rfl hcne
    | cons a t => exact ⟨a, t, rfl⟩
  have hch0 := hchead c0 rfl
  have hb : b.toList = b.toList.takeWhile isJsonWs ++ ((c0 :: ct) ++ w2) := by
    rw [← hXc]
    exact hsplit.symm
  have hCR : cleanResponse (wrapJson b) = (c0 :: ct).asString :=
    cleanResponse_wrap b (b.toList.takeWhile isJsonWs) c0 ct w2 hb hw1 hw2
      hch0.1 hch0.2 hclast hcnb
  have hskipc : skipJsonWs (c0 :: ct) = c0 :: ct := by
    apply dropWhile_cons_neg
    cases hj : isJsonWs c0
    · rfl
    · have hpy := isJsonWs_isPyWs c0 hj
      rw [hch0.1] at hpy
      exact absurd hpy (by decide)
  have hp3 : parseValue (2 * (c0 :: ct).length + 2) (skipJsonWs (c0 :: ct))
      = some (v, []) := by
    rw [hskipc]
    exact htr2
  have hjl : json_loads ((c0 :: ct).asString) = some v :=
    json_loads_of_parse ((c0 :: ct).asString) v [] hp3 rfl
  refine ⟨?_, ?_⟩
  · rw [hCR]
    exact hjl
  · unfold extractStrategy
    rw [hCR, hjl]

/-- C8 witness: the concrete body `\x7b"a": 1\x7d` wrapped in a labelled
fence parses to the same object as the bare body. -/
theorem C8_fenced_equals_plain_witness :
    json_loads "\x7b\"a\": 1\x7d" = some (Json.obj [("a", Json.num "1")]) ∧
    (json_loads (cleanResponse (wrapJson "\x7b\"a\": 1\x7d"))
        = some (Json.obj [("a", Json.num "1")]) ∧
      extractStrategy (wrapJson "\x7b\"a\": 1\x7d")
        = Json.obj [("a", Json.num "1")]) :=
  ⟨by rfl, C8_fenced_equals_plain "\x7b\"a\": 1\x7d"
    (Json.obj [("a", Json.num "1")]) (by rfl)⟩

end AIDoc
